import Mathlib

/-!
# Asset server (assignment-client/src/assets/AssetServer.cpp)

A shallow embedding of the request handlers of the asset server and of the
mapping table they maintain, followed by the properties proved about them.

The server object is a record that is passed through every handler; a handler
returns the new server state together with the request message after the reads
it performed.  Packets handed to `nodeList->sendPacket` are appended to
`sentPackets`, tasks handed to `_taskPool.start` are appended to `_taskPool`.
-/

namespace Hifi

/-! ## Qt value types -/

/-- A `QByteArray`: a sequence of bytes. -/
abbrev QByteArray := List Nat

/-- A `QString`: a sequence of characters. -/
abbrev QString := String

/-- The bytes `QString::toLatin1` produces for one character: its code when it
is below 256, otherwise a question mark for each of its UTF-16 code units. -/
def QChar.toLatin1 (c : Char) : QByteArray :=
  if c.toNat < 256 then [c.toNat]
  else if c.toNat < 65536 then [63]
  else [63, 63]

/-- Method `QString::toLatin1`. -/
def QString.toLatin1 (s : QString) : QByteArray :=
  s.toList.flatMap QChar.toLatin1

/-- The lowercase hexadecimal digit (as an ASCII code) of a value below 16. -/
def hexDigit (n : Nat) : Nat :=
  if n < 10 then 48 + n else 87 + n

/-- Method `QByteArray::toHex`: two lowercase hexadecimal digits per byte. -/
def QByteArray.toHex (b : QByteArray) : QByteArray :=
  b.flatMap (fun x => [hexDigit (x / 16 % 16), hexDigit (x % 16)])

/-- The conversion `QString(const QByteArray&)`.  The server applies it to the
output of `toHex` only, which is ASCII, where every codec yields the character
with the code of the byte. -/
def QString.fromQByteArray (b : QByteArray) : QString :=
  String.mk (b.map Char.ofNat)

/-! ## Declarations of AssetUtils.h and of the networking library -/

/-- Modelled from the spec: `SHA256_HASH_LENGTH` is declared in AssetUtils.h,
which is not among the sources; the spec fixes the hash as a 256-bit digest,
that is 32 bytes. -/
def SHA256_HASH_LENGTH : Nat := 32

/-- Modelled from the spec: `SHA256_HASH_HEX_LENGTH` is declared in
AssetUtils.h, which is not among the sources; the spec represents a hash as a
64-character lowercase hexadecimal string. -/
def SHA256_HASH_HEX_LENGTH : Nat := 64

abbrev AssetPath := QString
abbrev AssetHash := QString

/-- The enumerators of `AssetMappingOperationType` named by the server. -/
inductive AssetMappingOperationType where
  | Get
  | Set
  | Delete
  deriving DecidableEq, Repr

/-- The enumerators of `AssetServerError` named by the server. -/
inductive AssetServerError where
  | NoError
  | AssetNotFound
  | PermissionDenied
  deriving DecidableEq, Repr

/-- The parts of the wire format that are declared outside the sources and that
the handlers depend on; they are a parameter of every handler.

* the `sizeof` of the primitive types read from and written to packets;
* `toOperationType`: which enumerator, if any, the object representation of an
  `AssetMappingOperationType` read off the wire denotes;
* `decodeString`: what `ReceivedMessage::readString` decodes from the unread
  bytes, with the number of bytes it consumes. -/
structure AssetUtils where
  sizeofMessageID : Nat
  sizeofDataOffset : Nat
  sizeofAssetMappingOperationType : Nat
  sizeofAssetServerError : Nat
  toOperationType : QByteArray → Option AssetMappingOperationType
  decodeString : QByteArray → QString × Nat

/-- The conversion of a `size_t` (64 bits) to `qint64`. -/
def qint64 (n : Nat) : Int :=
  if n % 2 ^ 64 < 2 ^ 63 then ((n % 2 ^ 64 : Nat) : Int)
  else ((n % 2 ^ 64 : Nat) : Int) - 2 ^ 64

/-- Modelled from the spec: `ReceivedMessage` is declared outside the sources.
The transport delivers an already framed request whose fields lie one after the
other, so a message is its payload bytes with a read cursor.  A read that runs
past the end of the payload yields the bytes that are there. -/
structure ReceivedMessage where
  data : QByteArray
  position : Nat
  deriving DecidableEq, Repr

namespace ReceivedMessage

/-- A request as the transport delivers it: nothing has been read. -/
def ofBytes (data : QByteArray) : ReceivedMessage :=
  { data := data, position := 0 }

/-- Method `getSize()`: the size of the whole payload. -/
def getSize (m : ReceivedMessage) : Int :=
  (m.data.length : Int)

/-- The bytes not read so far. -/
def unread (m : ReceivedMessage) : QByteArray :=
  m.data.drop m.position

/-- Method `readPrimitive(&x)` with `sizeof(x) = n`: the object representation of the
value read, and the message with the cursor advanced. -/
def readPrimitive (m : ReceivedMessage) (n : Nat) : QByteArray × ReceivedMessage :=
  (m.unread.take n, { m with position := m.position + n })

/-- Method `readWithoutCopy(n)`. -/
def readWithoutCopy (m : ReceivedMessage) (n : Nat) : QByteArray × ReceivedMessage :=
  (m.unread.take n, { m with position := m.position + n })

/-- Method `readString()`. -/
def readString (U : AssetUtils) (m : ReceivedMessage) : QString × ReceivedMessage :=
  ((U.decodeString m.unread).1, { m with position := m.position + (U.decodeString m.unread).2 })

end ReceivedMessage

/-- Type `MessageID`, kept as the object representation read off the wire. -/
abbrev MessageID := QByteArray

inductive PacketType where
  | AssetMappingOperationReply
  | AssetGetInfoReply
  | AssetUploadReply
  deriving DecidableEq, Repr

/-- One write call made on a packet, with the value written. -/
inductive Field where
  /-- Call `writePrimitive(messageID)`. -/
  | messageID (id : MessageID)
  /-- Call `writePrimitive` of an `AssetServerError`. -/
  | error (e : AssetServerError)
  /-- Call `writeString` with the given Latin-1 bytes. -/
  | string (s : QByteArray)
  /-- Call `write` of a byte array. -/
  | bytes (b : QByteArray)
  /-- Call `writePrimitive` of a `qint64`. -/
  | size (n : Int)
  deriving DecidableEq, Repr

/-- Modelled from the spec: `NLPacket` is declared outside the sources; a reply
is the sequence of its fields, so a packet is its type, the size passed to
`create` (if any) and the fields written so far, in order. -/
structure NLPacket where
  packetType : PacketType
  size : Option Nat
  payload : List Field
  deriving DecidableEq, Repr

namespace NLPacket

/-- Methods `NLPacket::create(type)` and `NLPacket::create(type, size)`. -/
def create (t : PacketType) (size : Option Nat) : NLPacket :=
  { packetType := t, size := size, payload := [] }

/-- Any of the write calls: the field is appended to the payload. -/
def write (p : NLPacket) (f : Field) : NLPacket :=
  { p with payload := p.payload ++ [f] }

end NLPacket

/-- The sender of a request, with the permission flag the transport reports. -/
structure Node where
  uuid : Nat
  canRez : Bool
  deriving DecidableEq, Repr

/-! ## The storage root -/

/-- A file of a directory, as `QFileInfo` sees it. -/
structure QFileInfo where
  fileName : QString
  isReadable : Bool
  contents : QByteArray
  deriving DecidableEq, Repr

/-- Method `QFileInfo::size()`. -/
def QFileInfo.size (f : QFileInfo) : Int :=
  (f.contents.length : Int)

/-- A directory: its path and the files in it. -/
structure QDir where
  path : QString
  files : List QFileInfo
  deriving DecidableEq, Repr

/-- The file that `QFileInfo { dir.filePath(fileName) }` refers to, if it exists. -/
def QDir.fileInfo (d : QDir) (fileName : QString) : Option QFileInfo :=
  d.files.find? (fun f => f.fileName == fileName)

/-! ## The mapping table -/

/-- The table `_fileMapping` from path to hash, as the list of its entries.
The order of the list carries no meaning. -/
abbrev Mapping := List (AssetPath × AssetHash)

namespace Mapping

/-- Method `find(path)`: the value of the entry for `path`, `none` for `end()`. -/
def find (m : Mapping) (path : AssetPath) : Option AssetHash :=
  match List.find? (fun e => e.1 == path) m with
  | some e => some e.2
  | none => none

/-- Method `operator[](path)`: the value of the entry for `path`; when there is none,
an entry with a default-constructed (empty) string is inserted first. -/
def index (m : Mapping) (path : AssetPath) : AssetHash × Mapping :=
  match m.find path with
  | some hash => (hash, m)
  | none => ("", (path, "") :: m)

/-- The statement `m[path] = hash`. -/
def assign (m : Mapping) (path : AssetPath) (hash : AssetHash) : Mapping :=
  (path, hash) :: List.filter (fun e => e.1 != path) m

/-- Method `erase(path)`: the number of entries removed, and the table without them. -/
def erase (m : Mapping) (path : AssetPath) : Nat × Mapping :=
  ((List.filter (fun e => e.1 == path) m).length, List.filter (fun e => e.1 != path) m)

/-- The entries the table holds for `path`. -/
def entriesFor (m : Mapping) (path : AssetPath) : List (AssetPath × AssetHash) :=
  List.filter (fun e => e.1 == path) m

end Mapping

/-! ## The server -/

/-- A task handed to the worker pool, with the arguments of its constructor. -/
inductive Task where
  | SendAssetTask (message : ReceivedMessage) (senderNode : Node) (resourcesDir : QDir)
  | UploadAssetTask (message : ReceivedMessage) (senderNode : Node) (resourcesDir : QDir)
  deriving DecidableEq, Repr

/-- The state of the asset server and of what it has done to its surroundings:
the tasks started on `_taskPool`, the packets passed to `sendPacket`, and the
file names looked up in the storage root. -/
structure AssetServer where
  _resourcesDirectory : QDir
  _fileMapping : Mapping
  _taskPool : List Task
  sentPackets : List (NLPacket × Node)
  fileInfoQueries : List QString
  deriving DecidableEq, Repr

namespace AssetServer

/-- Statement `nodeList->sendPacket(std::move(packet), *senderNode)`. -/
def sendPacket (s : AssetServer) (packet : NLPacket) (senderNode : Node) : AssetServer :=
  { s with sentPackets := s.sentPackets ++ [(packet, senderNode)] }

/-- Statement `_taskPool.start(task)`. -/
def startTask (s : AssetServer) (task : Task) : AssetServer :=
  { s with _taskPool := s._taskPool ++ [task] }

/-- Statement `QFileInfo fileInfo { _resourcesDirectory.filePath(fileName) }`: the lookup
is recorded in `fileInfoQueries`. -/
def fileInfo (s : AssetServer) (fileName : QString) : Option QFileInfo × AssetServer :=
  (s._resourcesDirectory.fileInfo fileName,
    { s with fileInfoQueries := s.fileInfoQueries ++ [fileName] })

/-- Handler `AssetServer::handleAssetMappingOperation`. -/
def handleAssetMappingOperation (U : AssetUtils) (s : AssetServer)
    (message : ReceivedMessage) (senderNode : Node) : AssetServer × ReceivedMessage :=
  let (messageID, message) := message.readPrimitive U.sizeofMessageID
  let (operationType, message) := message.readPrimitive U.sizeofAssetMappingOperationType
  let replyPacket := NLPacket.create PacketType.AssetMappingOperationReply none
  let replyPacket := replyPacket.write (Field.messageID messageID)
  match U.toOperationType operationType with
  | some AssetMappingOperationType.Get =>
    let (assetPath, message) := message.readString U
    match s._fileMapping.find assetPath with
    | some assetHash =>
      let replyPacket := replyPacket.write (Field.error AssetServerError.NoError)
      let replyPacket := replyPacket.write (Field.string (QString.toLatin1 assetHash))
      (s.sendPacket replyPacket senderNode, message)
    | none =>
      let replyPacket := replyPacket.write (Field.error AssetServerError.AssetNotFound)
      (s.sendPacket replyPacket senderNode, message)
  | some AssetMappingOperationType.Set =>
    let (assetPath, message) := message.readString U
    let (assetHash, message) := message.readString U
    let s := { s with _fileMapping := s._fileMapping.assign assetPath assetHash }
    let replyPacket := replyPacket.write (Field.error AssetServerError.NoError)
    (s.sendPacket replyPacket senderNode, message)
  | some AssetMappingOperationType.Delete =>
    let (assetPath, message) := message.readString U
    let s := { s with _fileMapping := (s._fileMapping.erase assetPath).2 }
    let replyPacket := replyPacket.write (Field.error AssetServerError.NoError)
    (s.sendPacket replyPacket senderNode, message)
  | none =>
    (s.sendPacket replyPacket senderNode, message)

/-- Handler `AssetServer::handleAssetGetInfo`. -/
def handleAssetGetInfo (U : AssetUtils) (s : AssetServer)
    (message : ReceivedMessage) (senderNode : Node) : AssetServer × ReceivedMessage :=
  if message.getSize < qint64 ((SHA256_HASH_LENGTH + U.sizeofMessageID) % 2 ^ 64) then
    (s, message)
  else
    let (messageID, message) := message.readPrimitive U.sizeofMessageID
    let (assetHash, message) := message.readWithoutCopy SHA256_HASH_LENGTH
    let replyPacket := NLPacket.create PacketType.AssetGetInfoReply none
    let hexHash := QByteArray.toHex assetHash
    let replyPacket := replyPacket.write (Field.messageID messageID)
    let replyPacket := replyPacket.write (Field.bytes assetHash)
    let fileName := QString.fromQByteArray hexHash
    let (fileInfo, s) := s.fileInfo fileName
    match fileInfo with
    | some info =>
      if info.isReadable then
        let replyPacket := replyPacket.write (Field.error AssetServerError.NoError)
        let replyPacket := replyPacket.write (Field.size info.size)
        (s.sendPacket replyPacket senderNode, message)
      else
        let replyPacket := replyPacket.write (Field.error AssetServerError.AssetNotFound)
        (s.sendPacket replyPacket senderNode, message)
    | none =>
      let replyPacket := replyPacket.write (Field.error AssetServerError.AssetNotFound)
      (s.sendPacket replyPacket senderNode, message)

/-- Handler `AssetServer::handleAssetGet`. -/
def handleAssetGet (U : AssetUtils) (s : AssetServer)
    (message : ReceivedMessage) (senderNode : Node) : AssetServer × ReceivedMessage :=
  let minSize := qint64 ((U.sizeofMessageID + SHA256_HASH_LENGTH + U.sizeofDataOffset
    + U.sizeofDataOffset) % 2 ^ 64)
  if message.getSize < minSize then
    (s, message)
  else
    let task := Task.SendAssetTask message senderNode s._resourcesDirectory
    (s.startTask task, message)

/-- Handler `AssetServer::handleAssetUpload`. -/
def handleAssetUpload (U : AssetUtils) (s : AssetServer)
    (message : ReceivedMessage) (senderNode : Node) : AssetServer × ReceivedMessage :=
  if senderNode.canRez then
    let task := Task.UploadAssetTask message senderNode s._resourcesDirectory
    (s.startTask task, message)
  else
    let permissionErrorPacket := NLPacket.create PacketType.AssetUploadReply
      (some ((U.sizeofMessageID + U.sizeofAssetServerError) % 2 ^ 64))
    let (messageID, message) := message.readPrimitive U.sizeofMessageID
    let permissionErrorPacket := permissionErrorPacket.write (Field.messageID messageID)
    let permissionErrorPacket :=
      permissionErrorPacket.write (Field.error AssetServerError.PermissionDenied)
    (s.sendPacket permissionErrorPacket senderNode, message)

/-- Method `AssetServer::getMapping`: the value returned and the server afterwards. -/
def getMapping (s : AssetServer) (path : AssetPath) : AssetHash × AssetServer :=
  ((s._fileMapping.index path).1, { s with _fileMapping := (s._fileMapping.index path).2 })

/-- Method `AssetServer::setMapping`. -/
def setMapping (s : AssetServer) (path : AssetPath) (hash : AssetHash) : AssetServer :=
  { s with _fileMapping := s._fileMapping.assign path hash }

/-- Method `AssetServer::deleteMapping`: the value returned and the server afterwards. -/
def deleteMapping (s : AssetServer) (path : AssetPath) : Bool × AssetServer :=
  (decide ((s._fileMapping.erase path).1 > 0),
    { s with _fileMapping := (s._fileMapping.erase path).2 })

end AssetServer

/-! ## Reading a request, for the statements below -/

namespace ReceivedMessage

/-- The message ID of a request: what the first `readPrimitive` of a handler
yields. -/
def messageID (U : AssetUtils) (m : ReceivedMessage) : MessageID :=
  (m.readPrimitive U.sizeofMessageID).1

/-- A MappingOperation request after its message ID and operation type have
been read. -/
def afterOperationType (U : AssetUtils) (m : ReceivedMessage) : ReceivedMessage :=
  ((m.readPrimitive U.sizeofMessageID).2.readPrimitive U.sizeofAssetMappingOperationType).2

/-- The operation kind of a MappingOperation request, `none` when the value on
the wire is no enumerator. -/
def operationType (U : AssetUtils) (m : ReceivedMessage) : Option AssetMappingOperationType :=
  U.toOperationType
    ((m.readPrimitive U.sizeofMessageID).2.readPrimitive U.sizeofAssetMappingOperationType).1

/-- The path of a MappingOperation request: the string after the operation
type. -/
def assetPath (U : AssetUtils) (m : ReceivedMessage) : AssetPath :=
  ((m.afterOperationType U).readString U).1

/-- The hash string of a MappingOperation/Set request: the string after the
path. -/
def assetHash (U : AssetUtils) (m : ReceivedMessage) : AssetHash :=
  ((((m.afterOperationType U).readString U).2).readString U).1

/-- A MappingOperation/Get request for `path`. -/
abbrev IsGet (U : AssetUtils) (m : ReceivedMessage) (path : AssetPath) : Prop :=
  m.operationType U = some AssetMappingOperationType.Get ∧ m.assetPath U = path

/-- A MappingOperation/Set request carrying `path` and `hash`. -/
abbrev IsSet (U : AssetUtils) (m : ReceivedMessage) (path : AssetPath) (hash : AssetHash) : Prop :=
  m.operationType U = some AssetMappingOperationType.Set ∧ m.assetPath U = path
    ∧ m.assetHash U = hash

/-- A MappingOperation/Delete request for `path`. -/
abbrev IsDelete (U : AssetUtils) (m : ReceivedMessage) (path : AssetPath) : Prop :=
  m.operationType U = some AssetMappingOperationType.Delete ∧ m.assetPath U = path

end ReceivedMessage

/-- A lowercase hexadecimal digit. -/
def isLowerHexChar (c : Char) : Bool :=
  (48 ≤ c.toNat && c.toNat ≤ 57) || (97 ≤ c.toNat && c.toNat ≤ 102)

/-- A hash in its canonical form: `SHA256_HASH_HEX_LENGTH` lowercase
hexadecimal characters. -/
def isHashString (h : QString) : Bool :=
  h.length == SHA256_HASH_HEX_LENGTH && h.toList.all isLowerHexChar

/-- The server after `setMapping(path, h)` has been called for each `h` of
`hashes` in turn. -/
def AssetServer.setRepeatedly (s : AssetServer) (path : AssetPath) (hashes : List AssetHash) :
    AssetServer :=
  hashes.foldl (fun t h => t.setMapping path h) s

/-- The reply packet of a MappingOperation request with the given fields. -/
def mappingReply (fields : List Field) : NLPacket :=
  { packetType := PacketType.AssetMappingOperationReply, size := none, payload := fields }

/-- The packets the server has sent on the way from state `s` to state `t`. -/
def AssetServer.newPackets (s t : AssetServer) : List (NLPacket × Node) :=
  t.sentPackets.drop s.sentPackets.length

/-- A packet that consists of the message ID `id`, immediately followed by a
result code, with further fields only after NoError. -/
def isInlineReply (id : MessageID) (p : NLPacket) : Bool :=
  match p.payload with
  | Field.messageID i :: Field.error e :: rest =>
    i == id && (rest.isEmpty || e == AssetServerError.NoError)
  | _ => false

/-- The hash of a GetInfo request: the `SHA256_HASH_LENGTH` bytes that
`readWithoutCopy` gives after the message ID has been read. -/
def ReceivedMessage.infoHash (U : AssetUtils) (m : ReceivedMessage) : QByteArray :=
  ((m.readPrimitive U.sizeofMessageID).2.readWithoutCopy SHA256_HASH_LENGTH).1

/-- A packet that consists of the message ID `id`, the hash bytes `hash`, then a
result code, with further fields only after NoError. -/
def isInfoReply (id : MessageID) (hash : QByteArray) (p : NLPacket) : Bool :=
  match p.payload with
  | Field.messageID i :: Field.bytes b :: Field.error e :: rest =>
    i == id && b == hash && (rest.isEmpty || e == AssetServerError.NoError)
  | _ => false

/-- The reply packet of a GetInfo request with the given fields. -/
def infoReply (fields : List Field) : NLPacket :=
  { packetType := PacketType.AssetGetInfoReply, size := none, payload := fields }

/-- The name of the file that holds the blob with the given binary hash: the
lowercase hexadecimal encoding of the hash. -/
def hashFileName (hash : QByteArray) : QString :=
  QString.fromQByteArray (QByteArray.toHex hash)

/-! ## A sample wire format and sample requests -/

/-- Little-endian value of a byte sequence. -/
def fromLittleEndian : QByteArray → Nat
  | [] => 0
  | b :: bs => b + 256 * fromLittleEndian bs

/-- A wire format with a four-byte message ID, eight-byte offsets, one-byte
enumerations numbered from zero, and strings sent as a four-byte length
followed by one byte per character. -/
def sampleUtils : AssetUtils where
  sizeofMessageID := 4
  sizeofDataOffset := 8
  sizeofAssetMappingOperationType := 1
  sizeofAssetServerError := 1
  toOperationType := fun b =>
    match b with
    | [0] => some AssetMappingOperationType.Get
    | [1] => some AssetMappingOperationType.Set
    | [2] => some AssetMappingOperationType.Delete
    | _ => none
  decodeString := fun bs =>
    (QString.fromQByteArray ((bs.drop 4).take (fromLittleEndian (bs.take 4))),
      4 + fromLittleEndian (bs.take 4))

/-- A hash in canonical form. -/
def sampleHash : AssetHash :=
  "0123456789abcdef0123456789abcdef0123456789abcdef0123456789abcdef"

/-- A server with one mapping entry and one stored blob of ten bytes. -/
def sampleServer : AssetServer :=
  { _resourcesDirectory :=
      { path := "/srv/assets",
        files := [{ fileName := sampleHash, isReadable := true,
                    contents := [1, 2, 3, 4, 5, 6, 7, 8, 9, 10] }] },
    _fileMapping := [("/bar", "ff")],
    _taskPool := [],
    sentPackets := [],
    fileInfoQueries := [] }

def alice : Node := { uuid := 1, canRez := true }

def bob : Node := { uuid := 2, canRez := false }

/-- The bytes of a string in the sample wire format. -/
def sampleString (s : QString) : QByteArray :=
  [s.length % 256, s.length / 256 % 256, 0, 0] ++ s.toList.map Char.toNat

/-- Request `Set("/foo", sampleHash)` with message ID 7. -/
def sampleSet : ReceivedMessage :=
  ReceivedMessage.ofBytes ([7, 0, 0, 0, 1] ++ sampleString "/foo" ++ sampleString sampleHash)

/-- Request `Get("/foo")` with message ID 8. -/
def sampleGet : ReceivedMessage :=
  ReceivedMessage.ofBytes ([8, 0, 0, 0, 0] ++ sampleString "/foo")

/-- Request `Delete("/foo")` with message ID 9. -/
def sampleDelete : ReceivedMessage :=
  ReceivedMessage.ofBytes ([9, 0, 0, 0, 2] ++ sampleString "/foo")

/-- A MappingOperation request with message ID 4 whose operation type byte is
no enumerator. -/
def sampleUnknown : ReceivedMessage :=
  ReceivedMessage.ofBytes ([4, 0, 0, 0, 9] ++ sampleString "/foo")

/-- The 32 bytes whose hexadecimal encoding is `sampleHash`. -/
def sampleHashBytes : QByteArray :=
  [1, 35, 69, 103, 137, 171, 205, 239, 1, 35, 69, 103, 137, 171, 205, 239,
   1, 35, 69, 103, 137, 171, 205, 239, 1, 35, 69, 103, 137, 171, 205, 239]

/-- The bytes of the request `GetInfo(sampleHash)` with message ID 5. -/
def sampleInfoData : QByteArray :=
  [5, 0, 0, 0] ++ sampleHashBytes

/-- Request `GetInfo(sampleHash)` with message ID 5. -/
def sampleGetInfo : ReceivedMessage :=
  ReceivedMessage.ofBytes sampleInfoData

/-- An upload request with message ID 6 and three bytes of data. -/
def sampleUpload : ReceivedMessage :=
  ReceivedMessage.ofBytes [6, 0, 0, 0, 10, 20, 30]

/-- Request `Get(sampleHash, 0, 10)` with message ID 3. -/
def sampleAssetGet : ReceivedMessage :=
  ReceivedMessage.ofBytes ([3, 0, 0, 0] ++ sampleHashBytes
    ++ [0, 0, 0, 0, 0, 0, 0, 0] ++ [10, 0, 0, 0, 0, 0, 0, 0])

/-- A request of ten bytes, too short for GetInfo and for Get. -/
def sampleShort : ReceivedMessage :=
  ReceivedMessage.ofBytes [2, 0, 0, 0, 1, 35, 69, 103, 137, 171]

/-! ## Regular expressions -/

/-- The patterns of `QRegExp` that the server uses, as syntax trees: the pattern
that matches nothing, the empty pattern, a character class, alternation,
concatenation and repetition (zero or more times). -/
inductive QRegExp where
  | nothing
  | empty
  | cls (p : Char → Bool)
  | alt (a b : QRegExp)
  | seq (a b : QRegExp)
  | star (a : QRegExp)

namespace QRegExp

/-- The quantifier `+`: one or more times. -/
def plus (a : QRegExp) : QRegExp :=
  seq a (star a)

/-- The quantifier `{n}`: exactly `n` times. -/
def times : Nat → QRegExp → QRegExp
  | 0, _ => empty
  | n + 1, a => seq a (times n a)

/-- Whether the pattern matches the empty string. -/
def matchesEmpty : QRegExp → Bool
  | nothing => false
  | empty => true
  | cls _ => false
  | alt a b => a.matchesEmpty || b.matchesEmpty
  | seq a b => a.matchesEmpty && b.matchesEmpty
  | star _ => true

/-- The pattern for what may follow the character `c` in a match. -/
def deriv : QRegExp → Char → QRegExp
  | nothing, _ => nothing
  | empty, _ => nothing
  | cls p, c => if p c then empty else nothing
  | alt a b, c => alt (a.deriv c) (b.deriv c)
  | seq a b, c =>
    if a.matchesEmpty then alt (seq (a.deriv c) b) (b.deriv c) else seq (a.deriv c) b
  | star a, c => seq (a.deriv c) (star a)

/-- Whether the pattern matches the whole of the given characters. -/
def rmatch : QRegExp → List Char → Bool
  | r, [] => r.matchesEmpty
  | r, c :: cs => (r.deriv c).rmatch cs

/-- Method `QRegExp::exactMatch`. -/
def exactMatch (r : QRegExp) (s : QString) : Bool :=
  r.rmatch s.toList

end QRegExp

/-! ## What the platform decides -/

/-- The behaviour of Qt and of the operating system that the sources do not
determine; it is a parameter of the setup and of the migration.

* `wordOutsideAscii`: whether `\w` matches a character outside ASCII;
* `renameAllowed old new`: whether the operating system carries out the rename
  of the file at `old` to the free path `new`;
* `copyAllowed from to`: the same for a copy;
* `mkpathAllowed path`: whether the directory at `path` can be created;
* `separator`: the value of `QDir::separator()`;
* `applicationDirPath`: the value of `QCoreApplication::applicationDirPath()`;
* `isRelative`, `absolutePath`: the methods of `QDir` on a path string;
* `getDataFilePath`: the function `ServerPathUtils::getDataFilePath`. -/
structure Environment where
  wordOutsideAscii : Char → Bool
  renameAllowed : QString → QString → Bool
  copyAllowed : QString → QString → Bool
  mkpathAllowed : QString → Bool
  separator : Char
  applicationDirPath : QString
  isRelative : QString → Bool
  absolutePath : QString → QString
  getDataFilePath : QString → QString

/-- The class `\w` of `QRegExp`: a letter or digit, a mark, or an underscore. -/
def isWordCharacter (E : Environment) (c : Char) : Bool :=
  if c.toNat < 128 then c.isAlphanum || c == '_' else E.wordOutsideAscii c

/-- The part `\\.[\\w]+` of the pattern of `performMappingMigration`. -/
def extensionSuffixRegex (E : Environment) : QRegExp :=
  QRegExp.seq (QRegExp.cls (fun c => c == '.')) (QRegExp.plus (QRegExp.cls (isWordCharacter E)))

/-- The pattern `"^[a-f0-9]{" + QString::number(SHA256_HASH_HEX_LENGTH)
+ "}(\\.[\\w]+)+$"` of `performMappingMigration`. -/
def migrationHashFileRegex (E : Environment) : QRegExp :=
  QRegExp.seq (QRegExp.times SHA256_HASH_HEX_LENGTH (QRegExp.cls isLowerHexChar))
    (QRegExp.plus (extensionSuffixRegex E))

/-- The pattern `"^[a-f0-9]{" + QString::number(SHA256_HASH_HEX_LENGTH) + "}$"`
of `completeSetup`. -/
def setupHashFileRegex : QRegExp :=
  QRegExp.times SHA256_HASH_HEX_LENGTH (QRegExp.cls isLowerHexChar)

/-! ## More of `QString` and `QDir` -/

/-- Method `QString::indexOf(ch)`: the index of the first occurrence, -1 when
there is none. -/
def QString.indexOf (s : QString) (c : Char) : Int :=
  if c ∈ s.toList then (s.toList.indexOf c : Int) else -1

/-- Method `QString::mid(position)`: the string from `position` on; the whole
string for a negative position. -/
def QString.mid (s : QString) (position : Int) : QString :=
  if position < 0 then s else String.mk (s.toList.drop position.toNat)

/-- The scan of `QString::replace(before, after)` for a non-empty `before`:
`skip` characters of an occurrence found earlier are still to be passed over;
after that every occurrence of `before`, from left to right, gives `after`. -/
def replaceFrom (before after : List Char) : Nat → List Char → List Char
  | _, [] => []
  | skip + 1, _ :: cs => replaceFrom before after skip cs
  | 0, c :: cs =>
    if before.isPrefixOf (c :: cs) then
      after ++ replaceFrom before after (before.length - 1) cs
    else c :: replaceFrom before after 0 cs

/-- Method `QString::replace(before, after)`: every occurrence of `before` is
replaced with `after`; an empty `before` matches at every position. -/
def QString.replace (s before after : QString) : QString :=
  if before.toList = [] then
    String.mk (after.toList ++ s.toList.flatMap (fun c => c :: after.toList))
  else String.mk (replaceFrom before.toList after.toList 0 s.toList)

/-- The path of the entry `name` of the directory at `dir`. -/
def joinPath (dir name : QString) : QString :=
  if dir.toList.getLast? = some '/' then dir ++ name else dir ++ "/" ++ name

/-- Methods `QDir::filePath(fileName)` and `QDir::absoluteFilePath(fileName)`,
and `QFileInfo::absoluteFilePath()` for a file of the listing of the directory;
the path of the directory is absolute and `fileName` is relative. -/
def QDir.absoluteFilePath (d : QDir) (fileName : QString) : QString :=
  joinPath d.path fileName

/-- The name under which the directory holds the file at `path`, `none` when
`path` does not lie directly in the directory. -/
def QDir.relativeName (d : QDir) (path : QString) : Option QString :=
  if (joinPath d.path "").toList.isPrefixOf path.toList
      ∧ path.toList.drop (joinPath d.path "").toList.length ≠ []
      ∧ '/' ∉ path.toList.drop (joinPath d.path "").toList.length then
    some (String.mk (path.toList.drop (joinPath d.path "").toList.length))
  else none

/-- Method `QFile::rename(newName)` on the file `oldName` of the directory: it
fails when the file is not there, when a file of the directory already has the
new name, and when the operating system refuses; otherwise the file gets its new
name, and leaves the listing when the new path lies outside the directory. -/
def QDir.rename (E : Environment) (d : QDir) (oldName newPath : QString) : Bool × QDir :=
  match d.fileInfo oldName with
  | none => (false, d)
  | some _ =>
    match d.relativeName newPath with
    | some newName =>
      if (d.fileInfo newName).isSome then (false, d)
      else if E.renameAllowed (d.absoluteFilePath oldName) newPath then
        (true, { d with files := d.files.map (fun f =>
          if f.fileName == oldName then { f with fileName := newName } else f) })
      else (false, d)
    | none =>
      if E.renameAllowed (d.absoluteFilePath oldName) newPath then
        (true, { d with files := d.files.filter (fun f => f.fileName != oldName) })
      else (false, d)

/-! ## The migration of pre-mapping files -/

/-- One call of `QFile::rename` made by the migration: the name of the file, the
new path passed to `rename`, and the value returned. -/
structure RenameAttempt where
  fileName : QString
  target : QString
  renamed : Bool
  deriving DecidableEq, Repr

/-- The path that `performMappingMigration` passes to `rename` for the file
`oldFilename` of the directory.  `QString::replace` changes the string it is
called on, and it is called on `oldAbsolutePath` twice: in the debug statement
and in the argument of `rename`. -/
def migrationTarget (d : QDir) (oldFilename : QString) : QString :=
  let oldAbsolutePath := d.absoluteFilePath oldFilename
  let fullExtension := oldFilename.mid (oldFilename.indexOf '.')
  let oldAbsolutePath := oldAbsolutePath.replace fullExtension ""
  oldAbsolutePath.replace fullExtension ""

/-- The body of the loop of `performMappingMigration` for one entry of the
listing: the directory and the calls of `rename` so far, and those after it. -/
def migrateFile (E : Environment) (acc : QDir × List RenameAttempt) (fileInfo : QFileInfo) :
    QDir × List RenameAttempt :=
  if (migrationHashFileRegex E).exactMatch fileInfo.fileName then
    let target := migrationTarget acc.1 fileInfo.fileName
    let (renamed, d) := acc.1.rename E fileInfo.fileName target
    (d, acc.2 ++ [{ fileName := fileInfo.fileName, target := target, renamed := renamed }])
  else acc

/-- Method `AssetServer::performMappingMigration`: the server afterwards and the
calls of `rename` it made, in order.  The loop runs over the listing taken at
the start. -/
def AssetServer.performMappingMigration (E : Environment) (s : AssetServer) :
    AssetServer × List RenameAttempt :=
  let files := s._resourcesDirectory.files
  let result := files.foldl (migrateFile E) (s._resourcesDirectory, [])
  ({ s with _resourcesDirectory := result.1 }, result.2)

/-- An extension suffix: a '.' followed by at least one word character. -/
def IsExtensionSuffix (E : Environment) (e : List Char) : Prop :=
  ∃ ws, e = '.' :: ws ∧ ws ≠ [] ∧ ∀ c ∈ ws, isWordCharacter E c = true

/-- A legacy file name: exactly `SHA256_HASH_HEX_LENGTH` lowercase hexadecimal
characters followed by one or more extension suffixes. -/
def IsLegacyName (E : Environment) (name : QString) : Prop :=
  ∃ (hex : List Char) (exts : List (List Char)),
    name.toList = hex ++ exts.flatten ∧ hex.length = SHA256_HASH_HEX_LENGTH
      ∧ (∀ c ∈ hex, isLowerHexChar c = true) ∧ exts ≠ [] ∧ ∀ e ∈ exts, IsExtensionSuffix E e

/-- The reply packet of a denied Upload request with the given fields; it is
created with room for a message ID and a result code. -/
def uploadReply (U : AssetUtils) (fields : List Field) : NLPacket :=
  { packetType := PacketType.AssetUploadReply,
    size := some ((U.sizeofMessageID + U.sizeofAssetServerError) % 2 ^ 64),
    payload := fields }

/-! ## Sample storage roots -/

/-- A platform on which every rename, copy and directory creation goes through,
with `/` as separator and no word characters outside ASCII. -/
def sampleEnvironment : Environment where
  wordOutsideAscii := fun _ => false
  renameAllowed := fun _ _ => true
  copyAllowed := fun _ _ => true
  mkpathAllowed := fun _ => true
  separator := '/'
  applicationDirPath := "/opt/hifi"
  isRelative := fun p => p.toList.head? != some '/'
  absolutePath := fun p => p
  getDataFilePath := fun p => "/var/lib/hifi/" ++ p

/-- The sample platform, except that the operating system refuses every rename
and every copy. -/
def refusingEnvironment : Environment :=
  { sampleEnvironment with renameAllowed := fun _ _ => false, copyAllowed := fun _ _ => false }

/-- A second hash in canonical form. -/
def otherHash : AssetHash :=
  "fedcba9876543210fedcba9876543210fedcba9876543210fedcba9876543210"

/-- A readable legacy file of three bytes, named by `sampleHash` and `.png`. -/
def samplePng : QFileInfo :=
  { fileName := sampleHash ++ ".png", isReadable := true, contents := [1, 2, 3] }

/-- A directory with two legacy files of different hashes and a file that is
not a legacy file. -/
def legacyDirectory (path : QString) : QDir :=
  { path := path,
    files := [{ fileName := otherHash ++ ".tar.gz", isReadable := true, contents := [7, 8] },
              samplePng,
              { fileName := "notes.txt", isReadable := true, contents := [4] }] }

/-- A directory with two legacy files of the same hash. -/
def clashDirectory : QDir :=
  { path := "/srv/assets",
    files := [{ fileName := sampleHash ++ ".jpg", isReadable := true, contents := [9, 9] },
              { fileName := sampleHash ++ ".png", isReadable := true, contents := [1, 2, 3] }] }

/-- A directory whose only file is a legacy file that cannot be read. -/
def unreadableDirectory : QDir :=
  { path := "/srv/assets",
    files := [{ fileName := sampleHash ++ ".png", isReadable := false, contents := [1, 2, 3] }] }

/-- The sample server with the given directory as its storage root. -/
def serverWith (d : QDir) : AssetServer :=
  { sampleServer with _resourcesDirectory := d }

/-- The sample server over a storage root at `/srv/assets` with legacy files. -/
def sampleLegacyServer : AssetServer :=
  serverWith (legacyDirectory "/srv/assets")

/-! ## The setup of the storage root -/

/-- The directories of the file system: for the path of a directory that
exists, the files that `entryList(QDir::Files)` lists in it. -/
abbrev FileSystem := QString → Option (List QFileInfo)

/-- A file system with an empty storage root at `/srv/assets` and two files in
the old resources directory. -/
def sampleFileSystem : FileSystem := fun path =>
  if path = "/srv/assets" then some []
  else if path = "/opt/hifi/resources/assets" then
    some [samplePng, { fileName := otherHash, isReadable := true, contents := [5, 6] }]
  else none

/-! ## The fetch task -/

/-- Modelled from the spec: `readRange(hash, start, end)` of the Content Store,
which the fetch task calls; the task (SendAssetTask) is not among the sources.
The spec: it returns the sub-range from `start` to `end` of the bytes of the
blob, `end` is clamped to the length of the blob, a `start` beyond the length
gives an empty result, and the result is NotFound (here `none`) when no file
named by the hash is in the storage root. -/
def readRange (d : QDir) (hash : QByteArray) (start stop : Nat) : Option QByteArray :=
  match d.fileInfo (hashFileName hash) with
  | none => none
  | some f => some ((f.contents.take (min stop f.contents.length)).drop start)

/-- Modelled from the spec: the reply of the fetch task (SendAssetTask, not
among the sources) for a hash and a range.  The spec: on success the reply holds
the message ID, the requested bytes and NoError; on absence it holds the message
ID and AssetNotFound. -/
def fetchReply (d : QDir) (messageID : MessageID) (hash : QByteArray) (start stop : Nat) :
    List Field :=
  match readRange d hash start stop with
  | some bytes =>
    [Field.messageID messageID, Field.bytes bytes, Field.error AssetServerError.NoError]
  | none => [Field.messageID messageID, Field.error AssetServerError.AssetNotFound]

/-- Modelled from the spec: the run of a fetch task (SendAssetTask, not among
the sources) that `handleAssetGet` has started.  The spec lists the fields of a
Get request as message ID, hash, range start and range end; `toOffset` gives the
value of a `DataOffset` read off the wire.  The result is the reply and the node
it goes to; a store task is not run here. -/
def Task.fetch (U : AssetUtils) (toOffset : QByteArray → Nat) : Task → Option (List Field × Node)
  | Task.SendAssetTask message senderNode resourcesDir =>
    let (messageID, message) := message.readPrimitive U.sizeofMessageID
    let (hash, message) := message.readWithoutCopy SHA256_HASH_LENGTH
    let (start, message) := message.readPrimitive U.sizeofDataOffset
    let (stop, _) := message.readPrimitive U.sizeofDataOffset
    some (fetchReply resourcesDir messageID hash (toOffset start) (toOffset stop), senderNode)
  | Task.UploadAssetTask _ _ _ => none

/-- The range start of a Get request with the bytes `data`. -/
def rangeStart (U : AssetUtils) (toOffset : QByteArray → Nat) (data : QByteArray) : Nat :=
  toOffset ((data.drop (U.sizeofMessageID + SHA256_HASH_LENGTH)).take U.sizeofDataOffset)

/-- The range end of a Get request with the bytes `data`. -/
def rangeEnd (U : AssetUtils) (toOffset : QByteArray → Nat) (data : QByteArray) : Nat :=
  toOffset ((data.drop (U.sizeofMessageID + SHA256_HASH_LENGTH + U.sizeofDataOffset)).take
    U.sizeofDataOffset)

/-- The bytes of the request `Get(sampleHash, 5, 100)` with message ID 3. -/
def sampleRangeData : QByteArray :=
  [3, 0, 0, 0] ++ sampleHashBytes ++ [5, 0, 0, 0, 0, 0, 0, 0] ++ [100, 0, 0, 0, 0, 0, 0, 0]

/-- The stored blob of `sampleServer`. -/
def sampleBlob : QFileInfo :=
  { fileName := sampleHash, isReadable := true, contents := [1, 2, 3, 4, 5, 6, 7, 8, 9, 10] }

/-- Request `Set("/baz", sampleHash)` with message ID 10. -/
def sampleSetBaz : ReceivedMessage :=
  ReceivedMessage.ofBytes ([10, 0, 0, 0, 1] ++ sampleString "/baz" ++ sampleString sampleHash)

/-- Request `Get("/baz")` with message ID 11. -/
def sampleGetBaz : ReceivedMessage :=
  ReceivedMessage.ofBytes ([11, 0, 0, 0, 0] ++ sampleString "/baz")

/-- The file name without its full extension: the characters of `name` in front
of `name.indexOf('.')`, all of `name` when it holds no '.'. -/
def QString.withoutFullExtension (name : QString) : QString :=
  if name.indexOf '.' < 0 then name else String.mk (name.toList.take (name.indexOf '.').toNat)

/-! ## Lemmas on the mapping table -/

namespace Mapping

theorem find_assign_self (m : Mapping) (p : AssetPath) (h : AssetHash) :
    (m.assign p h).find p = some h := by
  simp [assign, find]

theorem find_eq_none_of_find? (m : Mapping) (p : AssetPath)
    (h : List.find? (fun e => e.1 == p) m = none) : m.find p = none := by
  simp [find, h]

theorem find_filter_ne (m : Mapping) (p : AssetPath) :
    find (List.filter (fun e => e.1 != p) m) p = none := by
  apply find_eq_none_of_find?
  rw [List.find?_eq_none]
  intro e he
  have hne := (List.mem_filter.1 he).2
  simpa using hne

theorem find_erase_self (m : Mapping) (p : AssetPath) : (m.erase p).2.find p = none :=
  find_filter_ne m p

theorem entriesFor_filter_ne (m : Mapping) (p : AssetPath) :
    entriesFor (List.filter (fun e => e.1 != p) m) p = [] := by
  simp [entriesFor, List.filter_filter, List.filter_eq_nil_iff]

theorem entriesFor_assign_self (m : Mapping) (p : AssetPath) (h : AssetHash) :
    (m.assign p h).entriesFor p = [(p, h)] := by
  have := entriesFor_filter_ne m p
  simp only [entriesFor] at this
  simp [assign, entriesFor, List.filter_cons, this]

theorem entriesFor_erase_self (m : Mapping) (p : AssetPath) :
    (m.erase p).2.entriesFor p = [] :=
  entriesFor_filter_ne m p

theorem find_eq_none_iff (m : Mapping) (p : AssetPath) :
    m.find p = none ↔ ∀ h, (p, h) ∉ m := by
  unfold find
  constructor
  · intro hf h hmem
    split at hf
    · exact absurd hf (by simp)
    · rename_i hnone
      rw [List.find?_eq_none] at hnone
      exact hnone (p, h) hmem (by simp)
  · intro hall
    split
    · rename_i e he
      have hmem := List.mem_of_find?_eq_some he
      have hkey := List.find?_some he
      simp only [beq_iff_eq] at hkey
      have hpair : (p, e.2) = e := by rw [← hkey]
      exact absurd hmem (by rw [← hpair]; exact hall e.2)
    · rfl

theorem entriesFor_eq_nil_iff (m : Mapping) (p : AssetPath) :
    m.entriesFor p = [] ↔ m.find p = none := by
  rw [find_eq_none_iff]
  simp only [entriesFor, List.filter_eq_nil_iff, beq_iff_eq]
  constructor
  · intro hall h hmem
    exact hall (p, h) hmem rfl
  · intro hall e he hkey
    have hpair : (p, e.2) = e := by rw [← hkey]
    exact hall e.2 (by rw [hpair]; exact he)

theorem erase_of_find_none (m : Mapping) (p : AssetPath) (hf : m.find p = none) :
    m.erase p = (0, m) := by
  have hnil := (entriesFor_eq_nil_iff m p).2 hf
  have hall : ∀ e ∈ m, (e.1 != p) = true := by
    intro e he
    simp only [entriesFor, List.filter_eq_nil_iff, beq_iff_eq] at hnil
    simpa using hnil e he
  simp only [entriesFor] at hnil
  simp [erase, hnil, List.filter_eq_self.2 hall]

theorem erase_count_pos_iff (m : Mapping) (p : AssetPath) :
    0 < (m.erase p).1 ↔ ∃ h, m.find p = some h := by
  constructor
  · intro hpos
    cases hf : m.find p with
    | none => rw [erase_of_find_none m p hf] at hpos; simp at hpos
    | some h => exact ⟨h, rfl⟩
  · intro hex
    obtain ⟨h, hf⟩ := hex
    by_contra hnot
    have hzero : (List.filter (fun e => e.1 == p) m).length = 0 := by
      simpa [erase] using hnot
    have hnil : m.entriesFor p = [] := List.length_eq_zero.1 hzero
    rw [(entriesFor_eq_nil_iff m p).1 hnil] at hf
    exact absurd hf (by simp)

theorem mem_erase_iff (m : Mapping) (p : AssetPath) (e : AssetPath × AssetHash) :
    e ∈ (m.erase p).2 ↔ e ∈ m ∧ e.1 ≠ p := by
  simp [erase, List.mem_filter]

end Mapping

/-! ## Lemmas on strings -/

theorem toLatin1_of_small (cs : List Char) (hsmall : ∀ c ∈ cs, c.toNat < 256) :
    cs.flatMap QChar.toLatin1 = cs.map Char.toNat := by
  induction cs with
  | nil => rfl
  | cons c cs ih =>
    have hc : c.toNat < 256 := hsmall c (List.mem_cons_self c cs)
    have ih2 := ih (fun d hd => hsmall d (List.mem_cons_of_mem c hd))
    simp [List.flatMap_cons, QChar.toLatin1, hc, ih2]

theorem isLowerHexChar_small (c : Char) (hc : isLowerHexChar c = true) : c.toNat < 256 := by
  simp only [isLowerHexChar, Bool.or_eq_true, Bool.and_eq_true, decide_eq_true_eq] at hc
  omega

theorem fromQByteArray_toLatin1 (h : QString) (hh : isHashString h = true) :
    QString.fromQByteArray (QString.toLatin1 h) = h := by
  simp only [isHashString, Bool.and_eq_true, List.all_eq_true] at hh
  have hsmall : ∀ c ∈ h.toList, c.toNat < 256 :=
    fun c hc => isLowerHexChar_small c (hh.2 c hc)
  have hmap : List.map Char.ofNat (List.map Char.toNat h.toList) = h.toList := by
    rw [List.map_map]
    conv => rhs; rw [← List.map_id h.toList]
    apply List.map_congr_left
    intro c _
    simp
  simp only [QString.fromQByteArray, QString.toLatin1, toLatin1_of_small h.toList hsmall, hmap]
  rfl

theorem isHashString_ne_empty (h : QString) (hh : isHashString h = true) : h ≠ "" := by
  intro he
  rw [he] at hh
  exact absurd hh (by decide)

theorem isLowerHexChar_hexDigit (k : Nat) (hk : k < 16) :
    isLowerHexChar (Char.ofNat (hexDigit k)) = true := by
  interval_cases k <;> decide

theorem toHex_length (b : QByteArray) : (QByteArray.toHex b).length = 2 * b.length := by
  induction b with
  | nil => rfl
  | cons x b ih =>
    simp only [QByteArray.toHex, List.flatMap_cons, List.length_append, List.length_cons,
      List.length_nil] at ih ⊢
    omega

theorem toHex_digits (b : QByteArray) :
    ∀ d ∈ QByteArray.toHex b, ∃ k, k < 16 ∧ d = hexDigit k := by
  intro d hd
  simp only [QByteArray.toHex, List.mem_flatMap, List.mem_cons, List.mem_singleton,
    List.not_mem_nil, or_false] at hd
  obtain ⟨x, _, hx⟩ := hd
  rcases hx with hx | hx
  · exact ⟨x / 16 % 16, Nat.mod_lt _ (by decide), hx⟩
  · exact ⟨x % 16, Nat.mod_lt _ (by decide), hx⟩

theorem isHashString_hashFileName (hash : QByteArray)
    (hlen : hash.length = SHA256_HASH_LENGTH) : isHashString (hashFileName hash) = true := by
  simp only [isHashString, Bool.and_eq_true, beq_iff_eq, List.all_eq_true]
  constructor
  · simp [hashFileName, QString.fromQByteArray, String.length, toHex_length, hlen,
      SHA256_HASH_LENGTH, SHA256_HASH_HEX_LENGTH]
  · intro c hc
    have hc2 : c ∈ List.map Char.ofNat (QByteArray.toHex hash) := hc
    rw [List.mem_map] at hc2
    obtain ⟨d, hd, hdc⟩ := hc2
    obtain ⟨k, hk, hdk⟩ := toHex_digits hash d hd
    rw [← hdc, hdk]
    exact isLowerHexChar_hexDigit k hk

theorem qint64_of_lt (k : Nat) (hk : k < 2 ^ 63) : qint64 (k % 2 ^ 64) = (k : Int) := by
  have hmod : k % 2 ^ 64 = k := Nat.mod_eq_of_lt (by omega)
  simp only [qint64, hmod]
  rw [if_pos hk]

theorem fileInfo_some (d : QDir) (name : QString) (f : QFileInfo)
    (hf : d.fileInfo name = some f) : f ∈ d.files ∧ f.fileName = name := by
  refine ⟨List.mem_of_find?_eq_some hf, ?_⟩
  have hkey := List.find?_some hf
  simpa using hkey

theorem fileInfo_none_iff (d : QDir) (name : QString) :
    d.fileInfo name = none ↔ ∀ f ∈ d.files, f.fileName ≠ name := by
  simp [QDir.fileInfo, List.find?_eq_none]

/-! ## The handlers, case by case -/

namespace AssetServer

theorem handle_get_found (U : AssetUtils) (s : AssetServer) (m : ReceivedMessage) (n : Node)
    (p : AssetPath) (h : AssetHash) (hm : m.IsGet U p) (hf : s._fileMapping.find p = some h) :
    (handleAssetMappingOperation U s m n).1
      = s.sendPacket (mappingReply [Field.messageID (m.messageID U),
          Field.error AssetServerError.NoError, Field.string (QString.toLatin1 h)]) n := by
  obtain ⟨hop, hpath⟩ := hm
  simp only [ReceivedMessage.operationType] at hop
  simp only [ReceivedMessage.assetPath, ReceivedMessage.afterOperationType] at hpath
  simp [handleAssetMappingOperation, hop, hpath, hf, mappingReply, NLPacket.create,
    NLPacket.write, ReceivedMessage.messageID]

theorem handle_get_missing (U : AssetUtils) (s : AssetServer) (m : ReceivedMessage) (n : Node)
    (p : AssetPath) (hm : m.IsGet U p) (hf : s._fileMapping.find p = none) :
    (handleAssetMappingOperation U s m n).1
      = s.sendPacket (mappingReply [Field.messageID (m.messageID U),
          Field.error AssetServerError.AssetNotFound]) n := by
  obtain ⟨hop, hpath⟩ := hm
  simp only [ReceivedMessage.operationType] at hop
  simp only [ReceivedMessage.assetPath, ReceivedMessage.afterOperationType] at hpath
  simp [handleAssetMappingOperation, hop, hpath, hf, mappingReply, NLPacket.create,
    NLPacket.write, ReceivedMessage.messageID]

theorem handle_set (U : AssetUtils) (s : AssetServer) (m : ReceivedMessage) (n : Node)
    (p : AssetPath) (h : AssetHash) (hm : m.IsSet U p h) :
    (handleAssetMappingOperation U s m n).1
      = (s.setMapping p h).sendPacket (mappingReply [Field.messageID (m.messageID U),
          Field.error AssetServerError.NoError]) n := by
  obtain ⟨hop, hpath, hhash⟩ := hm
  simp only [ReceivedMessage.operationType] at hop
  simp only [ReceivedMessage.assetPath, ReceivedMessage.afterOperationType] at hpath
  simp only [ReceivedMessage.assetHash, ReceivedMessage.afterOperationType] at hhash
  simp [handleAssetMappingOperation, hop, hpath, hhash, mappingReply, NLPacket.create,
    NLPacket.write, ReceivedMessage.messageID, setMapping]

theorem handle_delete (U : AssetUtils) (s : AssetServer) (m : ReceivedMessage) (n : Node)
    (p : AssetPath) (hm : m.IsDelete U p) :
    (handleAssetMappingOperation U s m n).1
      = (s.deleteMapping p).2.sendPacket (mappingReply [Field.messageID (m.messageID U),
          Field.error AssetServerError.NoError]) n := by
  obtain ⟨hop, hpath⟩ := hm
  simp only [ReceivedMessage.operationType] at hop
  simp only [ReceivedMessage.assetPath, ReceivedMessage.afterOperationType] at hpath
  simp [handleAssetMappingOperation, hop, hpath, mappingReply, NLPacket.create,
    NLPacket.write, ReceivedMessage.messageID, deleteMapping]

theorem getMapping_of_find (s : AssetServer) (p : AssetPath) (h : AssetHash)
    (hf : s._fileMapping.find p = some h) : s.getMapping p = (h, s) := by
  simp [getMapping, Mapping.index, hf]

theorem getMapping_of_find_none (s : AssetServer) (p : AssetPath)
    (hf : s._fileMapping.find p = none) : (s.getMapping p).1 = "" := by
  simp [getMapping, Mapping.index, hf]

end AssetServer

/-! ## The mapping operations -/

open AssetServer

/-- C1: after set(p, h), done by `setMapping` or by a MappingOperation/Set
request carrying p and h, `getMapping(p)` returns h and a MappingOperation/Get
request for p is answered with the message ID, NoError and the hash string h
(for h a 64-character lowercase hex string, the Latin-1 bytes written are the
characters of h). -/
theorem set_then_get (U : AssetUtils) (s : AssetServer) (p : AssetPath) (h : AssetHash)
    (setRequest getRequest : ReceivedMessage) (a b : Node)
    (hh : isHashString h = true)
    (hset : setRequest.IsSet U p h) (hget : getRequest.IsGet U p) :
    ((s.setMapping p h).getMapping p).1 = h
    ∧ ((handleAssetMappingOperation U s setRequest a).1.getMapping p).1 = h
    ∧ (handleAssetMappingOperation U (s.setMapping p h) getRequest b).1
        = (s.setMapping p h).sendPacket
            (mappingReply [Field.messageID (getRequest.messageID U),
              Field.error AssetServerError.NoError, Field.string (QString.toLatin1 h)]) b
    ∧ (handleAssetMappingOperation U (handleAssetMappingOperation U s setRequest a).1
          getRequest b).1
        = (handleAssetMappingOperation U s setRequest a).1.sendPacket
            (mappingReply [Field.messageID (getRequest.messageID U),
              Field.error AssetServerError.NoError, Field.string (QString.toLatin1 h)]) b
    ∧ QString.fromQByteArray (QString.toLatin1 h) = h := by
  have hdirect : (s.setMapping p h)._fileMapping.find p = some h :=
    Mapping.find_assign_self s._fileMapping p h
  have hrequest : (handleAssetMappingOperation U s setRequest a).1._fileMapping.find p
      = some h := by
    rw [handle_set U s setRequest a p h hset]
    exact Mapping.find_assign_self s._fileMapping p h
  refine ⟨?_, ?_, ?_, ?_, fromQByteArray_toLatin1 h hh⟩
  · rw [getMapping_of_find _ p h hdirect]
  · rw [getMapping_of_find _ p h hrequest]
  · exact handle_get_found U _ getRequest b p h hget hdirect
  · exact handle_get_found U _ getRequest b p h hget hrequest

theorem set_then_get_witness :
    isHashString sampleHash = true
    ∧ sampleSet.IsSet sampleUtils "/foo" sampleHash
    ∧ sampleGet.IsGet sampleUtils "/foo"
    ∧ (((sampleServer.setMapping "/foo" sampleHash).getMapping "/foo").1 = sampleHash
      ∧ ((handleAssetMappingOperation sampleUtils sampleServer sampleSet alice).1.getMapping
          "/foo").1 = sampleHash
      ∧ (handleAssetMappingOperation sampleUtils (sampleServer.setMapping "/foo" sampleHash)
          sampleGet bob).1
          = (sampleServer.setMapping "/foo" sampleHash).sendPacket
              (mappingReply [Field.messageID (sampleGet.messageID sampleUtils),
                Field.error AssetServerError.NoError,
                Field.string (QString.toLatin1 sampleHash)]) bob
      ∧ (handleAssetMappingOperation sampleUtils
            (handleAssetMappingOperation sampleUtils sampleServer sampleSet alice).1
            sampleGet bob).1
          = (handleAssetMappingOperation sampleUtils sampleServer sampleSet alice).1.sendPacket
              (mappingReply [Field.messageID (sampleGet.messageID sampleUtils),
                Field.error AssetServerError.NoError,
                Field.string (QString.toLatin1 sampleHash)]) bob
      ∧ QString.fromQByteArray (QString.toLatin1 sampleHash) = sampleHash) :=
  ⟨by decide, by decide, by decide,
    set_then_get sampleUtils sampleServer "/foo" sampleHash sampleSet sampleGet alice bob
      (by decide) (by decide) (by decide)⟩

/-- C2: after delete(p), done by `deleteMapping` or by a MappingOperation/Delete
request, however many times p was set before, the table holds no entry for p
and a following MappingOperation/Get request for p is answered with the message
ID and AssetNotFound. -/
theorem delete_then_get (U : AssetUtils) (s : AssetServer) (p : AssetPath)
    (hashes : List AssetHash) (deleteRequest getRequest : ReceivedMessage) (a b : Node)
    (hdel : deleteRequest.IsDelete U p) (hget : getRequest.IsGet U p) :
    (∀ h, (p, h) ∉ ((s.setRepeatedly p hashes).deleteMapping p).2._fileMapping)
    ∧ (∀ h, (p, h) ∉
        (handleAssetMappingOperation U (s.setRepeatedly p hashes) deleteRequest a).1._fileMapping)
    ∧ (handleAssetMappingOperation U ((s.setRepeatedly p hashes).deleteMapping p).2
          getRequest b).1
        = ((s.setRepeatedly p hashes).deleteMapping p).2.sendPacket
            (mappingReply [Field.messageID (getRequest.messageID U),
              Field.error AssetServerError.AssetNotFound]) b
    ∧ (handleAssetMappingOperation U
          (handleAssetMappingOperation U (s.setRepeatedly p hashes) deleteRequest a).1
          getRequest b).1
        = (handleAssetMappingOperation U (s.setRepeatedly p hashes) deleteRequest a).1.sendPacket
            (mappingReply [Field.messageID (getRequest.messageID U),
              Field.error AssetServerError.AssetNotFound]) b := by
  have hdirect : ((s.setRepeatedly p hashes).deleteMapping p).2._fileMapping.find p = none :=
    Mapping.find_erase_self _ p
  have hrequest :
      (handleAssetMappingOperation U (s.setRepeatedly p hashes) deleteRequest a).1._fileMapping.find
        p = none := by
    rw [handle_delete U _ deleteRequest a p hdel]
    exact Mapping.find_erase_self _ p
  exact ⟨(Mapping.find_eq_none_iff _ p).1 hdirect, (Mapping.find_eq_none_iff _ p).1 hrequest,
    handle_get_missing U _ getRequest b p hget hdirect,
    handle_get_missing U _ getRequest b p hget hrequest⟩

theorem delete_then_get_witness :
    sampleDelete.IsDelete sampleUtils "/foo"
    ∧ sampleGet.IsGet sampleUtils "/foo"
    ∧ ((∀ h, ("/foo", h) ∉
          ((sampleServer.setRepeatedly "/foo" ["aa", sampleHash]).deleteMapping
            "/foo").2._fileMapping)
      ∧ (∀ h, ("/foo", h) ∉
          (handleAssetMappingOperation sampleUtils
            (sampleServer.setRepeatedly "/foo" ["aa", sampleHash]) sampleDelete
            alice).1._fileMapping)
      ∧ (handleAssetMappingOperation sampleUtils
            ((sampleServer.setRepeatedly "/foo" ["aa", sampleHash]).deleteMapping "/foo").2
            sampleGet bob).1
          = ((sampleServer.setRepeatedly "/foo" ["aa", sampleHash]).deleteMapping
              "/foo").2.sendPacket
              (mappingReply [Field.messageID (sampleGet.messageID sampleUtils),
                Field.error AssetServerError.AssetNotFound]) bob
      ∧ (handleAssetMappingOperation sampleUtils
            (handleAssetMappingOperation sampleUtils
              (sampleServer.setRepeatedly "/foo" ["aa", sampleHash]) sampleDelete alice).1
            sampleGet bob).1
          = (handleAssetMappingOperation sampleUtils
              (sampleServer.setRepeatedly "/foo" ["aa", sampleHash]) sampleDelete
              alice).1.sendPacket
              (mappingReply [Field.messageID (sampleGet.messageID sampleUtils),
                Field.error AssetServerError.AssetNotFound]) bob) :=
  ⟨by decide, by decide,
    delete_then_get sampleUtils sampleServer "/foo" ["aa", sampleHash] sampleDelete sampleGet
      alice bob (by decide) (by decide)⟩

/-- C3: for a path p with no entry in the table, a MappingOperation/Get request
for p is answered with the message ID and AssetNotFound and no hash payload,
and `getMapping(p)` returns the empty string, which differs from what it
returns for any path mapped to a hash string (64 lowercase hex characters). -/
theorem get_unmapped (U : AssetUtils) (s : AssetServer) (p : AssetPath)
    (getRequest : ReceivedMessage) (b : Node)
    (hget : getRequest.IsGet U p) (hnone : ∀ h, (p, h) ∉ s._fileMapping) :
    (handleAssetMappingOperation U s getRequest b).1
        = s.sendPacket (mappingReply [Field.messageID (getRequest.messageID U),
            Field.error AssetServerError.AssetNotFound]) b
    ∧ (s.getMapping p).1 = ""
    ∧ ∀ (q : AssetPath) (h : AssetHash), isHashString h = true →
        s._fileMapping.find q = some h →
        (s.getMapping q).1 = h ∧ (s.getMapping q).1 ≠ (s.getMapping p).1 := by
  have hf : s._fileMapping.find p = none := (Mapping.find_eq_none_iff _ p).2 hnone
  refine ⟨handle_get_missing U s getRequest b p hget hf, getMapping_of_find_none s p hf, ?_⟩
  intro q h hh hq
  rw [getMapping_of_find s q h hq, getMapping_of_find_none s p hf]
  exact ⟨rfl, isHashString_ne_empty h hh⟩

theorem get_unmapped_witness :
    sampleGet.IsGet sampleUtils "/foo"
    ∧ (∀ h, ("/foo", h) ∉ (sampleServer.setMapping "/baz" sampleHash)._fileMapping)
    ∧ ((handleAssetMappingOperation sampleUtils (sampleServer.setMapping "/baz" sampleHash)
          sampleGet bob).1
          = (sampleServer.setMapping "/baz" sampleHash).sendPacket
              (mappingReply [Field.messageID (sampleGet.messageID sampleUtils),
                Field.error AssetServerError.AssetNotFound]) bob
      ∧ ((sampleServer.setMapping "/baz" sampleHash).getMapping "/foo").1 = ""
      ∧ ∀ (q : AssetPath) (h : AssetHash), isHashString h = true →
          (sampleServer.setMapping "/baz" sampleHash)._fileMapping.find q = some h →
          ((sampleServer.setMapping "/baz" sampleHash).getMapping q).1 = h
          ∧ ((sampleServer.setMapping "/baz" sampleHash).getMapping q).1
              ≠ ((sampleServer.setMapping "/baz" sampleHash).getMapping "/foo").1) :=
  ⟨by decide, by simp [sampleServer, setMapping, Mapping.assign],
    get_unmapped sampleUtils (sampleServer.setMapping "/baz" sampleHash) "/foo" sampleGet bob
      (by decide) (by simp [sampleServer, setMapping, Mapping.assign])⟩

/-- C4: `deleteMapping(p)` returns true if and only if the table held an entry
for p before the call; when it returns true no entry for p is left and the
entries of the other paths are as before, and when it returns false the server
is unchanged. -/
theorem deleteMapping_spec (s : AssetServer) (p : AssetPath) :
    ((s.deleteMapping p).1 = true ↔ ∃ h, (p, h) ∈ s._fileMapping)
    ∧ ((s.deleteMapping p).1 = true →
        (∀ h, (p, h) ∉ (s.deleteMapping p).2._fileMapping)
        ∧ ∀ e : AssetPath × AssetHash, e.1 ≠ p →
            (e ∈ (s.deleteMapping p).2._fileMapping ↔ e ∈ s._fileMapping))
    ∧ ((s.deleteMapping p).1 = false → (s.deleteMapping p).2 = s) := by
  have hiff : (s.deleteMapping p).1 = true ↔ ∃ h, (p, h) ∈ s._fileMapping := by
    simp only [deleteMapping, decide_eq_true_eq, gt_iff_lt]
    rw [Mapping.erase_count_pos_iff]
    constructor
    · intro hex
      by_contra hnot
      have hnone := (Mapping.find_eq_none_iff s._fileMapping p).2 (by
        intro h hmem
        exact hnot ⟨h, hmem⟩)
      obtain ⟨h, hf⟩ := hex
      rw [hnone] at hf
      exact absurd hf (by simp)
    · intro hex
      obtain ⟨h, hmem⟩ := hex
      cases hf : s._fileMapping.find p with
      | none => exact absurd hmem ((Mapping.find_eq_none_iff s._fileMapping p).1 hf h)
      | some g => exact ⟨g, rfl⟩
  refine ⟨hiff, ?_, ?_⟩
  · intro _
    refine ⟨(Mapping.find_eq_none_iff _ p).1 (Mapping.find_erase_self _ p), ?_⟩
    intro e he
    simp only [deleteMapping]
    rw [Mapping.mem_erase_iff]
    exact ⟨fun hmem => hmem.1, fun hmem => ⟨hmem, he⟩⟩
  · intro hfalse
    have hnone : s._fileMapping.find p = none := by
      cases hf : s._fileMapping.find p with
      | none => rfl
      | some g =>
        have hpos := (Mapping.erase_count_pos_iff s._fileMapping p).2 ⟨g, hf⟩
        simp only [deleteMapping, decide_eq_false_iff_not, gt_iff_lt] at hfalse
        exact absurd hpos hfalse
    simp only [deleteMapping]
    rw [Mapping.erase_of_find_none _ p hnone]

/-- C5: a MappingOperation/Set request carrying p and h is answered with the
message ID and NoError and leaves exactly one entry for p, with value h,
whatever the table and the storage root held before (the storage root is not
consulted); a later Set request on p carrying g leaves exactly the entry
(p, g). -/
theorem set_request_upsert (U : AssetUtils) (s : AssetServer) (p : AssetPath)
    (h g : AssetHash) (setRequest laterRequest : ReceivedMessage) (a b : Node)
    (hset : setRequest.IsSet U p h) (hlater : laterRequest.IsSet U p g) :
    (handleAssetMappingOperation U s setRequest a).1.sentPackets
        = s.sentPackets ++ [(mappingReply [Field.messageID (setRequest.messageID U),
            Field.error AssetServerError.NoError], a)]
    ∧ (handleAssetMappingOperation U s setRequest a).1._fileMapping.entriesFor p = [(p, h)]
    ∧ (handleAssetMappingOperation U s setRequest a).1.fileInfoQueries = s.fileInfoQueries
    ∧ (handleAssetMappingOperation U s setRequest a).1._resourcesDirectory
        = s._resourcesDirectory
    ∧ (handleAssetMappingOperation U (handleAssetMappingOperation U s setRequest a).1
          laterRequest b).1._fileMapping.entriesFor p = [(p, g)] := by
  rw [handle_set U _ laterRequest b p g hlater, handle_set U s setRequest a p h hset]
  exact ⟨rfl, Mapping.entriesFor_assign_self _ p h, rfl, rfl,
    Mapping.entriesFor_assign_self _ p g⟩

/-- C6: a MappingOperation/Delete request for p is answered with the message ID
and NoError, whether or not p had an entry, and leaves no entry for p. -/
theorem delete_request_reply (U : AssetUtils) (s : AssetServer) (p : AssetPath)
    (deleteRequest : ReceivedMessage) (a : Node) (hdel : deleteRequest.IsDelete U p) :
    (handleAssetMappingOperation U s deleteRequest a).1.sentPackets
        = s.sentPackets ++ [(mappingReply [Field.messageID (deleteRequest.messageID U),
            Field.error AssetServerError.NoError], a)]
    ∧ ∀ h, (p, h) ∉ (handleAssetMappingOperation U s deleteRequest a).1._fileMapping := by
  rw [handle_delete U s deleteRequest a p hdel]
  exact ⟨rfl, (Mapping.find_eq_none_iff _ p).1 (Mapping.find_erase_self _ p)⟩

theorem set_request_upsert_witness :
    sampleSet.IsSet sampleUtils "/foo" sampleHash
    ∧ sampleSet.IsSet sampleUtils "/foo" sampleHash
    ∧ ((handleAssetMappingOperation sampleUtils (sampleServer.setMapping "/foo" "aa")
          sampleSet alice).1.sentPackets
          = (sampleServer.setMapping "/foo" "aa").sentPackets
              ++ [(mappingReply [Field.messageID (sampleSet.messageID sampleUtils),
                Field.error AssetServerError.NoError], alice)]
      ∧ (handleAssetMappingOperation sampleUtils (sampleServer.setMapping "/foo" "aa")
          sampleSet alice).1._fileMapping.entriesFor "/foo" = [("/foo", sampleHash)]
      ∧ (handleAssetMappingOperation sampleUtils (sampleServer.setMapping "/foo" "aa")
          sampleSet alice).1.fileInfoQueries
          = (sampleServer.setMapping "/foo" "aa").fileInfoQueries
      ∧ (handleAssetMappingOperation sampleUtils (sampleServer.setMapping "/foo" "aa")
          sampleSet alice).1._resourcesDirectory
          = (sampleServer.setMapping "/foo" "aa")._resourcesDirectory
      ∧ (handleAssetMappingOperation sampleUtils
          (handleAssetMappingOperation sampleUtils (sampleServer.setMapping "/foo" "aa")
            sampleSet alice).1
          sampleSet bob).1._fileMapping.entriesFor "/foo" = [("/foo", sampleHash)]) :=
  ⟨by decide, by decide,
    set_request_upsert sampleUtils (sampleServer.setMapping "/foo" "aa") "/foo" sampleHash
      sampleHash sampleSet sampleSet alice bob (by decide) (by decide)⟩

theorem delete_request_reply_witness :
    sampleDelete.IsDelete sampleUtils "/foo"
    ∧ ((handleAssetMappingOperation sampleUtils sampleServer sampleDelete alice).1.sentPackets
          = sampleServer.sentPackets
              ++ [(mappingReply [Field.messageID (sampleDelete.messageID sampleUtils),
                Field.error AssetServerError.NoError], alice)]
      ∧ ∀ h, ("/foo", h) ∉
          (handleAssetMappingOperation sampleUtils sampleServer sampleDelete
            alice).1._fileMapping) :=
  ⟨by decide,
    delete_request_reply sampleUtils sampleServer "/foo" sampleDelete alice (by decide)⟩

/-! ## The shape of the inline replies -/

/-- C7, as stated, fails: the reply to a GetInfo request carries the hash bytes
between the message ID and the result code, and the reply to a MappingOperation
request whose operation type is no enumerator carries no result code. -/
theorem inline_reply_counterexample :
    (handleAssetGetInfo sampleUtils sampleServer sampleGetInfo alice).1.sentPackets
        = [({ packetType := PacketType.AssetGetInfoReply, size := none,
              payload := [Field.messageID [5, 0, 0, 0], Field.bytes sampleHashBytes,
                Field.error AssetServerError.NoError, Field.size 10] }, alice)]
    ∧ (sampleServer.newPackets
        (handleAssetGetInfo sampleUtils sampleServer sampleGetInfo alice).1).all
          (fun r => isInlineReply (sampleGetInfo.messageID sampleUtils) r.1) = false
    ∧ (handleAssetMappingOperation sampleUtils sampleServer sampleUnknown alice).1.sentPackets
        = [(mappingReply [Field.messageID [4, 0, 0, 0]], alice)]
    ∧ (sampleServer.newPackets
        (handleAssetMappingOperation sampleUtils sampleServer sampleUnknown alice).1).all
          (fun r => isInlineReply (sampleUnknown.messageID sampleUtils) r.1) = false := by
  decide

/-- C7, amended: every reply to a MappingOperation request of kind Get, Set or
Delete and every reply to an Upload request (sent only when the upload is
denied) is the message ID read from the request, immediately followed by a
result code, with further fields only after NoError; every reply to a GetInfo
request is the message ID read from the request, the hash bytes read from the
request, then a result code, with further fields only after NoError. -/
theorem inline_reply_shape (U : AssetUtils) (s : AssetServer)
    (mappingRequest infoRequest uploadRequest : ReceivedMessage) (n : Node)
    (hop : mappingRequest.operationType U ≠ none) :
    (∀ r ∈ s.newPackets (handleAssetMappingOperation U s mappingRequest n).1,
        isInlineReply (mappingRequest.messageID U) r.1 = true)
    ∧ (∀ r ∈ s.newPackets (handleAssetUpload U s uploadRequest n).1,
        isInlineReply (uploadRequest.messageID U) r.1 = true)
    ∧ (∀ r ∈ s.newPackets (handleAssetGetInfo U s infoRequest n).1,
        isInfoReply (infoRequest.messageID U) (infoRequest.infoHash U) r.1 = true) := by
  refine ⟨?_, ?_, ?_⟩
  · cases hk : mappingRequest.operationType U with
    | none => exact absurd hk hop
    | some k =>
      cases k with
      | Get =>
        cases hf : s._fileMapping.find (mappingRequest.assetPath U) with
        | none =>
          rw [handle_get_missing U s mappingRequest n _ ⟨hk, rfl⟩ hf]
          simp [newPackets, sendPacket, isInlineReply, mappingReply]
        | some h =>
          rw [handle_get_found U s mappingRequest n _ h ⟨hk, rfl⟩ hf]
          simp [newPackets, sendPacket, isInlineReply, mappingReply]
      | Set =>
        rw [handle_set U s mappingRequest n _ _ ⟨hk, rfl, rfl⟩]
        simp [newPackets, sendPacket, setMapping, isInlineReply, mappingReply]
      | Delete =>
        rw [handle_delete U s mappingRequest n _ ⟨hk, rfl⟩]
        simp [newPackets, sendPacket, deleteMapping, isInlineReply, mappingReply]
  · unfold handleAssetUpload
    split
    · simp [newPackets, startTask]
    · simp [newPackets, sendPacket, isInlineReply, NLPacket.write, NLPacket.create,
        ReceivedMessage.messageID]
  · unfold handleAssetGetInfo
    split
    · simp [newPackets]
    · simp only [AssetServer.fileInfo]
      split
      · split
        · simp [newPackets, sendPacket, isInfoReply, NLPacket.write, NLPacket.create,
            ReceivedMessage.messageID, ReceivedMessage.infoHash]
        · simp [newPackets, sendPacket, isInfoReply, NLPacket.write, NLPacket.create,
            ReceivedMessage.messageID, ReceivedMessage.infoHash]
      · simp [newPackets, sendPacket, isInfoReply, NLPacket.write, NLPacket.create,
          ReceivedMessage.messageID, ReceivedMessage.infoHash]

theorem inline_reply_shape_witness :
    sampleGet.operationType sampleUtils ≠ none
    ∧ ((∀ r ∈ sampleServer.newPackets
          (handleAssetMappingOperation sampleUtils sampleServer sampleGet bob).1,
          isInlineReply (sampleGet.messageID sampleUtils) r.1 = true)
      ∧ (∀ r ∈ sampleServer.newPackets
          (handleAssetUpload sampleUtils sampleServer sampleUpload bob).1,
          isInlineReply (sampleUpload.messageID sampleUtils) r.1 = true)
      ∧ (∀ r ∈ sampleServer.newPackets
          (handleAssetGetInfo sampleUtils sampleServer sampleGetInfo bob).1,
          isInfoReply (sampleGetInfo.messageID sampleUtils)
            (sampleGetInfo.infoHash sampleUtils) r.1 = true)) :=
  ⟨by decide,
    inline_reply_shape sampleUtils sampleServer sampleGet sampleGetInfo sampleUpload bob
      (by decide)⟩

/-! ## GetInfo and Get -/

/-- C8: a GetInfo request of at least the minimum size gets exactly one reply.
Its fields are the message ID (the first `sizeof(MessageID)` bytes of the
request), the hash (the next `SHA256_HASH_LENGTH` bytes, unchanged), and then
NoError with the byte length of the file when the storage root has a readable
file named by the lowercase hex encoding of the hash, and AssetNotFound alone
otherwise. -/
theorem getInfo_reply (U : AssetUtils) (s : AssetServer) (data : QByteArray) (n : Node)
    (hfit : SHA256_HASH_LENGTH + U.sizeofMessageID < 2 ^ 63)
    (hsize : SHA256_HASH_LENGTH + U.sizeofMessageID ≤ data.length) :
    ((data.drop U.sizeofMessageID).take SHA256_HASH_LENGTH).length = SHA256_HASH_LENGTH
    ∧ isHashString (hashFileName ((data.drop U.sizeofMessageID).take SHA256_HASH_LENGTH)) = true
    ∧ (∀ f, s._resourcesDirectory.fileInfo
          (hashFileName ((data.drop U.sizeofMessageID).take SHA256_HASH_LENGTH)) = some f →
        f.isReadable = true →
        (handleAssetGetInfo U s (ReceivedMessage.ofBytes data) n).1.sentPackets
          = s.sentPackets ++ [(infoReply [Field.messageID (data.take U.sizeofMessageID),
              Field.bytes ((data.drop U.sizeofMessageID).take SHA256_HASH_LENGTH),
              Field.error AssetServerError.NoError, Field.size f.size], n)])
    ∧ ((∀ f, s._resourcesDirectory.fileInfo
          (hashFileName ((data.drop U.sizeofMessageID).take SHA256_HASH_LENGTH)) = some f →
          f.isReadable = false) →
        (handleAssetGetInfo U s (ReceivedMessage.ofBytes data) n).1.sentPackets
          = s.sentPackets ++ [(infoReply [Field.messageID (data.take U.sizeofMessageID),
              Field.bytes ((data.drop U.sizeofMessageID).take SHA256_HASH_LENGTH),
              Field.error AssetServerError.AssetNotFound], n)])
    ∧ (∀ name f, s._resourcesDirectory.fileInfo name = some f →
        f ∈ s._resourcesDirectory.files ∧ f.fileName = name ∧ f.size = (f.contents.length : Int))
    ∧ (∀ name, s._resourcesDirectory.fileInfo name = none ↔
        ∀ f ∈ s._resourcesDirectory.files, f.fileName ≠ name) := by
  have hlen : ((data.drop U.sizeofMessageID).take SHA256_HASH_LENGTH).length
      = SHA256_HASH_LENGTH := by
    rw [List.length_take, List.length_drop]
    omega
  have hnot : ¬ (ReceivedMessage.ofBytes data).getSize
      < qint64 ((SHA256_HASH_LENGTH + U.sizeofMessageID) % 2 ^ 64) := by
    rw [qint64_of_lt _ hfit]
    simp only [ReceivedMessage.getSize, ReceivedMessage.ofBytes, not_lt]
    exact_mod_cast hsize
  refine ⟨hlen, isHashString_hashFileName _ hlen, ?_, ?_, ?_, ?_⟩
  · intro f hf hr
    simp only [hashFileName] at hf
    unfold handleAssetGetInfo
    rw [if_neg hnot]
    simp [AssetServer.fileInfo, ReceivedMessage.readPrimitive,
      ReceivedMessage.readWithoutCopy, ReceivedMessage.unread, ReceivedMessage.ofBytes, hf, hr,
      sendPacket, infoReply, NLPacket.create, NLPacket.write]
  · intro hall
    simp only [hashFileName] at hall
    unfold handleAssetGetInfo
    rw [if_neg hnot]
    simp only [AssetServer.fileInfo, ReceivedMessage.readPrimitive,
      ReceivedMessage.readWithoutCopy, ReceivedMessage.unread, ReceivedMessage.ofBytes,
      List.drop_zero, Nat.zero_add]
    split
    · rename_i info hinfo
      have hr := hall info hinfo
      simp [hr, sendPacket, infoReply, NLPacket.create, NLPacket.write]
    · simp [sendPacket, infoReply, NLPacket.create, NLPacket.write]
  · intro name f hf
    exact ⟨(fileInfo_some _ name f hf).1, (fileInfo_some _ name f hf).2, rfl⟩
  · intro name
    exact fileInfo_none_iff _ name

theorem getInfo_reply_witness :
    SHA256_HASH_LENGTH + sampleUtils.sizeofMessageID < 2 ^ 63
    ∧ SHA256_HASH_LENGTH + sampleUtils.sizeofMessageID ≤ sampleInfoData.length
    ∧ (((sampleInfoData.drop sampleUtils.sizeofMessageID).take SHA256_HASH_LENGTH).length
        = SHA256_HASH_LENGTH
      ∧ isHashString (hashFileName
          ((sampleInfoData.drop sampleUtils.sizeofMessageID).take SHA256_HASH_LENGTH)) = true
      ∧ (∀ f, sampleServer._resourcesDirectory.fileInfo (hashFileName
            ((sampleInfoData.drop sampleUtils.sizeofMessageID).take SHA256_HASH_LENGTH))
            = some f →
          f.isReadable = true →
          (handleAssetGetInfo sampleUtils sampleServer (ReceivedMessage.ofBytes sampleInfoData)
              alice).1.sentPackets
            = sampleServer.sentPackets
              ++ [(infoReply [Field.messageID (sampleInfoData.take sampleUtils.sizeofMessageID),
                Field.bytes
                  ((sampleInfoData.drop sampleUtils.sizeofMessageID).take SHA256_HASH_LENGTH),
                Field.error AssetServerError.NoError, Field.size f.size], alice)])
      ∧ ((∀ f, sampleServer._resourcesDirectory.fileInfo (hashFileName
            ((sampleInfoData.drop sampleUtils.sizeofMessageID).take SHA256_HASH_LENGTH))
            = some f →
            f.isReadable = false) →
          (handleAssetGetInfo sampleUtils sampleServer (ReceivedMessage.ofBytes sampleInfoData)
              alice).1.sentPackets
            = sampleServer.sentPackets
              ++ [(infoReply [Field.messageID (sampleInfoData.take sampleUtils.sizeofMessageID),
                Field.bytes
                  ((sampleInfoData.drop sampleUtils.sizeofMessageID).take SHA256_HASH_LENGTH),
                Field.error AssetServerError.AssetNotFound], alice)])
      ∧ (∀ name f, sampleServer._resourcesDirectory.fileInfo name = some f →
          f ∈ sampleServer._resourcesDirectory.files ∧ f.fileName = name
            ∧ f.size = (f.contents.length : Int))
      ∧ (∀ name, sampleServer._resourcesDirectory.fileInfo name = none ↔
          ∀ f ∈ sampleServer._resourcesDirectory.files, f.fileName ≠ name)) :=
  ⟨by decide, by decide,
    getInfo_reply sampleUtils sampleServer sampleInfoData alice (by decide) (by decide)⟩

/-- C9: a GetInfo request smaller than `SHA256_HASH_LENGTH + sizeof(MessageID)`
leaves the server and the message as they were (no reply, nothing read, no
lookup in the storage root); a request of at least that size gets exactly one
reply. -/
theorem getInfo_minimum_size (U : AssetUtils) (s : AssetServer) (m : ReceivedMessage)
    (n : Node) (hfit : SHA256_HASH_LENGTH + U.sizeofMessageID < 2 ^ 63) :
    (m.getSize < ((SHA256_HASH_LENGTH + U.sizeofMessageID : Nat) : Int) →
        handleAssetGetInfo U s m n = (s, m))
    ∧ (((SHA256_HASH_LENGTH + U.sizeofMessageID : Nat) : Int) ≤ m.getSize →
        (s.newPackets (handleAssetGetInfo U s m n).1).length = 1) := by
  constructor
  · intro hsmall
    unfold handleAssetGetInfo
    rw [qint64_of_lt _ hfit, if_pos hsmall]
  · intro hlarge
    unfold handleAssetGetInfo
    rw [qint64_of_lt _ hfit, if_neg (not_lt.2 hlarge)]
    simp only [AssetServer.fileInfo]
    split
    · split
      · simp [newPackets, sendPacket]
      · simp [newPackets, sendPacket]
    · simp [newPackets, sendPacket]

theorem getInfo_minimum_size_witness :
    SHA256_HASH_LENGTH + sampleUtils.sizeofMessageID < 2 ^ 63
    ∧ ((sampleShort.getSize < ((SHA256_HASH_LENGTH + sampleUtils.sizeofMessageID : Nat) : Int) →
          handleAssetGetInfo sampleUtils sampleServer sampleShort alice
            = (sampleServer, sampleShort))
      ∧ (((SHA256_HASH_LENGTH + sampleUtils.sizeofMessageID : Nat) : Int) ≤ sampleShort.getSize →
          (sampleServer.newPackets
            (handleAssetGetInfo sampleUtils sampleServer sampleShort alice).1).length = 1))
    ∧ sampleShort.getSize < ((SHA256_HASH_LENGTH + sampleUtils.sizeofMessageID : Nat) : Int) :=
  ⟨by decide, getInfo_minimum_size sampleUtils sampleServer sampleShort alice (by decide),
    by decide⟩

/-- C10: a Get request is handed to the worker pool as a fetch task if and only
if its size is at least `sizeof(MessageID) + SHA256_HASH_LENGTH
+ 2 * sizeof(DataOffset)`; a smaller request leaves the server and the message
as they were; in both cases the handler sends no packet and the mapping table
is unchanged. -/
theorem get_dispatch (U : AssetUtils) (s : AssetServer) (m : ReceivedMessage) (n : Node)
    (hfit : U.sizeofMessageID + SHA256_HASH_LENGTH + U.sizeofDataOffset + U.sizeofDataOffset
      < 2 ^ 63) :
    (m.getSize < ((U.sizeofMessageID + SHA256_HASH_LENGTH + U.sizeofDataOffset
          + U.sizeofDataOffset : Nat) : Int) →
        handleAssetGet U s m n = (s, m))
    ∧ (((U.sizeofMessageID + SHA256_HASH_LENGTH + U.sizeofDataOffset
          + U.sizeofDataOffset : Nat) : Int) ≤ m.getSize →
        handleAssetGet U s m n
          = ({ s with _taskPool := s._taskPool
                ++ [Task.SendAssetTask m n s._resourcesDirectory] }, m))
    ∧ ((handleAssetGet U s m n).1._taskPool ≠ s._taskPool ↔
        ((U.sizeofMessageID + SHA256_HASH_LENGTH + U.sizeofDataOffset
          + U.sizeofDataOffset : Nat) : Int) ≤ m.getSize)
    ∧ (handleAssetGet U s m n).1.sentPackets = s.sentPackets
    ∧ (handleAssetGet U s m n).1._fileMapping = s._fileMapping := by
  have hsmall : m.getSize < ((U.sizeofMessageID + SHA256_HASH_LENGTH + U.sizeofDataOffset
      + U.sizeofDataOffset : Nat) : Int) → handleAssetGet U s m n = (s, m) := by
    intro hlt
    unfold handleAssetGet
    simp only []
    rw [qint64_of_lt _ hfit, if_pos hlt]
  have hlarge : ((U.sizeofMessageID + SHA256_HASH_LENGTH + U.sizeofDataOffset
      + U.sizeofDataOffset : Nat) : Int) ≤ m.getSize →
      handleAssetGet U s m n
        = ({ s with _taskPool := s._taskPool
              ++ [Task.SendAssetTask m n s._resourcesDirectory] }, m) := by
    intro hle
    unfold handleAssetGet
    simp only []
    rw [qint64_of_lt _ hfit, if_neg (not_lt.2 hle)]
    rfl
  refine ⟨hsmall, hlarge, ?_, ?_, ?_⟩
  · constructor
    · intro hne
      by_contra hnot
      rw [hsmall (not_le.1 hnot)] at hne
      exact hne rfl
    · intro hle
      rw [hlarge hle]
      simp
  · rcases lt_or_le m.getSize ((U.sizeofMessageID + SHA256_HASH_LENGTH + U.sizeofDataOffset
      + U.sizeofDataOffset : Nat) : Int) with hlt | hle
    · rw [hsmall hlt]
    · rw [hlarge hle]
  · rcases lt_or_le m.getSize ((U.sizeofMessageID + SHA256_HASH_LENGTH + U.sizeofDataOffset
      + U.sizeofDataOffset : Nat) : Int) with hlt | hle
    · rw [hsmall hlt]
    · rw [hlarge hle]

theorem get_dispatch_witness :
    sampleUtils.sizeofMessageID + SHA256_HASH_LENGTH + sampleUtils.sizeofDataOffset
        + sampleUtils.sizeofDataOffset < 2 ^ 63
    ∧ ((sampleAssetGet.getSize < ((sampleUtils.sizeofMessageID + SHA256_HASH_LENGTH
            + sampleUtils.sizeofDataOffset + sampleUtils.sizeofDataOffset : Nat) : Int) →
          handleAssetGet sampleUtils sampleServer sampleAssetGet alice
            = (sampleServer, sampleAssetGet))
      ∧ (((sampleUtils.sizeofMessageID + SHA256_HASH_LENGTH + sampleUtils.sizeofDataOffset
            + sampleUtils.sizeofDataOffset : Nat) : Int) ≤ sampleAssetGet.getSize →
          handleAssetGet sampleUtils sampleServer sampleAssetGet alice
            = ({ sampleServer with _taskPool := sampleServer._taskPool
                  ++ [Task.SendAssetTask sampleAssetGet alice
                        sampleServer._resourcesDirectory] }, sampleAssetGet))
      ∧ ((handleAssetGet sampleUtils sampleServer sampleAssetGet alice).1._taskPool
            ≠ sampleServer._taskPool ↔
          ((sampleUtils.sizeofMessageID + SHA256_HASH_LENGTH + sampleUtils.sizeofDataOffset
            + sampleUtils.sizeofDataOffset : Nat) : Int) ≤ sampleAssetGet.getSize)
      ∧ (handleAssetGet sampleUtils sampleServer sampleAssetGet alice).1.sentPackets
          = sampleServer.sentPackets
      ∧ (handleAssetGet sampleUtils sampleServer sampleAssetGet alice).1._fileMapping
          = sampleServer._fileMapping)
    ∧ ((sampleUtils.sizeofMessageID + SHA256_HASH_LENGTH + sampleUtils.sizeofDataOffset
          + sampleUtils.sizeofDataOffset : Nat) : Int) ≤ sampleAssetGet.getSize :=
  ⟨by decide, get_dispatch sampleUtils sampleServer sampleAssetGet alice (by decide),
    by decide⟩

/-! ## Lemmas on regular expressions -/

namespace QRegExp

theorem rmatch_nothing (x : List Char) : rmatch nothing x = false := by
  induction x with
  | nil => rfl
  | cons c cs ih => simpa [rmatch, deriv] using ih

theorem rmatch_empty_iff (x : List Char) : rmatch empty x = true ↔ x = [] := by
  cases x with
  | nil => simp [rmatch, matchesEmpty]
  | cons c cs => simp [rmatch, deriv, rmatch_nothing]

theorem rmatch_cls_iff (p : Char → Bool) (x : List Char) :
    rmatch (cls p) x = true ↔ ∃ c, x = [c] ∧ p c = true := by
  cases x with
  | nil => simp [rmatch, matchesEmpty]
  | cons c cs =>
    cases hp : p c with
    | true =>
      have hstep : rmatch (cls p) (c :: cs) = rmatch empty cs := by simp [rmatch, deriv, hp]
      rw [hstep, rmatch_empty_iff]
      constructor
      · intro hcs
        exact ⟨c, by rw [hcs], hp⟩
      · rintro ⟨d, hd, _⟩
        exact (List.cons.inj hd).2
    | false =>
      have hstep : rmatch (cls p) (c :: cs) = false := by
        simp [rmatch, deriv, hp, rmatch_nothing]
      rw [hstep]
      constructor
      · intro hfalse
        exact absurd hfalse (by simp)
      · rintro ⟨d, hd, hpd⟩
        rw [← (List.cons.inj hd).1, hp] at hpd
        exact absurd hpd (by simp)

theorem rmatch_alt (a b : QRegExp) (x : List Char) :
    rmatch (alt a b) x = (rmatch a x || rmatch b x) := by
  induction x generalizing a b with
  | nil => rfl
  | cons c cs ih => simp only [rmatch, deriv, ih]

theorem rmatch_seq_iff (a b : QRegExp) (x : List Char) :
    rmatch (seq a b) x = true ↔
      ∃ t u, x = t ++ u ∧ rmatch a t = true ∧ rmatch b u = true := by
  induction x generalizing a with
  | nil =>
    simp only [rmatch, matchesEmpty, Bool.and_eq_true]
    constructor
    · rintro ⟨ha, hb⟩
      exact ⟨[], [], rfl, ha, hb⟩
    · rintro ⟨t, u, htu, ha, hb⟩
      have ht : t = [] := (List.append_eq_nil.1 htu.symm).1
      have hu : u = [] := (List.append_eq_nil.1 htu.symm).2
      subst ht
      subst hu
      exact ⟨ha, hb⟩
  | cons c cs ih =>
    cases hempty : a.matchesEmpty with
    | true =>
      have hstep : rmatch (seq a b) (c :: cs)
          = rmatch (alt (seq (a.deriv c) b) (b.deriv c)) cs := by
        simp [rmatch, deriv, hempty]
      rw [hstep, rmatch_alt, Bool.or_eq_true, ih]
      constructor
      · rintro (⟨t, u, htu, ha, hb⟩ | hb)
        · exact ⟨c :: t, u, by rw [htu]; rfl, ha, hb⟩
        · exact ⟨[], c :: cs, rfl, hempty, hb⟩
      · rintro ⟨t, u, htu, ha, hb⟩
        cases t with
        | nil =>
          right
          have hu : u = c :: cs := htu.symm
          subst hu
          exact hb
        | cons d t =>
          left
          have hd := (List.cons.inj htu)
          refine ⟨t, u, hd.2, ?_, hb⟩
          rw [hd.1]
          exact ha
    | false =>
      have hstep : rmatch (seq a b) (c :: cs) = rmatch (seq (a.deriv c) b) cs := by
        simp [rmatch, deriv, hempty]
      rw [hstep, ih]
      constructor
      · rintro ⟨t, u, htu, ha, hb⟩
        exact ⟨c :: t, u, by rw [htu]; rfl, ha, hb⟩
      · rintro ⟨t, u, htu, ha, hb⟩
        cases t with
        | nil =>
          have hnil : rmatch a [] = a.matchesEmpty := rfl
          rw [hnil, hempty] at ha
          exact absurd ha (by simp)
        | cons d t =>
          have hd := (List.cons.inj htu)
          refine ⟨t, u, hd.2, ?_, hb⟩
          rw [hd.1]
          exact ha

theorem rmatch_star_iff (a : QRegExp) (x : List Char) :
    rmatch (star a) x = true ↔
      ∃ S : List (List Char), x = S.flatten ∧ ∀ t ∈ S, t ≠ [] ∧ rmatch a t = true := by
  obtain ⟨n, hn⟩ : ∃ n, x.length = n := ⟨_, rfl⟩
  induction n using Nat.strong_induction_on generalizing x with
  | _ n ih =>
    cases x with
    | nil =>
      simp only [rmatch, matchesEmpty, true_iff]
      exact ⟨[], rfl, by simp⟩
    | cons c cs =>
      have hlen : ∀ u : List Char, u.length ≤ cs.length →
          (rmatch (star a) u = true ↔
            ∃ S : List (List Char), u = S.flatten ∧ ∀ t ∈ S, t ≠ [] ∧ rmatch a t = true) := by
        intro u hu
        exact ih u.length (by rw [← hn, List.length_cons]; omega) u rfl
      simp only [rmatch, deriv]
      rw [rmatch_seq_iff]
      constructor
      · rintro ⟨t, u, htu, ha, hstar⟩
        have hu : u.length ≤ cs.length := by rw [htu, List.length_append]; omega
        obtain ⟨S, hS, hall⟩ := (hlen u hu).1 hstar
        refine ⟨(c :: t) :: S, by rw [List.flatten_cons, ← hS, htu]; rfl, ?_⟩
        intro s hs
        rcases List.mem_cons.1 hs with hs | hs
        · rw [hs]
          exact ⟨by simp, ha⟩
        · exact hall s hs
      · rintro ⟨S, hS, hall⟩
        cases S with
        | nil => exact absurd hS (by simp)
        | cons s S =>
          have hs := hall s (List.mem_cons_self s S)
          cases s with
          | nil => exact absurd rfl hs.1
          | cons d t =>
            rw [List.flatten_cons, List.cons_append] at hS
            have hd := List.cons.inj hS
            have hu : S.flatten.length ≤ cs.length := by rw [hd.2, List.length_append]; omega
            refine ⟨t, S.flatten, hd.2, ?_, ?_⟩
            · have ha := hs.2
              rw [← hd.1] at ha
              exact ha
            · exact (hlen S.flatten hu).2
                ⟨S, rfl, fun r hr => hall r (List.mem_cons_of_mem _ hr)⟩

theorem rmatch_plus_iff (a : QRegExp) (x : List Char) (hne : rmatch a [] = false) :
    rmatch (plus a) x = true ↔
      ∃ S : List (List Char), S ≠ [] ∧ x = S.flatten ∧ ∀ t ∈ S, rmatch a t = true := by
  simp only [plus]
  rw [rmatch_seq_iff]
  constructor
  · rintro ⟨t, u, htu, ha, hstar⟩
    obtain ⟨S, hS, hall⟩ := (rmatch_star_iff a u).1 hstar
    refine ⟨t :: S, by simp, by rw [List.flatten_cons, ← hS, htu], ?_⟩
    intro s hs
    rcases List.mem_cons.1 hs with hs | hs
    · rw [hs]
      exact ha
    · exact (hall s hs).2
  · rintro ⟨S, hS, hx, hall⟩
    cases S with
    | nil => exact absurd rfl hS
    | cons s S =>
      refine ⟨s, S.flatten, by rw [hx, List.flatten_cons], hall s (List.mem_cons_self s S), ?_⟩
      refine (rmatch_star_iff a S.flatten).2 ⟨S, rfl, ?_⟩
      intro r hr
      have hmatch := hall r (List.mem_cons_of_mem _ hr)
      refine ⟨?_, hmatch⟩
      intro hnil
      rw [hnil, hne] at hmatch
      exact absurd hmatch (by simp)

theorem rmatch_times_cls_iff (p : Char → Bool) (n : Nat) (x : List Char) :
    rmatch (times n (cls p)) x = true ↔ x.length = n ∧ ∀ c ∈ x, p c = true := by
  induction n generalizing x with
  | zero =>
    simp only [times]
    rw [rmatch_empty_iff]
    constructor
    · intro hx
      rw [hx]
      exact ⟨rfl, by simp⟩
    · rintro ⟨hx, _⟩
      exact List.length_eq_zero.1 hx
  | succ n ih =>
    simp only [times]
    rw [rmatch_seq_iff]
    constructor
    · rintro ⟨t, u, htu, ht, hu⟩
      obtain ⟨c, hc, hpc⟩ := (rmatch_cls_iff p t).1 ht
      obtain ⟨hlen, hall⟩ := (ih u).1 hu
      rw [htu, hc]
      refine ⟨by simp [hlen], ?_⟩
      intro d hd
      rcases List.mem_cons.1 hd with hd | hd
      · rw [hd]
        exact hpc
      · exact hall d hd
    · rintro ⟨hlen, hall⟩
      cases x with
      | nil => exact absurd hlen (by simp)
      | cons c cs =>
        refine ⟨[c], cs, rfl, (rmatch_cls_iff p [c]).2 ⟨c, rfl, hall c (List.mem_cons_self c cs)⟩,
          (ih cs).2 ⟨?_, fun d hd => hall d (List.mem_cons_of_mem c hd)⟩⟩
        simpa using hlen

theorem rmatch_plus_cls_iff (p : Char → Bool) (x : List Char) :
    rmatch (plus (cls p)) x = true ↔ x ≠ [] ∧ ∀ c ∈ x, p c = true := by
  rw [rmatch_plus_iff (cls p) x rfl]
  constructor
  · rintro ⟨S, hS, hx, hall⟩
    constructor
    · cases S with
      | nil => exact absurd rfl hS
      | cons s S =>
        obtain ⟨c, hc, _⟩ := (rmatch_cls_iff p s).1 (hall s (List.mem_cons_self s S))
        rw [hx, hc]
        simp
    · intro c hc
      rw [hx, List.mem_flatten] at hc
      obtain ⟨s, hs, hcs⟩ := hc
      obtain ⟨d, hd, hpd⟩ := (rmatch_cls_iff p s).1 (hall s hs)
      rw [hd, List.mem_singleton] at hcs
      rw [hcs]
      exact hpd
  · rintro ⟨hx, hall⟩
    refine ⟨x.map (fun c => [c]), ?_, ?_, ?_⟩
    · intro hmap
      exact hx (List.map_eq_nil_iff.1 hmap)
    · clear hx hall
      induction x with
      | nil => rfl
      | cons c cs ih => simp only [List.map_cons, List.flatten_cons, ← ih, List.singleton_append]
    · intro s hs
      obtain ⟨c, hc, hcs⟩ := List.mem_map.1 hs
      rw [← hcs]
      exact (rmatch_cls_iff p [c]).2 ⟨c, rfl, hall c hc⟩

end QRegExp

theorem extensionSuffix_iff (E : Environment) (e : List Char) :
    QRegExp.rmatch (extensionSuffixRegex E) e = true ↔ IsExtensionSuffix E e := by
  simp only [extensionSuffixRegex]
  rw [QRegExp.rmatch_seq_iff]
  constructor
  · rintro ⟨t, u, htu, ht, hu⟩
    obtain ⟨c, hc, hdot⟩ := (QRegExp.rmatch_cls_iff _ t).1 ht
    obtain ⟨hne, hall⟩ := (QRegExp.rmatch_plus_cls_iff _ u).1 hu
    have hcdot : c = '.' := by simpa using hdot
    exact ⟨u, by rw [htu, hc, hcdot]; rfl, hne, hall⟩
  · rintro ⟨ws, he, hne, hall⟩
    exact ⟨['.'], ws, he, (QRegExp.rmatch_cls_iff _ _).2 ⟨'.', rfl, by simp⟩,
      (QRegExp.rmatch_plus_cls_iff _ ws).2 ⟨hne, hall⟩⟩

theorem exactMatch_iff_legacyName (E : Environment) (name : QString) :
    (migrationHashFileRegex E).exactMatch name = true ↔ IsLegacyName E name := by
  simp only [QRegExp.exactMatch, migrationHashFileRegex, IsLegacyName]
  rw [QRegExp.rmatch_seq_iff]
  constructor
  · rintro ⟨hex, rest, hname, hhex, hrest⟩
    obtain ⟨hlen, hall⟩ := (QRegExp.rmatch_times_cls_iff _ _ hex).1 hhex
    obtain ⟨S, hS, hflat, hexts⟩ :=
      (QRegExp.rmatch_plus_iff (extensionSuffixRegex E) rest rfl).1 hrest
    exact ⟨hex, S, by rw [hname, hflat], hlen, hall, hS,
      fun e he => (extensionSuffix_iff E e).1 (hexts e he)⟩
  · rintro ⟨hex, exts, hname, hlen, hall, hne, hexts⟩
    exact ⟨hex, exts.flatten, hname, (QRegExp.rmatch_times_cls_iff _ _ hex).2 ⟨hlen, hall⟩,
      (QRegExp.rmatch_plus_iff (extensionSuffixRegex E) _ rfl).2
        ⟨exts, hne, rfl, fun e he => (extensionSuffix_iff E e).2 (hexts e he)⟩⟩

/-! ## Lemmas on `QString::replace` -/

theorem isPrefixOf_of_append_slash (b u rest : List Char) (hb : '/' ∉ b)
    (hp : b.isPrefixOf (u ++ '/' :: rest) = true) : b.isPrefixOf u = true := by
  induction b generalizing u with
  | nil => simp
  | cons x b ih =>
    have hx : x ≠ '/' := fun h => hb (by rw [h]; exact List.mem_cons_self _ _)
    have hb2 : '/' ∉ b := fun h => hb (List.mem_cons_of_mem _ h)
    cases u with
    | nil =>
      simp only [List.nil_append, List.isPrefixOf, Bool.and_eq_true, beq_iff_eq] at hp
      exact absurd hp.1 hx
    | cons y u =>
      simp only [List.cons_append, List.isPrefixOf, Bool.and_eq_true, beq_iff_eq] at hp ⊢
      exact ⟨hp.1, ih u hb2 hp.2⟩

theorem isPrefixOf_append_right (b u v : List Char) (hp : b.isPrefixOf u = true) :
    b.isPrefixOf (u ++ v) = true := by
  rw [List.isPrefixOf_iff_prefix] at hp ⊢
  exact hp.trans (List.prefix_append u v)

theorem length_le_of_isPrefixOf (b u : List Char) (hp : b.isPrefixOf u = true) :
    b.length ≤ u.length := by
  rw [List.isPrefixOf_iff_prefix] at hp
  exact hp.length_le

theorem replaceFrom_zero_cons (b a : List Char) (c : Char) (cs : List Char) :
    replaceFrom b a 0 (c :: cs)
      = if b.isPrefixOf (c :: cs) = true then a ++ replaceFrom b a (b.length - 1) cs
        else c :: replaceFrom b a 0 cs :=
  rfl

theorem replaceFrom_succ_cons (b a : List Char) (k : Nat) (c : Char) (cs : List Char) :
    replaceFrom b a (k + 1) (c :: cs) = replaceFrom b a k cs :=
  rfl

theorem replaceFrom_append_slash (b a : List Char) (hb : '/' ∉ b) (hne : b ≠ [])
    (rest : List Char) :
    ∀ (u : List Char) (k : Nat), k ≤ u.length →
      replaceFrom b a k (u ++ '/' :: rest)
        = replaceFrom b a k u ++ '/' :: replaceFrom b a 0 rest := by
  intro u
  induction u with
  | nil =>
    intro k hk
    have hk0 : k = 0 := by simpa using hk
    subst hk0
    have hnot : b.isPrefixOf ('/' :: rest) = false := by
      cases b with
      | nil => exact absurd rfl hne
      | cons x b =>
        have hx : x ≠ '/' := fun h => hb (by rw [h]; exact List.mem_cons_self _ _)
        simp [List.isPrefixOf, hx]
    simp [replaceFrom, hnot]
  | cons c cs ih =>
    intro k hk
    cases k with
    | succ k =>
      rw [List.cons_append, replaceFrom_succ_cons, replaceFrom_succ_cons]
      exact ih k (by simpa using hk)
    | zero =>
      cases hp : b.isPrefixOf (c :: cs) with
      | true =>
        have hlong : b.isPrefixOf (c :: (cs ++ '/' :: rest)) = true :=
          isPrefixOf_append_right b (c :: cs) ('/' :: rest) hp
        have hlen := length_le_of_isPrefixOf b (c :: cs) hp
        rw [List.cons_append, replaceFrom_zero_cons, replaceFrom_zero_cons, if_pos hp,
          if_pos hlong, ih (b.length - 1) (by simp only [List.length_cons] at hlen; omega),
          List.append_assoc]
      | false =>
        have hlong : b.isPrefixOf (c :: (cs ++ '/' :: rest)) = false := by
          cases hq : b.isPrefixOf (c :: (cs ++ '/' :: rest)) with
          | false => rfl
          | true =>
            have := isPrefixOf_of_append_slash b (c :: cs) rest hb hq
            rw [hp] at this
            exact absurd this (by simp)
        rw [List.cons_append, replaceFrom_zero_cons, replaceFrom_zero_cons,
          if_neg (by rw [hlong]; simp), if_neg (by rw [hp]; simp), ih 0 (Nat.zero_le _)]
        rfl

theorem replaceFrom_skip_all (b a : List Char) :
    ∀ (u : List Char) (k : Nat), u.length ≤ k → replaceFrom b a k u = [] := by
  intro u
  induction u with
  | nil => intro k _; cases k <;> rfl
  | cons c cs ih =>
    intro k hk
    cases k with
    | zero => exact absurd hk (by simp)
    | succ k =>
      rw [replaceFrom_succ_cons]
      exact ih k (by simpa using hk)

theorem replaceFrom_self (b : List Char) : replaceFrom b [] 0 b = [] := by
  cases b with
  | nil => rfl
  | cons x b =>
    have hp : (x :: b).isPrefixOf (x :: b) = true := by
      rw [List.isPrefixOf_iff_prefix]
    rw [replaceFrom_zero_cons, if_pos hp, List.nil_append]
    exact replaceFrom_skip_all _ _ b _ (by simp)

theorem replaceFrom_of_head_not_mem (x : Char) (w a : List Char) :
    ∀ (h tail : List Char), x ∉ h →
      replaceFrom (x :: w) a 0 (h ++ tail) = h ++ replaceFrom (x :: w) a 0 tail := by
  intro h
  induction h with
  | nil => intro tail _; rfl
  | cons c cs ih =>
    intro tail hx
    have hc : x ≠ c := fun e => hx (by rw [e]; exact List.mem_cons_self _ _)
    have hcs : x ∉ cs := fun e => hx (List.mem_cons_of_mem _ e)
    have hnot : (x :: w).isPrefixOf (c :: (cs ++ tail)) = false := by
      simp [List.isPrefixOf, hc]
    rw [List.cons_append, replaceFrom_zero_cons, if_neg (by rw [hnot]; simp), ih tail hcs]
    rfl

theorem replaceFrom_of_not_infix (b a : List Char) :
    ∀ x : List Char, ¬ b <:+: x → replaceFrom b a 0 x = x := by
  intro x
  induction x with
  | nil => intro _; rfl
  | cons c cs ih =>
    intro hno
    have hnot : b.isPrefixOf (c :: cs) = false := by
      cases hq : b.isPrefixOf (c :: cs) with
      | false => rfl
      | true =>
        rw [List.isPrefixOf_iff_prefix] at hq
        exact absurd hq.isInfix hno
    have htail : ¬ b <:+: cs := fun h => hno (h.trans (List.suffix_cons c cs).isInfix)
    rw [replaceFrom_zero_cons, if_neg (by rw [hnot]; simp), ih htail]

/-! ## Lemmas on legacy names and rename targets -/

theorem isWordCharacter_dot (E : Environment) : isWordCharacter E '.' = false := rfl

theorem isWordCharacter_slash (E : Environment) : isWordCharacter E '/' = false := rfl

theorem isLowerHexChar_ne_dot (c : Char) (hc : isLowerHexChar c = true) : c ≠ '.' := by
  intro h
  rw [h] at hc
  exact absurd hc (by decide)

theorem isLowerHexChar_ne_slash (c : Char) (hc : isLowerHexChar c = true) : c ≠ '/' := by
  intro h
  rw [h] at hc
  exact absurd hc (by decide)

theorem not_mem_of_hex (hex : List Char) (hall : ∀ c ∈ hex, isLowerHexChar c = true) :
    '.' ∉ hex ∧ '/' ∉ hex :=
  ⟨fun h => isLowerHexChar_ne_dot _ (hall _ h) rfl,
    fun h => isLowerHexChar_ne_slash _ (hall _ h) rfl⟩

/-- The suffixes of a legacy name, taken together: they start with a '.', hold
no '/', and end with a word character. -/
theorem extensions_flatten (E : Environment) (exts : List (List Char)) (hne : exts ≠ [])
    (hexts : ∀ e ∈ exts, IsExtensionSuffix E e) :
    ∃ w, exts.flatten = '.' :: w ∧ '/' ∉ w ∧
      ∃ front c, exts.flatten = front ++ [c] ∧ isWordCharacter E c = true := by
  have hslash : ∀ c ∈ exts.flatten, c ≠ '/' := by
    intro c hc
    rw [List.mem_flatten] at hc
    obtain ⟨e, he, hce⟩ := hc
    obtain ⟨ws, hews, _, hall⟩ := hexts e he
    rw [hews] at hce
    rcases List.mem_cons.1 hce with hdot | hw
    · rw [hdot]
      decide
    · intro hs
      have := hall c hw
      rw [hs, isWordCharacter_slash] at this
      exact absurd this (by simp)
  have hhead : ∃ w, exts.flatten = '.' :: w := by
    cases exts with
    | nil => exact absurd rfl hne
    | cons e rest =>
      obtain ⟨ws, hews, _, _⟩ := hexts e (List.mem_cons_self e rest)
      exact ⟨ws ++ rest.flatten, by rw [List.flatten_cons, hews]; rfl⟩
  obtain ⟨w, hw⟩ := hhead
  refine ⟨w, hw, ?_, ?_⟩
  · intro hmem
    exact hslash '/' (by rw [hw]; exact List.mem_cons_of_mem _ hmem) rfl
  · rcases List.eq_nil_or_concat exts with hnil | ⟨L, e, hL⟩
    · exact absurd hnil hne
    · rw [List.concat_eq_append] at hL
      obtain ⟨ws, hews, hwsne, hall⟩ := hexts e (by rw [hL]; simp)
      rcases List.eq_nil_or_concat ws with hnil | ⟨front, c, hfront⟩
      · exact absurd hnil hwsne
      · rw [List.concat_eq_append] at hfront
        refine ⟨L.flatten ++ '.' :: front, c, ?_, hall c (by rw [hfront]; simp)⟩
        rw [hL, List.flatten_append, List.flatten_cons, List.flatten_nil, List.append_nil, hews,
          hfront]
        simp

/-- The parts of a legacy name: 64 hexadecimal characters, then a '.' and the
rest; the rest holds no '/' and the name does not end with a '.'. -/
theorem legacyName_parts (E : Environment) (name : QString) (h : IsLegacyName E name) :
    ∃ hex w, name.toList = hex ++ '.' :: w ∧ hex.length = SHA256_HASH_HEX_LENGTH
      ∧ (∀ c ∈ hex, isLowerHexChar c = true) ∧ '/' ∉ w
      ∧ name.toList.getLast? ≠ some '.' := by
  obtain ⟨hex, exts, hname, hlen, hall, hne, hexts⟩ := h
  obtain ⟨w, hw, hslash, front, c, hfront, hc⟩ := extensions_flatten E exts hne hexts
  refine ⟨hex, w, by rw [hname, hw], hlen, hall, hslash, ?_⟩
  rw [hname, hfront, ← List.append_assoc, List.getLast?_concat]
  intro hdot
  have hcdot : c = '.' := Option.some.inj hdot
  rw [hcdot, isWordCharacter_dot] at hc
  exact absurd hc (by simp)

theorem indexOf_of_parts (name : QString) (hex w : List Char)
    (hname : name.toList = hex ++ '.' :: w) (hdot : '.' ∉ hex) :
    name.indexOf '.' = (hex.length : Int) := by
  have hmem : '.' ∈ name.toList := by rw [hname]; simp
  simp only [QString.indexOf, hmem, if_true]
  rw [hname, List.indexOf_append_of_not_mem hdot, List.indexOf_cons_self]
  simp

theorem mid_of_parts (name : QString) (hex w : List Char)
    (hname : name.toList = hex ++ '.' :: w) (hdot : '.' ∉ hex) :
    (name.mid (name.indexOf '.')).toList = '.' :: w := by
  rw [indexOf_of_parts name hex w hname hdot]
  have hnonneg : ¬ ((hex.length : Int) < 0) := by omega
  simp only [QString.mid, hnonneg, if_false, Int.toNat_ofNat]
  show List.drop hex.length name.toList = '.' :: w
  rw [hname, List.drop_left]

theorem joinPath_toList (dir : QString) :
    ∃ x0 : List Char, x0 <+: dir.toList ∧
      ∀ name : QString, (joinPath dir name).toList = x0 ++ '/' :: name.toList := by
  by_cases hlast : dir.toList.getLast? = some '/'
  · refine ⟨dir.toList.dropLast, List.dropLast_prefix _, ?_⟩
    intro name
    have hsplit : dir.toList.dropLast ++ ['/'] = dir.toList :=
      List.dropLast_append_getLast? '/' (by rw [hlast]; rfl)
    simp only [joinPath, hlast, if_true]
    show (dir ++ name).data = _
    rw [String.data_append]
    show dir.toList ++ name.toList = _
    rw [← hsplit]
    simp
  · refine ⟨dir.toList, List.prefix_refl _, ?_⟩
    intro name
    simp only [joinPath, hlast, if_false]
    show (dir ++ "/" ++ name).data = _
    rw [String.data_append, String.data_append]
    simp [String.toList]

theorem replace_toList (s before : QString) (hne : before.toList ≠ []) :
    (s.replace before "").toList = replaceFrom before.toList [] 0 s.toList := by
  simp only [QString.replace, hne, if_false]
  rfl

/-- The path passed to `rename` for a file with a legacy name: the directory
part of the path with the occurrences of the extension taken out, twice over,
and then the 64 hexadecimal characters of the name. -/
theorem migrationTarget_toList (d : QDir) (name : QString) (hex w : List Char)
    (hname : name.toList = hex ++ '.' :: w)
    (hhex : '.' ∉ hex ∧ '/' ∉ hex) (hw : '/' ∉ w) :
    ∃ x0 : List Char, x0 <+: d.path.toList
      ∧ (∀ n : QString, (d.absoluteFilePath n).toList = x0 ++ '/' :: n.toList)
      ∧ (migrationTarget d name).toList
          = replaceFrom ('.' :: w) [] 0 (replaceFrom ('.' :: w) [] 0 x0) ++ '/' :: hex := by
  obtain ⟨x0, hx0, hjoin⟩ := joinPath_toList d.path
  refine ⟨x0, hx0, fun n => hjoin n, ?_⟩
  have hb : '/' ∉ ('.' :: w) := by
    intro hmem
    rcases List.mem_cons.1 hmem with h | h
    · exact absurd h (by decide)
    · exact hw h
  have hext := mid_of_parts name hex w hname hhex.1
  have hextne : (name.mid (name.indexOf '.')).toList ≠ [] := by rw [hext]; simp
  have hnil : replaceFrom ('.' :: w) [] 0 [] = [] := rfl
  have hfirst : replaceFrom ('.' :: w) [] 0 (hex ++ '.' :: w) = hex := by
    rw [replaceFrom_of_head_not_mem '.' w [] hex ('.' :: w) hhex.1, replaceFrom_self,
      List.append_nil]
  have hsecond : replaceFrom ('.' :: w) [] 0 hex = hex := by
    have := replaceFrom_of_head_not_mem '.' w [] hex [] hhex.1
    rw [List.append_nil, hnil, List.append_nil] at this
    exact this
  simp only [migrationTarget]
  rw [replace_toList _ _ hextne, replace_toList _ _ hextne, hext]
  show replaceFrom ('.' :: w) [] 0 (replaceFrom ('.' :: w) [] 0 (joinPath d.path name).toList) = _
  rw [hjoin name, hname,
    replaceFrom_append_slash ('.' :: w) [] hb (by simp) _ x0 0 (Nat.zero_le _), hfirst,
    replaceFrom_append_slash ('.' :: w) [] hb (by simp) _ _ 0 (Nat.zero_le _), hsecond]

/-- When the extension does not occur in the path of the directory, the path
passed to `rename` is that of the entry named by the 64 hexadecimal characters. -/
theorem migrationTarget_in_place (d : QDir) (name : QString) (hex w : List Char)
    (hname : name.toList = hex ++ '.' :: w)
    (hhex : '.' ∉ hex ∧ '/' ∉ hex) (hw : '/' ∉ w)
    (hpath : ¬ ('.' :: w) <:+: d.path.toList) :
    migrationTarget d name = d.absoluteFilePath (String.mk hex) := by
  obtain ⟨x0, hx0, hjoin, htarget⟩ := migrationTarget_toList d name hex w hname hhex hw
  have hno : ¬ ('.' :: w) <:+: x0 := fun h => hpath (h.trans hx0.isInfix)
  apply String.ext
  show (migrationTarget d name).toList = (d.absoluteFilePath (String.mk hex)).toList
  rw [htarget, hjoin, replaceFrom_of_not_infix _ _ x0 hno, replaceFrom_of_not_infix _ _ x0 hno]
  rfl

theorem last_component_unique (a b n h : List Char) (hn : '/' ∉ n) (hh : '/' ∉ h)
    (heq : a ++ '/' :: n = b ++ '/' :: h) : n = h := by
  induction a generalizing b with
  | nil =>
    cases b with
    | nil => exact (List.cons.inj heq).2
    | cons c b =>
      have := (List.cons.inj heq).2
      exact absurd (by rw [this]; simp) hn
  | cons c a ih =>
    cases b with
    | nil =>
      have := (List.cons.inj heq).2
      exact absurd (by rw [← this]; simp) hh
    | cons e b => exact ih b (List.cons.inj heq).2

theorem relativeName_some (d : QDir) (path n : QString) (hrel : d.relativeName path = some n) :
    path = d.absoluteFilePath n ∧ '/' ∉ n.toList ∧ n.toList ≠ [] := by
  obtain ⟨x0, _, hjoin⟩ := joinPath_toList d.path
  simp only [QDir.relativeName] at hrel
  split at hrel
  · rename_i hcond
    obtain ⟨hpre, hne, hslash⟩ := hcond
    have hn : n.toList = path.toList.drop (joinPath d.path "").toList.length := by
      rw [← Option.some.inj hrel]
      rfl
    rw [List.isPrefixOf_iff_prefix] at hpre
    obtain ⟨t, ht⟩ := hpre
    have hdrop : path.toList.drop (joinPath d.path "").toList.length = t := by
      rw [← ht, List.drop_left]
    refine ⟨?_, by rw [hn]; exact hslash, by rw [hn]; exact hne⟩
    apply String.ext
    show path.toList = (joinPath d.path n).toList
    rw [hjoin n, hn, hdrop, ← ht, hjoin ""]
    simp
  · exact absurd hrel (by simp)

theorem relativeName_absoluteFilePath (d : QDir) (n : QString) (hslash : '/' ∉ n.toList)
    (hne : n.toList ≠ []) : d.relativeName (d.absoluteFilePath n) = some n := by
  obtain ⟨x0, _, hjoin⟩ := joinPath_toList d.path
  have hlist : (d.absoluteFilePath n).toList = (joinPath d.path "").toList ++ n.toList := by
    show (joinPath d.path n).toList = _
    rw [hjoin n, hjoin ""]
    simp
  have hdrop : (d.absoluteFilePath n).toList.drop (joinPath d.path "").toList.length
      = n.toList := by
    rw [hlist, List.drop_left]
  have hpre : (joinPath d.path "").toList.isPrefixOf (d.absoluteFilePath n).toList = true := by
    rw [List.isPrefixOf_iff_prefix, hlist]
    exact List.prefix_append _ _
  simp only [QDir.relativeName, hdrop, hpre, hne, hslash, ne_eq, not_false_eq_true, and_self,
    if_true]
  rfl

/-- A rename of a file with a legacy name that stays in the directory gives the
file the 64 hexadecimal characters of its name as its new name. -/
theorem relativeName_migrationTarget (d : QDir) (name n : QString) (hex w : List Char)
    (hname : name.toList = hex ++ '.' :: w)
    (hhex : '.' ∉ hex ∧ '/' ∉ hex) (hw : '/' ∉ w)
    (hrel : d.relativeName (migrationTarget d name) = some n) : n.toList = hex := by
  obtain ⟨x0, _, hjoin, htarget⟩ := migrationTarget_toList d name hex w hname hhex hw
  obtain ⟨hpath, hslash, _⟩ := relativeName_some d _ n hrel
  have hlist : (migrationTarget d name).toList = x0 ++ '/' :: n.toList := by
    rw [hpath, hjoin n]
  rw [htarget] at hlist
  exact (last_component_unique _ _ hex n.toList hhex.2 hslash hlist).symm

/-! ## Lemmas on `QFile::rename` and on the migration loop -/

theorem rename_path (E : Environment) (d : QDir) (old new : QString) :
    (d.rename E old new).2.path = d.path := by
  unfold QDir.rename
  split
  · rfl
  · split
    · split
      · rfl
      · split <;> rfl
    · split <;> rfl

theorem rename_false (E : Environment) (d : QDir) (old new : QString)
    (h : (d.rename E old new).1 = false) : (d.rename E old new).2 = d := by
  cases h1 : d.fileInfo old with
  | none => simp [QDir.rename, h1]
  | some v =>
    cases h2 : d.relativeName new with
    | some n =>
      cases h3 : (d.fileInfo n).isSome with
      | true => simp [QDir.rename, h1, h2, h3]
      | false =>
        cases h4 : E.renameAllowed (d.absoluteFilePath old) new with
        | true => simp [QDir.rename, h1, h2, h3, h4] at h
        | false => simp [QDir.rename, h1, h2, h3, h4]
    | none =>
      cases h4 : E.renameAllowed (d.absoluteFilePath old) new with
      | true => simp [QDir.rename, h1, h2, h4] at h
      | false => simp [QDir.rename, h1, h2, h4]

theorem rename_keep (E : Environment) (d : QDir) (old new : QString) (f : QFileInfo)
    (hf : f ∈ d.files) (hne : f.fileName ≠ old) : f ∈ (d.rename E old new).2.files := by
  unfold QDir.rename
  split
  · exact hf
  · split
    · split
      · exact hf
      · split
        · simp only [List.mem_map]
          exact ⟨f, hf, by simp [hne]⟩
        · exact hf
    · split
      · simp only [List.mem_filter]
        exact ⟨hf, by simp [hne]⟩
      · exact hf

/-- An entry of the directory after a rename was there before, or it is the
renamed file under its new name, which no entry had before. -/
theorem rename_entries (E : Environment) (d : QDir) (old new : QString) (e : QFileInfo)
    (he : e ∈ (d.rename E old new).2.files) :
    e ∈ d.files ∨ ∃ n x, d.relativeName new = some n ∧ d.fileInfo n = none ∧ x ∈ d.files
      ∧ x.fileName = old ∧ e = { x with fileName := n } := by
  unfold QDir.rename at he
  split at he
  · exact Or.inl he
  · split at he
    · rename_i n hrel
      split at he
      · exact Or.inl he
      · rename_i hfree
        split at he
        · simp only [List.mem_map] at he
          obtain ⟨x, hx, hxe⟩ := he
          by_cases hname : x.fileName = old
          · right
            refine ⟨n, x, hrel, ?_, hx, hname, ?_⟩
            · cases hfi : d.fileInfo n with
              | none => rfl
              | some y => rw [hfi] at hfree; exact absurd rfl hfree
            · rw [← hxe]
              simp [hname]
          · left
            have : e = x := by rw [← hxe]; simp [hname]
            rw [this]
            exact hx
        · exact Or.inl he
    · split at he
      · exact Or.inl (List.mem_filter.1 he).1
      · exact Or.inl he

theorem map_rename_contents (old n : QString) (files : List QFileInfo) :
    List.map QFileInfo.contents (List.map (fun f : QFileInfo =>
      if (f.fileName == old) = true then { f with fileName := n } else f) files)
      = List.map QFileInfo.contents files := by
  rw [List.map_map]
  apply List.map_congr_left
  intro f _
  simp only [Function.comp]
  split <;> rfl

theorem rename_contents (E : Environment) (d : QDir) (old new : QString) :
    ((d.rename E old new).2.files.map QFileInfo.contents).Sublist
      (d.files.map QFileInfo.contents) := by
  unfold QDir.rename
  split
  · exact List.Sublist.refl _
  · split
    · split
      · exact List.Sublist.refl _
      · split
        · simp only [map_rename_contents]
          exact List.Sublist.refl _
        · exact List.Sublist.refl _
    · split
      · exact (List.filter_sublist _).map _
      · exact List.Sublist.refl _

theorem migrationTarget_congr (d e : QDir) (name : QString) (h : d.path = e.path) :
    migrationTarget d name = migrationTarget e name := by
  simp only [migrationTarget, QDir.absoluteFilePath, h]

theorem migrateFile_of_match (E : Environment) (d : QDir) (log : List RenameAttempt)
    (f : QFileInfo) (hm : (migrationHashFileRegex E).exactMatch f.fileName = true) :
    migrateFile E (d, log) f
      = ((d.rename E f.fileName (migrationTarget d f.fileName)).2,
          log ++ [{ fileName := f.fileName, target := migrationTarget d f.fileName,
                    renamed := (d.rename E f.fileName (migrationTarget d f.fileName)).1 }]) := by
  simp only [migrateFile, hm, if_true]

theorem migrateFile_of_not_match (E : Environment) (d : QDir) (log : List RenameAttempt)
    (f : QFileInfo) (hm : (migrationHashFileRegex E).exactMatch f.fileName = false) :
    migrateFile E (d, log) f = (d, log) := by
  simp [migrateFile, hm]

/-- The migration loop from a directory and a log: its step on the next entry. -/
theorem foldl_migrate_cons (E : Environment) (d : QDir) (log : List RenameAttempt)
    (f : QFileInfo) (fs : List QFileInfo) :
    List.foldl (migrateFile E) (d, log) (f :: fs)
      = if (migrationHashFileRegex E).exactMatch f.fileName = true then
          List.foldl (migrateFile E)
            ((d.rename E f.fileName (migrationTarget d f.fileName)).2,
              log ++ [⟨f.fileName, migrationTarget d f.fileName,
                (d.rename E f.fileName (migrationTarget d f.fileName)).1⟩]) fs
        else List.foldl (migrateFile E) (d, log) fs := by
  rw [List.foldl_cons]
  cases hm : (migrationHashFileRegex E).exactMatch f.fileName with
  | true => rw [migrateFile_of_match E d log f hm]; simp
  | false => rw [migrateFile_of_not_match E d log f hm]; simp

theorem foldl_migrate_path (E : Environment) (fs : List QFileInfo) :
    ∀ (d : QDir) (log : List RenameAttempt),
      (List.foldl (migrateFile E) (d, log) fs).1.path = d.path := by
  induction fs with
  | nil => intro d log; rfl
  | cons f fs ih =>
    intro d log
    rw [foldl_migrate_cons]
    split
    · rw [ih, rename_path]
    · exact ih d log

/-- The log of the migration loop: what was there, then one call of `rename`
for each entry with a matching name, in the order of the listing, each with the
target computed from the name and the path of the directory and with the value
that `rename` returned. -/
theorem foldl_migrate_log (E : Environment) (fs : List QFileInfo) :
    ∀ (d : QDir) (log : List RenameAttempt),
      ∃ new : List RenameAttempt,
        (List.foldl (migrateFile E) (d, log) fs).2 = log ++ new
        ∧ new.map RenameAttempt.fileName
            = (fs.filter (fun f => (migrationHashFileRegex E).exactMatch f.fileName)).map
                QFileInfo.fileName
        ∧ ∀ a ∈ new, a.target = migrationTarget d a.fileName := by
  induction fs with
  | nil =>
    intro d log
    exact ⟨[], by simp, rfl, by simp⟩
  | cons f fs ih =>
    intro d log
    rw [foldl_migrate_cons]
    cases hm : (migrationHashFileRegex E).exactMatch f.fileName with
    | true =>
      simp only [if_true]
      obtain ⟨new, hnew, hnames, htargets⟩ :=
        ih (d.rename E f.fileName (migrationTarget d f.fileName)).2
          (log ++ [⟨f.fileName, migrationTarget d f.fileName,
                (d.rename E f.fileName (migrationTarget d f.fileName)).1⟩])
      refine ⟨⟨f.fileName, migrationTarget d f.fileName,
                (d.rename E f.fileName (migrationTarget d f.fileName)).1⟩ :: new, ?_, ?_, ?_⟩
      · rw [hnew, List.append_assoc]
        rfl
      · simp [List.filter_cons, hm, hnames]
      · intro a ha
        rcases List.mem_cons.1 ha with ha | ha
        · rw [ha]
        · rw [htargets a ha]
          exact migrationTarget_congr _ _ _ (rename_path E d _ _)
    | false =>
      simp only [Bool.false_eq_true, if_false]
      obtain ⟨new, hnew, hnames, htargets⟩ := ih d log
      exact ⟨new, hnew, by simp [List.filter_cons, hm, hnames], htargets⟩

/-- The directory after the migration loop does not depend on the log. -/
theorem foldl_migrate_dir (E : Environment) (fs : List QFileInfo) :
    ∀ (d : QDir) (log log2 : List RenameAttempt),
      (List.foldl (migrateFile E) (d, log) fs).1
        = (List.foldl (migrateFile E) (d, log2) fs).1 := by
  induction fs with
  | nil => intro d log log2; rfl
  | cons f fs ih =>
    intro d log log2
    rw [foldl_migrate_cons, foldl_migrate_cons]
    split
    · exact ih _ _ _
    · exact ih _ _ _

/-- An entry stays in the directory through the migration loop when no entry
of the listing with a matching name has its name. -/
theorem foldl_migrate_keep (E : Environment) (f : QFileInfo) (fs : List QFileInfo) :
    ∀ (d : QDir) (log : List RenameAttempt), f ∈ d.files →
      (∀ g ∈ fs, (migrationHashFileRegex E).exactMatch g.fileName = true →
        g.fileName ≠ f.fileName) →
      f ∈ (List.foldl (migrateFile E) (d, log) fs).1.files := by
  induction fs with
  | nil => intro d log hf _; exact hf
  | cons g fs ih =>
    intro d log hf hne
    rw [foldl_migrate_cons]
    have hrest : ∀ g2 ∈ fs, (migrationHashFileRegex E).exactMatch g2.fileName = true →
        g2.fileName ≠ f.fileName := fun g2 hg2 => hne g2 (List.mem_cons_of_mem _ hg2)
    split
    · rename_i hm
      exact ih _ _ (rename_keep E d _ _ f hf
        (fun h => hne g (List.mem_cons_self g fs) hm h.symm)) hrest
    · exact ih d log hf hrest

theorem foldl_migrate_contents (E : Environment) (fs : List QFileInfo) :
    ∀ (d : QDir) (log : List RenameAttempt),
      ((List.foldl (migrateFile E) (d, log) fs).1.files.map QFileInfo.contents).Sublist
        (d.files.map QFileInfo.contents) := by
  induction fs with
  | nil => intro d log; exact List.Sublist.refl _
  | cons g fs ih =>
    intro d log
    rw [foldl_migrate_cons]
    split
    · exact (ih _ _).trans (rename_contents E d _ _)
    · exact ih d log

/-! ## Upload and the result codes -/

/-- C11: an Upload request from a sender without permission starts no store
task, leaves the storage root and the mapping table as they were, and sends
exactly one reply, which holds the message ID of the request, then
PermissionDenied, and nothing else. -/
theorem upload_denied (U : AssetUtils) (s : AssetServer) (m : ReceivedMessage) (n : Node)
    (hdenied : n.canRez = false) :
    (handleAssetUpload U s m n).1.sentPackets
        = s.sentPackets ++ [(uploadReply U [Field.messageID (m.messageID U),
            Field.error AssetServerError.PermissionDenied], n)]
    ∧ (handleAssetUpload U s m n).1._taskPool = s._taskPool
    ∧ (handleAssetUpload U s m n).1._resourcesDirectory = s._resourcesDirectory
    ∧ (handleAssetUpload U s m n).1._fileMapping = s._fileMapping := by
  simp [handleAssetUpload, hdenied, sendPacket, NLPacket.create, NLPacket.write,
    ReceivedMessage.messageID, uploadReply]

theorem upload_denied_witness :
    bob.canRez = false
    ∧ ((handleAssetUpload sampleUtils sampleServer sampleUpload bob).1.sentPackets
          = sampleServer.sentPackets
              ++ [(uploadReply sampleUtils [Field.messageID (sampleUpload.messageID sampleUtils),
                Field.error AssetServerError.PermissionDenied], bob)]
      ∧ (handleAssetUpload sampleUtils sampleServer sampleUpload bob).1._taskPool
          = sampleServer._taskPool
      ∧ (handleAssetUpload sampleUtils sampleServer sampleUpload bob).1._resourcesDirectory
          = sampleServer._resourcesDirectory
      ∧ (handleAssetUpload sampleUtils sampleServer sampleUpload bob).1._fileMapping
          = sampleServer._fileMapping) :=
  ⟨by decide, upload_denied sampleUtils sampleServer sampleUpload bob (by decide)⟩

/-- C12: an Upload request from a sender with permission starts exactly one
store task, for that request and sender, sends no packet and leaves the mapping
table as it was; for any sender, a store task is started if and only if the
sender is permitted. -/
theorem upload_permitted (U : AssetUtils) (s : AssetServer) (m : ReceivedMessage)
    (n other : Node) (hpermitted : n.canRez = true) :
    handleAssetUpload U s m n
        = ({ s with _taskPool := s._taskPool
              ++ [Task.UploadAssetTask m n s._resourcesDirectory] }, m)
    ∧ (handleAssetUpload U s m n).1.sentPackets = s.sentPackets
    ∧ (handleAssetUpload U s m n).1._fileMapping = s._fileMapping
    ∧ ((handleAssetUpload U s m other).1._taskPool
          = s._taskPool ++ [Task.UploadAssetTask m other s._resourcesDirectory]
        ↔ other.canRez = true)
    ∧ ((handleAssetUpload U s m other).1._taskPool = s._taskPool ↔ other.canRez = false) := by
  refine ⟨?_, ?_, ?_, ?_, ?_⟩
  · simp [handleAssetUpload, hpermitted, startTask]
  · simp [handleAssetUpload, hpermitted, startTask]
  · simp [handleAssetUpload, hpermitted, startTask]
  · cases hc : other.canRez with
    | true => simp [handleAssetUpload, hc, startTask]
    | false => simp [handleAssetUpload, hc, sendPacket]
  · cases hc : other.canRez with
    | true => simp [handleAssetUpload, hc, startTask]
    | false => simp [handleAssetUpload, hc, sendPacket]

theorem upload_permitted_witness :
    alice.canRez = true
    ∧ (handleAssetUpload sampleUtils sampleServer sampleUpload alice
          = ({ sampleServer with _taskPool := sampleServer._taskPool
                ++ [Task.UploadAssetTask sampleUpload alice
                      sampleServer._resourcesDirectory] }, sampleUpload)
      ∧ (handleAssetUpload sampleUtils sampleServer sampleUpload alice).1.sentPackets
          = sampleServer.sentPackets
      ∧ (handleAssetUpload sampleUtils sampleServer sampleUpload alice).1._fileMapping
          = sampleServer._fileMapping
      ∧ ((handleAssetUpload sampleUtils sampleServer sampleUpload bob).1._taskPool
            = sampleServer._taskPool
                ++ [Task.UploadAssetTask sampleUpload bob sampleServer._resourcesDirectory]
          ↔ bob.canRez = true)
      ∧ ((handleAssetUpload sampleUtils sampleServer sampleUpload bob).1._taskPool
            = sampleServer._taskPool ↔ bob.canRez = false)) :=
  ⟨by decide, upload_permitted sampleUtils sampleServer sampleUpload alice bob (by decide)⟩

/-- C13: every result code that a handler writes into a reply is NoError,
AssetNotFound or PermissionDenied.  The MappingOperation handler writes NoError,
or AssetNotFound for an operation of kind Get; the GetInfo handler writes
NoError or AssetNotFound; the Get handler sends no reply itself; the Upload
handler writes PermissionDenied only. -/
theorem result_codes (U : AssetUtils) (s : AssetServer) (m : ReceivedMessage) (n : Node) :
    (∀ r ∈ s.newPackets (handleAssetMappingOperation U s m n).1,
        ∀ e, Field.error e ∈ r.1.payload →
          e = AssetServerError.NoError
          ∨ (e = AssetServerError.AssetNotFound
              ∧ m.operationType U = some AssetMappingOperationType.Get))
    ∧ (∀ r ∈ s.newPackets (handleAssetGetInfo U s m n).1,
        ∀ e, Field.error e ∈ r.1.payload →
          e = AssetServerError.NoError ∨ e = AssetServerError.AssetNotFound)
    ∧ s.newPackets (handleAssetGet U s m n).1 = []
    ∧ (∀ r ∈ s.newPackets (handleAssetUpload U s m n).1,
        ∀ e, Field.error e ∈ r.1.payload → e = AssetServerError.PermissionDenied)
    ∧ ∀ e : AssetServerError, e = AssetServerError.NoError
        ∨ e = AssetServerError.AssetNotFound ∨ e = AssetServerError.PermissionDenied := by
  refine ⟨?_, ?_, ?_, ?_, ?_⟩
  · cases hk : m.operationType U with
    | none =>
      have hop : U.toOperationType
          ((m.readPrimitive U.sizeofMessageID).2.readPrimitive
            U.sizeofAssetMappingOperationType).1 = none := hk
      simp [handleAssetMappingOperation, hop, newPackets, sendPacket, NLPacket.create,
        NLPacket.write]
    | some k =>
      cases k with
      | Get =>
        cases hf : s._fileMapping.find (m.assetPath U) with
        | none =>
          rw [handle_get_missing U s m n _ ⟨hk, rfl⟩ hf]
          simp [newPackets, sendPacket, mappingReply]
        | some h =>
          rw [handle_get_found U s m n _ h ⟨hk, rfl⟩ hf]
          simp [newPackets, sendPacket, mappingReply]
      | Set =>
        rw [handle_set U s m n _ _ ⟨hk, rfl, rfl⟩]
        simp [newPackets, sendPacket, setMapping, mappingReply]
      | Delete =>
        rw [handle_delete U s m n _ ⟨hk, rfl⟩]
        simp [newPackets, sendPacket, deleteMapping, mappingReply]
  · unfold handleAssetGetInfo
    split
    · simp [newPackets]
    · simp only [AssetServer.fileInfo]
      split
      · split
        · simp [newPackets, sendPacket, NLPacket.write, NLPacket.create]
        · simp [newPackets, sendPacket, NLPacket.write, NLPacket.create]
      · simp [newPackets, sendPacket, NLPacket.write, NLPacket.create]
  · unfold handleAssetGet
    simp only []
    split
    · simp [newPackets]
    · simp [newPackets, startTask]
  · unfold handleAssetUpload
    split
    · simp [newPackets, startTask]
    · simp [newPackets, sendPacket, NLPacket.write, NLPacket.create]
  · intro e
    cases e <;> simp

theorem take_of_parts (name : QString) (hex w : List Char)
    (hname : name.toList = hex ++ '.' :: w) (hlen : hex.length = SHA256_HASH_HEX_LENGTH) :
    name.toList.take SHA256_HASH_HEX_LENGTH = hex := by
  rw [hname, ← hlen, List.take_left]

/-- An entry that has the name `X` after the migration loop was in the directory
before, when `X` is not the hexadecimal part of a matching name of the listing. -/
theorem foldl_migrate_named (E : Environment) (X : QString) (fs : List QFileInfo) :
    ∀ (d : QDir) (log : List RenameAttempt),
      (∀ g ∈ fs, (migrationHashFileRegex E).exactMatch g.fileName = true →
        g.fileName.toList.take SHA256_HASH_HEX_LENGTH ≠ X.toList) →
      ∀ e ∈ (List.foldl (migrateFile E) (d, log) fs).1.files, e.fileName = X → e ∈ d.files := by
  induction fs with
  | nil => intro d log _ e he _; exact he
  | cons g fs ih =>
    intro d log hne e he hX
    have hrest : ∀ g2 ∈ fs, (migrationHashFileRegex E).exactMatch g2.fileName = true →
        g2.fileName.toList.take SHA256_HASH_HEX_LENGTH ≠ X.toList :=
      fun g2 hg2 => hne g2 (List.mem_cons_of_mem _ hg2)
    rw [foldl_migrate_cons] at he
    split at he
    · rename_i hm
      have hprev := ih _ _ hrest e he hX
      rcases rename_entries E d _ _ e hprev with hold | ⟨n, x, hrel, _, _, _, hentry⟩
      · exact hold
      · obtain ⟨hex, w, hname, hlen, hall, hw, _⟩ :=
          legacyName_parts E g.fileName ((exactMatch_iff_legacyName E g.fileName).1 hm)
        have hn := relativeName_migrationTarget d g.fileName n hex w hname
          (not_mem_of_hex hex hall) hw hrel
        have hnX : n = X := by rw [← hX, hentry]
        exact absurd (by rw [take_of_parts g.fileName hex w hname hlen, ← hn, hnX])
          (hne g (List.mem_cons_self g fs) hm)
    · exact ih d log hrest e he hX

/-- A file whose rename failed is still in the directory after the migration
loop, when the names of the listing are distinct. -/
theorem foldl_migrate_failed (E : Environment) (fs : List QFileInfo) :
    ∀ (d : QDir) (log : List RenameAttempt) (new : List RenameAttempt),
      (fs.map QFileInfo.fileName).Nodup →
      (List.foldl (migrateFile E) (d, log) fs).2 = log ++ new →
      ∀ a ∈ new, a.renamed = false → ∀ f ∈ fs, f.fileName = a.fileName → f ∈ d.files →
        f ∈ (List.foldl (migrateFile E) (d, log) fs).1.files := by
  induction fs with
  | nil =>
    intro d log new _ _ a _ _ f hf
    exact absurd hf (List.not_mem_nil f)
  | cons g fs ih =>
    intro d log new hnodup hlog a ha hfalse f hf hfa hfd
    rw [List.map_cons, List.nodup_cons] at hnodup
    obtain ⟨hg, hnodup2⟩ := hnodup
    have hnames : ∀ g2 ∈ fs, g2.fileName ≠ g.fileName :=
      fun g2 hg2 h => hg (by rw [← h]; exact List.mem_map_of_mem _ hg2)
    rw [foldl_migrate_cons] at hlog ⊢
    cases hm : (migrationHashFileRegex E).exactMatch g.fileName with
    | true =>
      simp only [hm, if_true] at hlog ⊢
      obtain ⟨rest, hrest, hrestnames, _⟩ := foldl_migrate_log E fs
        (d.rename E g.fileName (migrationTarget d g.fileName)).2
        (log ++ [⟨g.fileName, migrationTarget d g.fileName,
          (d.rename E g.fileName (migrationTarget d g.fileName)).1⟩])
      have hnew : new = ⟨g.fileName, migrationTarget d g.fileName,
          (d.rename E g.fileName (migrationTarget d g.fileName)).1⟩ :: rest := by
        rw [hrest, List.append_assoc] at hlog
        exact (List.append_cancel_left hlog).symm
      rw [hnew] at ha
      rcases List.mem_cons.1 ha with ha | ha
      · rw [ha] at hfalse hfa
        have hfg : f = g := by
          rcases List.mem_cons.1 hf with h | h
          · exact h
          · exact absurd hfa (hnames f h)
        have hd := rename_false E d _ _ hfalse
        rw [hd]
        exact foldl_migrate_keep E f fs d _ hfd
          (fun g2 hg2 _ => by rw [hfg]; exact hnames g2 hg2)
      · have hain : a.fileName ∈ fs.map QFileInfo.fileName := by
          have : a.fileName ∈ rest.map RenameAttempt.fileName := List.mem_map_of_mem _ ha
          rw [hrestnames] at this
          obtain ⟨g2, hg2, hname⟩ := List.mem_map.1 this
          rw [← hname]
          exact List.mem_map_of_mem _ (List.mem_filter.1 hg2).1
        have hfne : f.fileName ≠ g.fileName := by
          intro h
          rw [← h, hfa] at hg
          exact hg hain
        have hffs : f ∈ fs := by
          rcases List.mem_cons.1 hf with h | h
          · rw [h] at hfne
            exact absurd rfl hfne
          · exact h
        exact ih _ _ rest hnodup2 hrest a ha hfalse f hffs hfa (rename_keep E d _ _ f hfd hfne)
    | false =>
      simp only [hm, Bool.false_eq_true, if_false] at hlog ⊢
      obtain ⟨rest, hrest, hrestnames, _⟩ := foldl_migrate_log E fs d log
      have hnew : new = rest := by
        rw [hrest] at hlog
        exact (List.append_cancel_left hlog).symm
      rw [hnew] at ha
      have hain : a.fileName ∈ fs.map QFileInfo.fileName := by
        have : a.fileName ∈ rest.map RenameAttempt.fileName := List.mem_map_of_mem _ ha
        rw [hrestnames] at this
        obtain ⟨g2, hg2, hname⟩ := List.mem_map.1 this
        rw [← hname]
        exact List.mem_map_of_mem _ (List.mem_filter.1 hg2).1
      have hffs : f ∈ fs := by
        rcases List.mem_cons.1 hf with h | h
        · rw [h] at hfa
          rw [hfa] at hg
          exact absurd hain hg
        · exact h
      exact ih d log rest hnodup2 hrest a ha hfalse f hffs hfa hfd

theorem performMappingMigration_log (E : Environment) (s : AssetServer) :
    (s.performMappingMigration E).2.map RenameAttempt.fileName
        = (s._resourcesDirectory.files.filter
            (fun f => (migrationHashFileRegex E).exactMatch f.fileName)).map QFileInfo.fileName
    ∧ ∀ a ∈ (s.performMappingMigration E).2,
        a.target = migrationTarget s._resourcesDirectory a.fileName := by
  obtain ⟨new, hnew, hnames, htargets⟩ :=
    foldl_migrate_log E s._resourcesDirectory.files s._resourcesDirectory []
  simp only [performMappingMigration]
  rw [hnew, List.nil_append]
  exact ⟨hnames, htargets⟩

/-! ## The migration of pre-mapping files -/

/-- C14: `performMappingMigration` calls `rename` for a file of the storage root
if and only if the whole name of the file is exactly 64 lowercase hexadecimal
characters followed by one or more suffixes, each a '.' followed by at least one
word character.  Such a name has its first '.' at index 64 and does not end
with a '.'; so a name without a '.', a name with fewer or more than 64
hexadecimal characters before the first '.', and a name that ends with a '.' are
never renamed. -/
theorem migration_renames_legacy_names (E : Environment) (s : AssetServer) :
    (∀ f ∈ s._resourcesDirectory.files,
        (∃ a ∈ (s.performMappingMigration E).2, a.fileName = f.fileName)
          ↔ IsLegacyName E f.fileName)
    ∧ (∀ name : QString, (migrationHashFileRegex E).exactMatch name = true
        ↔ IsLegacyName E name)
    ∧ (∀ name : QString, IsLegacyName E name →
        name.indexOf '.' = (SHA256_HASH_HEX_LENGTH : Int) ∧ name.toList.getLast? ≠ some '.')
    ∧ (∀ name : QString, '.' ∉ name.toList → ¬ IsLegacyName E name)
    ∧ (∀ hex rest : List Char, (∀ c ∈ hex, isLowerHexChar c = true) →
        hex.length ≠ SHA256_HASH_HEX_LENGTH → ¬ IsLegacyName E (String.mk (hex ++ '.' :: rest)))
    ∧ (∀ name : QString, name.toList.getLast? = some '.' → ¬ IsLegacyName E name) := by
  have hindex : ∀ name : QString, IsLegacyName E name →
      name.indexOf '.' = (SHA256_HASH_HEX_LENGTH : Int)
        ∧ name.toList.getLast? ≠ some '.' := by
    intro name hlegacy
    obtain ⟨hex, w, hname, hlen, hall, _, hlast⟩ := legacyName_parts E name hlegacy
    refine ⟨?_, hlast⟩
    rw [indexOf_of_parts name hex w hname (not_mem_of_hex hex hall).1, hlen]
  refine ⟨?_, exactMatch_iff_legacyName E, hindex, ?_, ?_, ?_⟩
  · intro f hf
    rw [← exactMatch_iff_legacyName]
    constructor
    · rintro ⟨a, ha, hname⟩
      have hmem : a.fileName ∈ (s.performMappingMigration E).2.map RenameAttempt.fileName :=
        List.mem_map_of_mem _ ha
      rw [(performMappingMigration_log E s).1] at hmem
      obtain ⟨g, hg, hgname⟩ := List.mem_map.1 hmem
      rw [← hname, ← hgname]
      exact (List.mem_filter.1 hg).2
    · intro hmatch
      have hmem : f.fileName ∈ (s.performMappingMigration E).2.map RenameAttempt.fileName := by
        rw [(performMappingMigration_log E s).1]
        exact List.mem_map_of_mem _ (List.mem_filter.2 ⟨hf, hmatch⟩)
      obtain ⟨a, ha, hname⟩ := List.mem_map.1 hmem
      exact ⟨a, ha, hname⟩
  · intro name hdot hlegacy
    obtain ⟨hex, w, hname, _⟩ := legacyName_parts E name hlegacy
    exact hdot (by rw [hname]; simp)
  · intro hex rest hall hlen hlegacy
    have hidx := (hindex _ hlegacy).1
    rw [indexOf_of_parts (String.mk (hex ++ '.' :: rest)) hex rest rfl
      (not_mem_of_hex hex hall).1] at hidx
    exact hlen (by exact_mod_cast hidx)
  · intro name hlast hlegacy
    exact (hindex name hlegacy).2 hlast

/-- C15, at a storage root whose path contains the extension of the file: the
path passed to `rename` is not the path of the entry named by the hash in the
storage root; the extension is taken out of the directory part as well, and the
file leaves the storage root. -/
theorem migration_target_outside_root :
    migrationTarget (legacyDirectory "/srv/my.png/assets") (sampleHash ++ ".png")
        = "/srv/my/assets/" ++ sampleHash
    ∧ (legacyDirectory "/srv/my.png/assets").absoluteFilePath sampleHash
        = "/srv/my.png/assets/" ++ sampleHash
    ∧ ((serverWith (legacyDirectory "/srv/my.png/assets")).performMappingMigration
          sampleEnvironment).2
        = [⟨otherHash ++ ".tar.gz", "/srv/my.png/assets/" ++ otherHash, true⟩,
           ⟨sampleHash ++ ".png", "/srv/my/assets/" ++ sampleHash, true⟩]
    ∧ ((serverWith (legacyDirectory "/srv/my.png/assets")).performMappingMigration
          sampleEnvironment).1._resourcesDirectory.files.map QFileInfo.fileName
        = [otherHash, "notes.txt"] := by
  decide

/-- C17: whatever renames fail, `performMappingMigration` calls `rename` once
for each file of the listing with a legacy name, in the order of the listing and
up to its end, and for no other file; a file whose rename failed is still in the
storage root under its name, and so is every file whose name is not a legacy
name. -/
theorem migration_runs_to_the_end (E : Environment) (s : AssetServer)
    (hnodup : (s._resourcesDirectory.files.map QFileInfo.fileName).Nodup) :
    (s.performMappingMigration E).2.map RenameAttempt.fileName
        = (s._resourcesDirectory.files.filter
            (fun f => (migrationHashFileRegex E).exactMatch f.fileName)).map QFileInfo.fileName
    ∧ ((s.performMappingMigration E).2.map RenameAttempt.fileName).Nodup
    ∧ (∀ a ∈ (s.performMappingMigration E).2, a.renamed = false →
        ∀ f ∈ s._resourcesDirectory.files, f.fileName = a.fileName →
          f ∈ (s.performMappingMigration E).1._resourcesDirectory.files)
    ∧ (∀ f ∈ s._resourcesDirectory.files,
        (migrationHashFileRegex E).exactMatch f.fileName = false →
          f ∈ (s.performMappingMigration E).1._resourcesDirectory.files) := by
  have hlog := (performMappingMigration_log E s).1
  refine ⟨hlog, ?_, ?_, ?_⟩
  · rw [hlog]
    exact (hnodup.sublist ((List.filter_sublist _).map _))
  · intro a ha hfalse f hf hname
    have hfold : (List.foldl (migrateFile E) (s._resourcesDirectory, [])
        s._resourcesDirectory.files).2 = [] ++ (s.performMappingMigration E).2 := rfl
    exact foldl_migrate_failed E s._resourcesDirectory.files s._resourcesDirectory [] _
      hnodup hfold a ha hfalse f hf hname hf
  · intro f hf hno
    refine foldl_migrate_keep E f s._resourcesDirectory.files s._resourcesDirectory [] hf ?_
    intro g _ hg hname
    rw [hname, hno] at hg
    exact absurd hg (by simp)

/-- C18: `performMappingMigration` leaves the mapping table as it was, whatever
the storage root holds and whichever renames succeed or fail. -/
theorem migration_keeps_mapping (E : Environment) (s : AssetServer) :
    (s.performMappingMigration E).1._fileMapping = s._fileMapping
    ∧ ∀ p : AssetPath, (s.performMappingMigration E).1._fileMapping.find p
        = s._fileMapping.find p :=
  ⟨rfl, fun _ => rfl⟩

theorem migration_runs_to_the_end_witness :
    ((serverWith clashDirectory)._resourcesDirectory.files.map QFileInfo.fileName).Nodup
    ∧ (((serverWith clashDirectory).performMappingMigration sampleEnvironment).2.map
          RenameAttempt.fileName
          = ((serverWith clashDirectory)._resourcesDirectory.files.filter
              (fun f => (migrationHashFileRegex sampleEnvironment).exactMatch f.fileName)).map
                QFileInfo.fileName
      ∧ (((serverWith clashDirectory).performMappingMigration sampleEnvironment).2.map
          RenameAttempt.fileName).Nodup
      ∧ (∀ a ∈ ((serverWith clashDirectory).performMappingMigration sampleEnvironment).2,
          a.renamed = false →
          ∀ f ∈ (serverWith clashDirectory)._resourcesDirectory.files,
            f.fileName = a.fileName →
            f ∈ ((serverWith clashDirectory).performMappingMigration
                  sampleEnvironment).1._resourcesDirectory.files)
      ∧ (∀ f ∈ (serverWith clashDirectory)._resourcesDirectory.files,
          (migrationHashFileRegex sampleEnvironment).exactMatch f.fileName = false →
            f ∈ ((serverWith clashDirectory).performMappingMigration
                  sampleEnvironment).1._resourcesDirectory.files)) :=
  ⟨by decide, migration_runs_to_the_end sampleEnvironment (serverWith clashDirectory) (by decide)⟩

theorem fileInfo_of_mem (d : QDir) (f : QFileInfo) (hf : f ∈ d.files) :
    ∃ g, d.fileInfo f.fileName = some g := by
  cases hfi : d.fileInfo f.fileName with
  | some g => exact ⟨g, rfl⟩
  | none => exact absurd rfl ((fileInfo_none_iff d f.fileName).1 hfi f hf)

theorem absoluteFilePath_congr (d e : QDir) (name : QString) (h : d.path = e.path) :
    d.absoluteFilePath name = e.absoluteFilePath name := by
  simp only [QDir.absoluteFilePath, h]

/-- The migration loop over a directory in which the file `f` has a legacy name
with the hexadecimal part `hex`: when the names are distinct, no file is named
by `hex`, no other matching name has the same hexadecimal part, the extension
does not occur in the path of the directory and the operating system allows the
rename, the file ends up under the name `hex` and nothing has its old name. -/
theorem foldl_migrate_renamed (E : Environment) (d0 : QDir) (f : QFileInfo)
    (hex w : List Char) (hf : f ∈ d0.files)
    (hname : f.fileName.toList = hex ++ '.' :: w) (hlen : hex.length = SHA256_HASH_HEX_LENGTH)
    (hall : ∀ c ∈ hex, isLowerHexChar c = true) (hw : '/' ∉ w)
    (hmatch : (migrationHashFileRegex E).exactMatch f.fileName = true)
    (hnodup : (d0.files.map QFileInfo.fileName).Nodup)
    (hfree : ∀ g ∈ d0.files, g.fileName ≠ String.mk hex)
    (hother : ∀ g ∈ d0.files, (migrationHashFileRegex E).exactMatch g.fileName = true →
      g.fileName.toList.take SHA256_HASH_HEX_LENGTH = hex → g.fileName = f.fileName)
    (hpath : ¬ ('.' :: w) <:+: d0.path.toList)
    (hallowed : E.renameAllowed (d0.absoluteFilePath f.fileName)
      (d0.absoluteFilePath (String.mk hex)) = true) :
    (List.foldl (migrateFile E) (d0, []) d0.files).1.fileInfo (String.mk hex)
        = some { f with fileName := String.mk hex }
    ∧ (List.foldl (migrateFile E) (d0, []) d0.files).1.fileInfo f.fileName = none := by
  have hhex := not_mem_of_hex hex hall
  have hHne : String.mk hex ≠ f.fileName := by
    intro h
    have hlist : hex = f.fileName.toList := congrArg String.toList h
    rw [hname] at hlist
    have hl := congrArg List.length hlist
    simp at hl
  -- the listing around `f`
  obtain ⟨before, after, hsplit⟩ := List.append_of_mem hf
  have hmid : f.fileName ∉ before.map QFileInfo.fileName ++ after.map QFileInfo.fileName := by
    rw [hsplit, List.map_append, List.map_cons] at hnodup
    exact (List.nodup_cons.1 (List.nodup_middle.1 hnodup)).1
  have hbefore : ∀ g ∈ before, g.fileName ≠ f.fileName := fun g hg h =>
    hmid (List.mem_append_left _ (by rw [← h]; exact List.mem_map_of_mem _ hg))
  have hafter : ∀ g ∈ after, g.fileName ≠ f.fileName := fun g hg h =>
    hmid (List.mem_append_right _ (by rw [← h]; exact List.mem_map_of_mem _ hg))
  have hbefore0 : ∀ g ∈ before, g ∈ d0.files := fun g hg => by
    rw [hsplit]; exact List.mem_append_left _ hg
  have hafter0 : ∀ g ∈ after, g ∈ d0.files := fun g hg => by
    rw [hsplit]; exact List.mem_append_right _ (List.mem_cons_of_mem _ hg)
  have hlong : ∀ g : QFileInfo,
      g.fileName.toList.take SHA256_HASH_HEX_LENGTH ≠ f.fileName.toList := by
    intro g h
    have hl := congrArg List.length h
    rw [hname, List.length_take, List.length_append, hlen] at hl
    simp only [List.length_cons] at hl
    omega
  -- the directory `d1` before the turn of `f`
  obtain ⟨d1, log1, hacc1⟩ : ∃ d1 log1, List.foldl (migrateFile E) (d0, []) before = (d1, log1) :=
    ⟨_, _, rfl⟩
  have hd1 : (List.foldl (migrateFile E) (d0, []) before).1 = d1 := by rw [hacc1]
  have hd1path : d1.path = d0.path := by rw [← hd1]; exact foldl_migrate_path E before d0 []
  have hd1f : f ∈ d1.files := by
    rw [← hd1]
    exact foldl_migrate_keep E f before d0 [] hf (fun g hg _ => hbefore g hg)
  have hd1H : ∀ e ∈ d1.files, e.fileName ≠ String.mk hex := by
    intro e he hX
    rw [← hd1] at he
    exact hfree e (foldl_migrate_named E (String.mk hex) before d0 []
      (fun g hg hm h => hbefore g hg (hother g (hbefore0 g hg) hm h)) e he hX) hX
  have hd1P : ∀ e ∈ d1.files, e.fileName = f.fileName → e = f := by
    intro e he hX
    rw [← hd1] at he
    have he0 := foldl_migrate_named E f.fileName before d0 [] (fun g _ _ => hlong g) e he hX
    exact List.inj_on_of_nodup_map hnodup he0 hf hX
  -- the rename of `f` gives the directory `d2`
  obtain ⟨d2, hd2⟩ : ∃ d2 : QDir, d2 = { d1 with files := d1.files.map (fun x =>
      if x.fileName == f.fileName then { x with fileName := String.mk hex } else x) } :=
    ⟨_, rfl⟩
  have hd2files : d2.files = d1.files.map (fun x =>
      if x.fileName == f.fileName then { x with fileName := String.mk hex } else x) := by
    rw [hd2]
  have hrename : d1.rename E f.fileName (migrationTarget d1 f.fileName) = (true, d2) := by
    obtain ⟨g, hg⟩ := fileInfo_of_mem _ f hd1f
    have hrel := relativeName_absoluteFilePath d1 (String.mk hex) hhex.2 (by
      intro hnil
      have hl : hex.length = 0 := by rw [show hex = [] from hnil]; rfl
      rw [hlen] at hl
      exact absurd hl (by decide))
    have hnone : d1.fileInfo (String.mk hex) = none := (fileInfo_none_iff _ _).2 hd1H
    have hok : E.renameAllowed (d1.absoluteFilePath f.fileName)
        (d1.absoluteFilePath (String.mk hex)) = true := by
      rw [absoluteFilePath_congr d1 d0 _ hd1path, absoluteFilePath_congr d1 d0 _ hd1path]
      exact hallowed
    rw [migrationTarget_in_place d1 f.fileName hex w hname hhex hw
      (by rw [hd1path]; exact hpath), hd2]
    simp [QDir.rename, hg, hrel, hnone, hok]
  have hd2f : ({ f with fileName := String.mk hex } : QFileInfo) ∈ d2.files := by
    rw [hd2files]
    exact List.mem_map.2 ⟨f, hd1f, by simp⟩
  have hd2H : ∀ e ∈ d2.files, e.fileName = String.mk hex →
      e = { f with fileName := String.mk hex } := by
    intro e he hX
    rw [hd2files] at he
    obtain ⟨x, hx, hxe⟩ := List.mem_map.1 he
    by_cases hxf : x.fileName = f.fileName
    · rw [← hxe, hd1P x hx hxf]
      simp
    · have hex2 : e = x := by rw [← hxe]; simp [hxf]
      rw [hex2] at hX
      exact absurd hX (hd1H x hx)
  have hd2P : ∀ e ∈ d2.files, e.fileName ≠ f.fileName := by
    intro e he hX
    rw [hd2files] at he
    obtain ⟨x, hx, hxe⟩ := List.mem_map.1 he
    by_cases hxf : x.fileName = f.fileName
    · have hnew : e.fileName = String.mk hex := by rw [← hxe]; simp [hxf]
      rw [hnew] at hX
      exact hHne hX
    · have hex2 : e = x := by rw [← hxe]; simp [hxf]
      rw [hex2] at hX
      exact hxf hX
  -- the whole loop, and the directory at its end
  have hfold : (List.foldl (migrateFile E) (d0, []) d0.files).1
      = (List.foldl (migrateFile E) (d2, []) after).1 := by
    conv => lhs; rw [hsplit, List.foldl_append]
    rw [hacc1, foldl_migrate_cons, if_pos hmatch, hrename]
    exact foldl_migrate_dir E after _ _ _
  rw [hfold]
  have hd3f := foldl_migrate_keep E { f with fileName := String.mk hex } after d2 [] hd2f
    (fun g hg _ => hfree g (hafter0 g hg))
  have hd3H : ∀ e ∈ (List.foldl (migrateFile E) (d2, []) after).1.files,
      e.fileName = String.mk hex → e = { f with fileName := String.mk hex } := by
    intro e he hX
    exact hd2H e (foldl_migrate_named E (String.mk hex) after d2 []
      (fun g hg hm h => hafter g hg (hother g (hafter0 g hg) hm h)) e he hX) hX
  have hd3P : ∀ e ∈ (List.foldl (migrateFile E) (d2, []) after).1.files,
      e.fileName ≠ f.fileName := by
    intro e he hX
    exact hd2P e (foldl_migrate_named E f.fileName after d2 [] (fun g _ _ => hlong g) e he hX)
      hX
  refine ⟨?_, (fileInfo_none_iff _ _).2 hd3P⟩
  obtain ⟨g, hg⟩ := fileInfo_of_mem _ _ hd3f
  have hg2 := fileInfo_some _ _ g hg
  rw [show ({ f with fileName := String.mk hex } : QFileInfo).fileName = String.mk hex from rfl]
    at hg hg2
  rw [hg, hd3H g hg2.1 hg2.2]

theorem getInfo_found (U : AssetUtils) (s : AssetServer) (data : QByteArray) (n : Node)
    (f : QFileInfo) (hfit : SHA256_HASH_LENGTH + U.sizeofMessageID < 2 ^ 63)
    (hsize : SHA256_HASH_LENGTH + U.sizeofMessageID ≤ data.length)
    (hfile : s._resourcesDirectory.fileInfo
      (hashFileName ((data.drop U.sizeofMessageID).take SHA256_HASH_LENGTH)) = some f)
    (hreadable : f.isReadable = true) :
    (handleAssetGetInfo U s (ReceivedMessage.ofBytes data) n).1.sentPackets
      = s.sentPackets ++ [(infoReply [Field.messageID (data.take U.sizeofMessageID),
          Field.bytes ((data.drop U.sizeofMessageID).take SHA256_HASH_LENGTH),
          Field.error AssetServerError.NoError, Field.size f.size], n)] := by
  have hnot : ¬ (ReceivedMessage.ofBytes data).getSize
      < qint64 ((SHA256_HASH_LENGTH + U.sizeofMessageID) % 2 ^ 64) := by
    rw [qint64_of_lt _ hfit]
    simp only [ReceivedMessage.getSize, ReceivedMessage.ofBytes, not_lt]
    exact_mod_cast hsize
  simp only [hashFileName] at hfile
  unfold handleAssetGetInfo
  rw [if_neg hnot]
  simp [AssetServer.fileInfo, ReceivedMessage.readPrimitive,
    ReceivedMessage.readWithoutCopy, ReceivedMessage.unread, ReceivedMessage.ofBytes, hfile,
    hreadable, sendPacket, infoReply, NLPacket.create, NLPacket.write]

theorem isWordCharacter_png (E : Environment) :
    ∀ c ∈ ['p', 'n', 'g'], isWordCharacter E c = true := by
  intro c hc
  simp only [List.mem_cons, List.mem_singleton, List.not_mem_nil, or_false] at hc
  rcases hc with h | h | h <;> rw [h] <;> rfl

theorem png_toList (H : QString) : (H ++ ".png").toList = H.toList ++ '.' :: ['p', 'n', 'g'] := by
  show (H ++ ".png").data = _
  rw [String.data_append]
  rfl

/-- C16, as stated, fails.  With the legacy files H.jpg and H.png and no file
named H, the file H.jpg takes the name H and the rename of H.png fails: H.png
stays and H has the content of H.jpg.  When the operating system refuses the
rename, the storage root is as before.  When H.png cannot be read, neither can
H, and GetInfo answers AssetNotFound. -/
theorem migration_scenario_counterexample :
    (∀ g ∈ clashDirectory.files, g.fileName ≠ sampleHash)
    ∧ ((serverWith clashDirectory).performMappingMigration
          sampleEnvironment).1._resourcesDirectory.files.map
            (fun g => (g.fileName, g.contents))
        = [(sampleHash, [9, 9]), (sampleHash ++ ".png", [1, 2, 3])]
    ∧ ((serverWith (legacyDirectory "/srv/assets")).performMappingMigration
          refusingEnvironment).1._resourcesDirectory = legacyDirectory "/srv/assets"
    ∧ (handleAssetGetInfo sampleUtils
          ((serverWith unreadableDirectory).performMappingMigration sampleEnvironment).1
          sampleGetInfo alice).1.sentPackets
        = [(infoReply [Field.messageID [5, 0, 0, 0], Field.bytes sampleHashBytes,
            Field.error AssetServerError.AssetNotFound], alice)] := by
  decide

/-- C16, amended: let H be a 64-character lowercase hex string and let the
storage root hold a readable file H.png, no file named H and no other file with a
legacy name whose hexadecimal part is H; let the path of the storage root not
contain ".png", and let the operating system allow the rename.  Then after
`performMappingMigration` the storage root holds under the name H the file with
the content of H.png, it holds no file named H.png, the contents of its files
are among those it held before (no file was created), and a GetInfo request
with the 32 bytes whose hex encoding is H is answered with the message ID, the
hash, NoError and the byte length of that file. -/
theorem migration_scenario (E : Environment) (U : AssetUtils) (s : AssetServer)
    (H : AssetHash) (f : QFileInfo) (data : QByteArray) (n : Node)
    (hH : isHashString H = true)
    (hf : f ∈ s._resourcesDirectory.files) (hname : f.fileName = H ++ ".png")
    (hreadable : f.isReadable = true)
    (hnodup : (s._resourcesDirectory.files.map QFileInfo.fileName).Nodup)
    (hfree : ∀ g ∈ s._resourcesDirectory.files, g.fileName ≠ H)
    (hother : ∀ g ∈ s._resourcesDirectory.files,
      (migrationHashFileRegex E).exactMatch g.fileName = true →
      g.fileName.toList.take SHA256_HASH_HEX_LENGTH = H.toList → g.fileName = H ++ ".png")
    (hpath : ¬ (".png" : QString).toList <:+: s._resourcesDirectory.path.toList)
    (hallowed : E.renameAllowed (s._resourcesDirectory.absoluteFilePath (H ++ ".png"))
      (s._resourcesDirectory.absoluteFilePath H) = true)
    (hfit : SHA256_HASH_LENGTH + U.sizeofMessageID < 2 ^ 63)
    (hsize : SHA256_HASH_LENGTH + U.sizeofMessageID ≤ data.length)
    (hhash : hashFileName ((data.drop U.sizeofMessageID).take SHA256_HASH_LENGTH) = H) :
    (s.performMappingMigration E).1._resourcesDirectory.fileInfo H
        = some { f with fileName := H }
    ∧ (s.performMappingMigration E).1._resourcesDirectory.fileInfo (H ++ ".png") = none
    ∧ ((s.performMappingMigration E).1._resourcesDirectory.files.map
          QFileInfo.contents).Sublist (s._resourcesDirectory.files.map QFileInfo.contents)
    ∧ (handleAssetGetInfo U (s.performMappingMigration E).1 (ReceivedMessage.ofBytes data)
          n).1.sentPackets
        = (s.performMappingMigration E).1.sentPackets
            ++ [(infoReply [Field.messageID (data.take U.sizeofMessageID),
              Field.bytes ((data.drop U.sizeofMessageID).take SHA256_HASH_LENGTH),
              Field.error AssetServerError.NoError, Field.size (f.contents.length : Int)], n)] := by
  simp only [isHashString, Bool.and_eq_true, beq_iff_eq, List.all_eq_true] at hH
  obtain ⟨hlen, hall⟩ := hH
  have hparts : f.fileName.toList = H.toList ++ '.' :: ['p', 'n', 'g'] := by
    rw [hname, png_toList]
  have hmatch : (migrationHashFileRegex E).exactMatch f.fileName = true := by
    rw [exactMatch_iff_legacyName]
    exact ⟨H.toList, [['.', 'p', 'n', 'g']], by rw [hparts]; rfl, hlen, hall, by simp,
      fun e he => ⟨['p', 'n', 'g'], by simpa using he, by simp, isWordCharacter_png E⟩⟩
  have hrenamed := foldl_migrate_renamed E s._resourcesDirectory f H.toList ['p', 'n', 'g'] hf
    hparts hlen hall (by decide) hmatch hnodup hfree
    (fun g hg hm h => by rw [hname]; exact hother g hg hm h) hpath
    (by rw [hname]; exact hallowed)
  have hfile : (s.performMappingMigration E).1._resourcesDirectory.fileInfo H
      = some { f with fileName := H } := hrenamed.1
  refine ⟨hfile, ?_, ?_, ?_⟩
  · have := hrenamed.2
    rw [hname] at this
    exact this
  · exact foldl_migrate_contents E s._resourcesDirectory.files s._resourcesDirectory []
  · exact getInfo_found U _ data n { f with fileName := H } hfit hsize (by rw [hhash]; exact hfile)
      hreadable

theorem migration_scenario_witness :
    isHashString sampleHash = true
    ∧ samplePng ∈ sampleLegacyServer._resourcesDirectory.files
    ∧ samplePng.fileName = sampleHash ++ ".png"
    ∧ samplePng.isReadable = true
    ∧ (sampleLegacyServer._resourcesDirectory.files.map QFileInfo.fileName).Nodup
    ∧ (∀ g ∈ sampleLegacyServer._resourcesDirectory.files, g.fileName ≠ sampleHash)
    ∧ (∀ g ∈ sampleLegacyServer._resourcesDirectory.files,
        (migrationHashFileRegex sampleEnvironment).exactMatch g.fileName = true →
        g.fileName.toList.take SHA256_HASH_HEX_LENGTH = sampleHash.toList →
        g.fileName = sampleHash ++ ".png")
    ∧ ¬ (".png" : QString).toList <:+: sampleLegacyServer._resourcesDirectory.path.toList
    ∧ sampleEnvironment.renameAllowed
        (sampleLegacyServer._resourcesDirectory.absoluteFilePath (sampleHash ++ ".png"))
        (sampleLegacyServer._resourcesDirectory.absoluteFilePath sampleHash) = true
    ∧ SHA256_HASH_LENGTH + sampleUtils.sizeofMessageID < 2 ^ 63
    ∧ SHA256_HASH_LENGTH + sampleUtils.sizeofMessageID ≤ sampleInfoData.length
    ∧ hashFileName ((sampleInfoData.drop sampleUtils.sizeofMessageID).take SHA256_HASH_LENGTH)
        = sampleHash
    ∧ ((sampleLegacyServer.performMappingMigration
          sampleEnvironment).1._resourcesDirectory.fileInfo sampleHash
          = some { samplePng with fileName := sampleHash }
      ∧ (sampleLegacyServer.performMappingMigration
          sampleEnvironment).1._resourcesDirectory.fileInfo (sampleHash ++ ".png") = none
      ∧ ((sampleLegacyServer.performMappingMigration
            sampleEnvironment).1._resourcesDirectory.files.map QFileInfo.contents).Sublist
          (sampleLegacyServer._resourcesDirectory.files.map QFileInfo.contents)
      ∧ (handleAssetGetInfo sampleUtils
            (sampleLegacyServer.performMappingMigration sampleEnvironment).1
            (ReceivedMessage.ofBytes sampleInfoData) alice).1.sentPackets
          = (sampleLegacyServer.performMappingMigration sampleEnvironment).1.sentPackets
              ++ [(infoReply [Field.messageID (sampleInfoData.take sampleUtils.sizeofMessageID),
                Field.bytes
                  ((sampleInfoData.drop sampleUtils.sizeofMessageID).take SHA256_HASH_LENGTH),
                Field.error AssetServerError.NoError,
                Field.size (samplePng.contents.length : Int)], alice)]) :=
  ⟨by decide, by decide, by decide, by decide, by decide, by decide, by decide, by decide,
    by decide, by decide, by decide, by decide,
    migration_scenario sampleEnvironment sampleUtils sampleLegacyServer sampleHash samplePng
      sampleInfoData alice (by decide) (by decide) (by decide) (by decide) (by decide)
      (by decide) (by decide) (by decide) (by decide) (by decide) (by decide) (by decide)⟩

/-! ## The setup of the storage root -/

theorem readRange_slice (contents : QByteArray) (start stop : Nat) :
    (contents.take (min stop contents.length)).drop start
        = (contents.drop start).take (min stop contents.length - start)
    ∧ (contents.length < stop →
        (contents.take (min stop contents.length)).drop start = contents.drop start)
    ∧ (contents.length ≤ start → (contents.take (min stop contents.length)).drop start = []) := by
  refine ⟨?_, ?_, ?_⟩
  · rw [List.drop_take]
  · intro hlt
    rw [Nat.min_eq_right (Nat.le_of_lt hlt), List.take_length]
  · intro hle
    apply List.drop_eq_nil_of_le
    rw [List.length_take]
    omega

/-- C20, against the fetch task as the spec describes it: the task that a Get
request of at least the minimum size starts replies, for a stored blob, with the
message ID, the bytes of the blob from `start` up to the smaller of `end` and the
length, and NoError; these are the bytes from `start` to the end of the blob
when `end` exceeds the length, and none when `start` is at or beyond the length.
The reply holds AssetNotFound if and only if the storage root has no file named
by the hash. -/
theorem fetch_task_range (U : AssetUtils) (toOffset : QByteArray → Nat) (s : AssetServer)
    (data : QByteArray) (n : Node)
    (hfit : U.sizeofMessageID + SHA256_HASH_LENGTH + U.sizeofDataOffset + U.sizeofDataOffset
      < 2 ^ 63)
    (hsize : U.sizeofMessageID + SHA256_HASH_LENGTH + U.sizeofDataOffset + U.sizeofDataOffset
      ≤ data.length) :
    (handleAssetGet U s (ReceivedMessage.ofBytes data) n).1._taskPool
        = s._taskPool
            ++ [Task.SendAssetTask (ReceivedMessage.ofBytes data) n s._resourcesDirectory]
    ∧ (∀ f, s._resourcesDirectory.fileInfo
          (hashFileName ((data.drop U.sizeofMessageID).take SHA256_HASH_LENGTH)) = some f →
        Task.fetch U toOffset
            (Task.SendAssetTask (ReceivedMessage.ofBytes data) n s._resourcesDirectory)
          = some ([Field.messageID (data.take U.sizeofMessageID),
              Field.bytes ((f.contents.drop (rangeStart U toOffset data)).take
                (min (rangeEnd U toOffset data) f.contents.length - rangeStart U toOffset data)),
              Field.error AssetServerError.NoError], n)
        ∧ (f.contents.length < rangeEnd U toOffset data →
            (f.contents.drop (rangeStart U toOffset data)).take
                (min (rangeEnd U toOffset data) f.contents.length - rangeStart U toOffset data)
              = f.contents.drop (rangeStart U toOffset data))
        ∧ (f.contents.length ≤ rangeStart U toOffset data →
            (f.contents.drop (rangeStart U toOffset data)).take
                (min (rangeEnd U toOffset data) f.contents.length - rangeStart U toOffset data)
              = []))
    ∧ (∀ reply, Task.fetch U toOffset
            (Task.SendAssetTask (ReceivedMessage.ofBytes data) n s._resourcesDirectory)
          = some (reply, n) →
        (Field.error AssetServerError.AssetNotFound ∈ reply ↔
          s._resourcesDirectory.fileInfo
            (hashFileName ((data.drop U.sizeofMessageID).take SHA256_HASH_LENGTH)) = none)) := by
  have hfetch : Task.fetch U toOffset
      (Task.SendAssetTask (ReceivedMessage.ofBytes data) n s._resourcesDirectory)
      = some (fetchReply s._resourcesDirectory (data.take U.sizeofMessageID)
          ((data.drop U.sizeofMessageID).take SHA256_HASH_LENGTH)
          (rangeStart U toOffset data) (rangeEnd U toOffset data), n) := by
    simp [Task.fetch, ReceivedMessage.readPrimitive, ReceivedMessage.readWithoutCopy,
      ReceivedMessage.unread, ReceivedMessage.ofBytes, rangeStart, rangeEnd, Nat.add_assoc]
  refine ⟨?_, ?_, ?_⟩
  · have hnot : ¬ (ReceivedMessage.ofBytes data).getSize
        < qint64 ((U.sizeofMessageID + SHA256_HASH_LENGTH + U.sizeofDataOffset
          + U.sizeofDataOffset) % 2 ^ 64) := by
      rw [qint64_of_lt _ hfit]
      simp only [ReceivedMessage.getSize, ReceivedMessage.ofBytes, not_lt]
      exact_mod_cast hsize
    unfold handleAssetGet
    simp only []
    rw [if_neg hnot]
    rfl
  · intro f hf
    have hslice := readRange_slice f.contents (rangeStart U toOffset data)
      (rangeEnd U toOffset data)
    refine ⟨?_, ?_, ?_⟩
    · rw [hfetch]
      simp only [fetchReply, readRange, hf, hslice.1]
    · intro hlt
      rw [← hslice.1]
      exact hslice.2.1 hlt
    · intro hle
      rw [← hslice.1]
      exact hslice.2.2 hle
  · intro reply hreply
    rw [hfetch] at hreply
    have hr : reply = fetchReply s._resourcesDirectory (data.take U.sizeofMessageID)
        ((data.drop U.sizeofMessageID).take SHA256_HASH_LENGTH)
        (rangeStart U toOffset data) (rangeEnd U toOffset data) := by
      have := Option.some.inj hreply
      exact (congrArg Prod.fst this).symm
    rw [hr]
    cases hfi : s._resourcesDirectory.fileInfo
        (hashFileName ((data.drop U.sizeofMessageID).take SHA256_HASH_LENGTH)) with
    | none => simp [fetchReply, readRange, hfi]
    | some f => simp [fetchReply, readRange, hfi]

theorem fetch_task_range_witness :
    sampleUtils.sizeofMessageID + SHA256_HASH_LENGTH + sampleUtils.sizeofDataOffset
        + sampleUtils.sizeofDataOffset < 2 ^ 63
    ∧ sampleUtils.sizeofMessageID + SHA256_HASH_LENGTH + sampleUtils.sizeofDataOffset
        + sampleUtils.sizeofDataOffset ≤ sampleRangeData.length
    ∧ sampleServer._resourcesDirectory.fileInfo
        (hashFileName ((sampleRangeData.drop sampleUtils.sizeofMessageID).take
          SHA256_HASH_LENGTH)) = some sampleBlob
    ∧ Task.fetch sampleUtils fromLittleEndian
        (Task.SendAssetTask (ReceivedMessage.ofBytes sampleRangeData) alice
          sampleServer._resourcesDirectory)
        = some ([Field.messageID [3, 0, 0, 0], Field.bytes [6, 7, 8, 9, 10],
            Field.error AssetServerError.NoError], alice)
    ∧ ((handleAssetGet sampleUtils sampleServer (ReceivedMessage.ofBytes sampleRangeData)
          alice).1._taskPool
          = sampleServer._taskPool
              ++ [Task.SendAssetTask (ReceivedMessage.ofBytes sampleRangeData) alice
                    sampleServer._resourcesDirectory]
      ∧ (∀ f, sampleServer._resourcesDirectory.fileInfo
            (hashFileName ((sampleRangeData.drop sampleUtils.sizeofMessageID).take
              SHA256_HASH_LENGTH)) = some f →
          Task.fetch sampleUtils fromLittleEndian
              (Task.SendAssetTask (ReceivedMessage.ofBytes sampleRangeData) alice
                sampleServer._resourcesDirectory)
            = some ([Field.messageID (sampleRangeData.take sampleUtils.sizeofMessageID),
                Field.bytes ((f.contents.drop
                    (rangeStart sampleUtils fromLittleEndian sampleRangeData)).take
                  (min (rangeEnd sampleUtils fromLittleEndian sampleRangeData) f.contents.length
                    - rangeStart sampleUtils fromLittleEndian sampleRangeData)),
                Field.error AssetServerError.NoError], alice)
          ∧ (f.contents.length < rangeEnd sampleUtils fromLittleEndian sampleRangeData →
              (f.contents.drop (rangeStart sampleUtils fromLittleEndian sampleRangeData)).take
                  (min (rangeEnd sampleUtils fromLittleEndian sampleRangeData) f.contents.length
                    - rangeStart sampleUtils fromLittleEndian sampleRangeData)
                = f.contents.drop (rangeStart sampleUtils fromLittleEndian sampleRangeData))
          ∧ (f.contents.length ≤ rangeStart sampleUtils fromLittleEndian sampleRangeData →
              (f.contents.drop (rangeStart sampleUtils fromLittleEndian sampleRangeData)).take
                  (min (rangeEnd sampleUtils fromLittleEndian sampleRangeData) f.contents.length
                    - rangeStart sampleUtils fromLittleEndian sampleRangeData)
                = []))
      ∧ (∀ reply, Task.fetch sampleUtils fromLittleEndian
              (Task.SendAssetTask (ReceivedMessage.ofBytes sampleRangeData) alice
                sampleServer._resourcesDirectory)
            = some (reply, alice) →
          (Field.error AssetServerError.AssetNotFound ∈ reply ↔
            sampleServer._resourcesDirectory.fileInfo
              (hashFileName ((sampleRangeData.drop sampleUtils.sizeofMessageID).take
                SHA256_HASH_LENGTH)) = none))) :=
  ⟨by decide, by decide, by decide, by decide,
    fetch_task_range sampleUtils fromLittleEndian sampleServer sampleRangeData alice
      (by decide) (by decide)⟩

/-! ## Other paths, lookups and unknown operations -/

theorem Mapping.find?_filter_other (m : Mapping) (p q : AssetPath) (hqp : q ≠ p) :
    List.find? (fun e => e.1 == q) (List.filter (fun e => e.1 != p) m)
      = List.find? (fun e => e.1 == q) m := by
  have hfun : (fun a : AssetPath × AssetHash => decide ((a.1 != p) = true ∧ (a.1 == q) = true))
      = (fun a => a.1 == q) := by
    funext a
    by_cases h : a.1 = q
    · simp [h, hqp]
    · simp [h]
  rw [List.find?_filter, hfun]

theorem Mapping.find_filter_other (m : Mapping) (p q : AssetPath) (hqp : q ≠ p) :
    Mapping.find (List.filter (fun e => e.1 != p) m) q = Mapping.find m q := by
  unfold Mapping.find
  rw [Mapping.find?_filter_other m p q hqp]

theorem Mapping.find_assign_other (m : Mapping) (p q : AssetPath) (h : AssetHash)
    (hqp : q ≠ p) : (m.assign p h).find q = m.find q := by
  have hpq : ((p, h).1 == q) = false := by
    simp only [beq_eq_false_iff_ne, ne_eq]
    exact fun e => hqp e.symm
  have hcons : List.find? (fun e => e.1 == q) ((p, h) :: List.filter (fun e => e.1 != p) m)
      = List.find? (fun e => e.1 == q) m := by
    rw [List.find?_cons, hpq]
    exact Mapping.find?_filter_other m p q hqp
  unfold Mapping.find Mapping.assign
  rw [hcons]

theorem Mapping.find_erase_other (m : Mapping) (p q : AssetPath) (hqp : q ≠ p) :
    (m.erase p).2.find q = m.find q :=
  Mapping.find_filter_other m p q hqp

/-- The reply to a MappingOperation/Get request for `q` is determined by what
`find(q)` gives. -/
theorem AssetServer.handle_get_reply (U : AssetUtils) (s : AssetServer) (m : ReceivedMessage)
    (n : Node) (q : AssetPath) (hm : m.IsGet U q) :
    s.newPackets (handleAssetMappingOperation U s m n).1
      = [(mappingReply (match s._fileMapping.find q with
          | some h => [Field.messageID (m.messageID U), Field.error AssetServerError.NoError,
              Field.string (QString.toLatin1 h)]
          | none => [Field.messageID (m.messageID U),
              Field.error AssetServerError.AssetNotFound]), n)] := by
  cases hf : s._fileMapping.find q with
  | none =>
    rw [handle_get_missing U s m n q hm hf]
    simp [newPackets, sendPacket]
  | some h =>
    rw [handle_get_found U s m n q h hm hf]
    simp [newPackets, sendPacket]

/-- The MappingOperation/Get branch leaves the mapping table as it was. -/
theorem AssetServer.handle_get_keeps_mapping (U : AssetUtils) (s : AssetServer)
    (m : ReceivedMessage) (n : Node) (q : AssetPath) (hm : m.IsGet U q) :
    (handleAssetMappingOperation U s m n).1._fileMapping = s._fileMapping := by
  cases hf : s._fileMapping.find q with
  | none => rw [handle_get_missing U s m n q hm hf]; rfl
  | some h => rw [handle_get_found U s m n q h hm hf]; rfl

theorem AssetServer.getMapping_value (s : AssetServer) (q : AssetPath) :
    (s.getMapping q).1 = (s._fileMapping.find q).getD "" := by
  cases hf : s._fileMapping.find q with
  | none => rw [getMapping_of_find_none s q hf]; rfl
  | some h => rw [getMapping_of_find s q h hf]; rfl

/-- C21: for paths p and q that differ, a Set or a Delete on p, by `setMapping`,
by `deleteMapping` or by request, leaves what `find(q)` gives as it was, and
with it the value of `getMapping(q)` and the reply to a Get request for q; after
set(p, h) and set(q, h) with the same hash h, both p and q are mapped to h. -/
theorem other_paths_untouched (U : AssetUtils) (s : AssetServer) (p q : AssetPath)
    (h : AssetHash) (setRequest deleteRequest secondSet getP getQ : ReceivedMessage)
    (a b : Node) (hqp : q ≠ p)
    (hset : setRequest.IsSet U p h) (hdel : deleteRequest.IsDelete U p)
    (hsecond : secondSet.IsSet U q h) (hgetP : getP.IsGet U p) (hgetQ : getQ.IsGet U q) :
    (s.setMapping p h)._fileMapping.find q = s._fileMapping.find q
    ∧ (s.deleteMapping p).2._fileMapping.find q = s._fileMapping.find q
    ∧ (handleAssetMappingOperation U s setRequest a).1._fileMapping.find q
        = s._fileMapping.find q
    ∧ (handleAssetMappingOperation U s deleteRequest a).1._fileMapping.find q
        = s._fileMapping.find q
    ∧ (∀ t : AssetServer, t._fileMapping.find q = s._fileMapping.find q →
        (t.getMapping q).1 = (s.getMapping q).1
        ∧ (t.newPackets (handleAssetMappingOperation U t getQ b).1).map (fun r => r.1)
            = (s.newPackets (handleAssetMappingOperation U s getQ b).1).map (fun r => r.1))
    ∧ ((s.setMapping p h).setMapping q h)._fileMapping.find p = some h
    ∧ ((s.setMapping p h).setMapping q h)._fileMapping.find q = some h
    ∧ (((s.setMapping p h).setMapping q h).getMapping p).1 = h
    ∧ (((s.setMapping p h).setMapping q h).getMapping q).1 = h
    ∧ (handleAssetMappingOperation U (handleAssetMappingOperation U s setRequest a).1
          secondSet a).1._fileMapping.find p = some h
    ∧ (handleAssetMappingOperation U (handleAssetMappingOperation U s setRequest a).1
          secondSet a).1._fileMapping.find q = some h
    ∧ ((handleAssetMappingOperation U (handleAssetMappingOperation U s setRequest a).1
          secondSet a).1.newPackets
        (handleAssetMappingOperation U
          (handleAssetMappingOperation U (handleAssetMappingOperation U s setRequest a).1
            secondSet a).1 getP b).1).map (fun r => r.1)
        = [mappingReply [Field.messageID (getP.messageID U),
            Field.error AssetServerError.NoError, Field.string (QString.toLatin1 h)]]
    ∧ ((handleAssetMappingOperation U (handleAssetMappingOperation U s setRequest a).1
          secondSet a).1.newPackets
        (handleAssetMappingOperation U
          (handleAssetMappingOperation U (handleAssetMappingOperation U s setRequest a).1
            secondSet a).1 getQ b).1).map (fun r => r.1)
        = [mappingReply [Field.messageID (getQ.messageID U),
            Field.error AssetServerError.NoError, Field.string (QString.toLatin1 h)]] := by
  have hpq : p ≠ q := fun e => hqp e.symm
  have hdirectP : ((s.setMapping p h).setMapping q h)._fileMapping.find p = some h := by
    show ((s._fileMapping.assign p h).assign q h).find p = some h
    rw [Mapping.find_assign_other _ q p h hpq, Mapping.find_assign_self]
  have hdirectQ : ((s.setMapping p h).setMapping q h)._fileMapping.find q = some h :=
    Mapping.find_assign_self _ q h
  have hstate : (handleAssetMappingOperation U (handleAssetMappingOperation U s setRequest a).1
      secondSet a).1._fileMapping = ((s.setMapping p h).setMapping q h)._fileMapping := by
    rw [handle_set U _ secondSet a q h hsecond, handle_set U s setRequest a p h hset]
    rfl
  refine ⟨Mapping.find_assign_other _ p q h hqp, Mapping.find_erase_other _ p q hqp, ?_, ?_, ?_,
    hdirectP, hdirectQ, ?_, ?_, ?_, ?_, ?_, ?_⟩
  · rw [handle_set U s setRequest a p h hset]
    exact Mapping.find_assign_other _ p q h hqp
  · rw [handle_delete U s deleteRequest a p hdel]
    exact Mapping.find_erase_other _ p q hqp
  · intro t ht
    refine ⟨by rw [getMapping_value, getMapping_value, ht], ?_⟩
    rw [handle_get_reply U t getQ b q hgetQ, handle_get_reply U s getQ b q hgetQ, ht]
  · rw [getMapping_of_find _ p h hdirectP]
  · rw [getMapping_of_find _ q h hdirectQ]
  · rw [hstate]; exact hdirectP
  · rw [hstate]; exact hdirectQ
  · rw [handle_get_reply U _ getP b p hgetP, hstate, hdirectP]
    rfl
  · rw [handle_get_reply U _ getQ b q hgetQ, hstate, hdirectQ]
    rfl


theorem other_paths_untouched_witness :
    ("/baz" : AssetPath) ≠ "/foo"
    ∧ sampleSet.IsSet sampleUtils "/foo" sampleHash
    ∧ sampleDelete.IsDelete sampleUtils "/foo"
    ∧ sampleSetBaz.IsSet sampleUtils "/baz" sampleHash
    ∧ sampleGet.IsGet sampleUtils "/foo"
    ∧ sampleGetBaz.IsGet sampleUtils "/baz"
    ∧ ((sampleServer.setMapping "/foo" sampleHash)._fileMapping.find "/baz"
        = sampleServer._fileMapping.find "/baz"
      ∧ (sampleServer.deleteMapping "/foo").2._fileMapping.find "/baz"
        = sampleServer._fileMapping.find "/baz"
      ∧ (handleAssetMappingOperation sampleUtils sampleServer sampleSet alice).1._fileMapping.find
          "/baz" = sampleServer._fileMapping.find "/baz"
      ∧ (handleAssetMappingOperation sampleUtils sampleServer sampleDelete
          alice).1._fileMapping.find "/baz" = sampleServer._fileMapping.find "/baz"
      ∧ (∀ t : AssetServer, t._fileMapping.find "/baz" = sampleServer._fileMapping.find "/baz" →
          (t.getMapping "/baz").1 = (sampleServer.getMapping "/baz").1
          ∧ (t.newPackets (handleAssetMappingOperation sampleUtils t sampleGetBaz bob).1).map
                (fun r => r.1)
              = (sampleServer.newPackets
                  (handleAssetMappingOperation sampleUtils sampleServer sampleGetBaz bob).1).map
                (fun r => r.1))
      ∧ ((sampleServer.setMapping "/foo" sampleHash).setMapping "/baz"
          sampleHash)._fileMapping.find "/foo" = some sampleHash
      ∧ ((sampleServer.setMapping "/foo" sampleHash).setMapping "/baz"
          sampleHash)._fileMapping.find "/baz" = some sampleHash
      ∧ (((sampleServer.setMapping "/foo" sampleHash).setMapping "/baz" sampleHash).getMapping
          "/foo").1 = sampleHash
      ∧ (((sampleServer.setMapping "/foo" sampleHash).setMapping "/baz" sampleHash).getMapping
          "/baz").1 = sampleHash
      ∧ (handleAssetMappingOperation sampleUtils
            (handleAssetMappingOperation sampleUtils sampleServer sampleSet alice).1
            sampleSetBaz alice).1._fileMapping.find "/foo" = some sampleHash
      ∧ (handleAssetMappingOperation sampleUtils
            (handleAssetMappingOperation sampleUtils sampleServer sampleSet alice).1
            sampleSetBaz alice).1._fileMapping.find "/baz" = some sampleHash
      ∧ ((handleAssetMappingOperation sampleUtils
            (handleAssetMappingOperation sampleUtils sampleServer sampleSet alice).1
            sampleSetBaz alice).1.newPackets
          (handleAssetMappingOperation sampleUtils
            (handleAssetMappingOperation sampleUtils
              (handleAssetMappingOperation sampleUtils sampleServer sampleSet alice).1
              sampleSetBaz alice).1 sampleGet bob).1).map (fun r => r.1)
          = [mappingReply [Field.messageID (sampleGet.messageID sampleUtils),
              Field.error AssetServerError.NoError, Field.string (QString.toLatin1 sampleHash)]]
      ∧ ((handleAssetMappingOperation sampleUtils
            (handleAssetMappingOperation sampleUtils sampleServer sampleSet alice).1
            sampleSetBaz alice).1.newPackets
          (handleAssetMappingOperation sampleUtils
            (handleAssetMappingOperation sampleUtils
              (handleAssetMappingOperation sampleUtils sampleServer sampleSet alice).1
              sampleSetBaz alice).1 sampleGetBaz bob).1).map (fun r => r.1)
          = [mappingReply [Field.messageID (sampleGetBaz.messageID sampleUtils),
              Field.error AssetServerError.NoError,
              Field.string (QString.toLatin1 sampleHash)]]) :=
  ⟨by decide, by decide, by decide, by decide, by decide, by decide,
    other_paths_untouched sampleUtils sampleServer "/foo" "/baz" sampleHash sampleSet
      sampleDelete sampleSetBaz sampleGet sampleGetBaz alice bob
      (by decide) (by decide) (by decide) (by decide) (by decide) (by decide)⟩

/-- C22, at a table with no entry for "/foo": the Get request leaves the table
as it was and answers AssetNotFound, but `getMapping("/foo")` returns the empty
string and leaves an entry from "/foo" to the empty string behind, after which
`deleteMapping("/foo")` returns true and a Get request for "/foo" answers
NoError with an empty hash. -/
theorem getMapping_inserts_entry :
    sampleGet.IsGet sampleUtils "/foo"
    ∧ sampleServer._fileMapping = [("/bar", "ff")]
    ∧ (sampleServer.deleteMapping "/foo").1 = false
    ∧ (handleAssetMappingOperation sampleUtils sampleServer sampleGet bob).1._fileMapping
        = sampleServer._fileMapping
    ∧ sampleServer.newPackets (handleAssetMappingOperation sampleUtils sampleServer sampleGet bob).1
        = [(mappingReply [Field.messageID (sampleGet.messageID sampleUtils),
            Field.error AssetServerError.AssetNotFound], bob)]
    ∧ (sampleServer.getMapping "/foo").1 = ""
    ∧ (sampleServer.getMapping "/foo").2._fileMapping = [("/foo", ""), ("/bar", "ff")]
    ∧ ((sampleServer.getMapping "/foo").2.deleteMapping "/foo").1 = true
    ∧ (sampleServer.getMapping "/foo").2.newPackets
        (handleAssetMappingOperation sampleUtils (sampleServer.getMapping "/foo").2 sampleGet
          bob).1
        = [(mappingReply [Field.messageID (sampleGet.messageID sampleUtils),
            Field.error AssetServerError.NoError, Field.string (QString.toLatin1 "")], bob)] := by
  decide

/-- C23: when the operation kind read off the wire is none of Get, Set and
Delete, the handler changes nothing of the server but the list of sent packets,
so the mapping table is as before; it reads the message ID and the operation
type and nothing after them, so no path; and it sends one packet, which holds
the message ID read from the request and nothing else. -/
theorem unknown_operation_reply (U : AssetUtils) (s : AssetServer) (m : ReceivedMessage)
    (n : Node) (hop : m.operationType U = none) :
    (handleAssetMappingOperation U s m n).1
      = s.sendPacket (mappingReply [Field.messageID (m.messageID U)]) n
    ∧ (handleAssetMappingOperation U s m n).1._fileMapping = s._fileMapping
    ∧ (handleAssetMappingOperation U s m n).2 = m.afterOperationType U
    ∧ (handleAssetMappingOperation U s m n).2.position
        = m.position + U.sizeofMessageID + U.sizeofAssetMappingOperationType
    ∧ (handleAssetMappingOperation U s m n).2.data = m.data
    ∧ s.newPackets (handleAssetMappingOperation U s m n).1
        = [(mappingReply [Field.messageID (m.messageID U)], n)]
    ∧ (mappingReply [Field.messageID (m.messageID U)]).payload
        = [Field.messageID (m.messageID U)] := by
  simp only [ReceivedMessage.operationType] at hop
  have hall : handleAssetMappingOperation U s m n
      = (s.sendPacket (mappingReply [Field.messageID (m.messageID U)]) n,
          m.afterOperationType U) := by
    simp [handleAssetMappingOperation, hop, mappingReply, NLPacket.create, NLPacket.write,
      ReceivedMessage.messageID, ReceivedMessage.afterOperationType]
  rw [hall]
  refine ⟨rfl, rfl, rfl, rfl, rfl, ?_, rfl⟩
  simp [AssetServer.newPackets, AssetServer.sendPacket]

theorem unknown_operation_reply_witness :
    sampleUnknown.operationType sampleUtils = none
    ∧ ((handleAssetMappingOperation sampleUtils sampleServer sampleUnknown alice).1
        = sampleServer.sendPacket
            (mappingReply [Field.messageID (sampleUnknown.messageID sampleUtils)]) alice
      ∧ (handleAssetMappingOperation sampleUtils sampleServer sampleUnknown alice).1._fileMapping
          = sampleServer._fileMapping
      ∧ (handleAssetMappingOperation sampleUtils sampleServer sampleUnknown alice).2
          = sampleUnknown.afterOperationType sampleUtils
      ∧ (handleAssetMappingOperation sampleUtils sampleServer sampleUnknown alice).2.position
          = sampleUnknown.position + sampleUtils.sizeofMessageID
              + sampleUtils.sizeofAssetMappingOperationType
      ∧ (handleAssetMappingOperation sampleUtils sampleServer sampleUnknown alice).2.data
          = sampleUnknown.data
      ∧ sampleServer.newPackets
          (handleAssetMappingOperation sampleUtils sampleServer sampleUnknown alice).1
          = [(mappingReply [Field.messageID (sampleUnknown.messageID sampleUtils)], alice)]
      ∧ (mappingReply [Field.messageID (sampleUnknown.messageID sampleUtils)]).payload
          = [Field.messageID (sampleUnknown.messageID sampleUtils)]) :=
  ⟨by decide, unknown_operation_reply sampleUtils sampleServer sampleUnknown alice (by decide)⟩


/-! ## A second pass of the migration -/

/-- After a rename that succeeded, the directory holds an entry under the old
name only when the new path is the path of the old name. -/
theorem rename_true_gone (E : Environment) (d : QDir) (old new : QString) (e : QFileInfo)
    (h : (d.rename E old new).1 = true) (he : e ∈ (d.rename E old new).2.files)
    (hname : e.fileName = old) : d.relativeName new = some old := by
  cases h1 : d.fileInfo old with
  | none => simp [QDir.rename, h1] at h
  | some v =>
    cases h2 : d.relativeName new with
    | some n =>
      cases h3 : (d.fileInfo n).isSome with
      | true => simp [QDir.rename, h1, h2, h3] at h
      | false =>
        cases h4 : E.renameAllowed (d.absoluteFilePath old) new with
        | false => simp [QDir.rename, h1, h2, h3, h4] at h
        | true =>
          simp only [QDir.rename, h1, h2, h3, h4] at he
          simp only [Bool.false_eq_true, if_false, if_true, List.mem_map] at he
          obtain ⟨x, _, hxe⟩ := he
          by_cases hx : x.fileName = old
          · have hen : e.fileName = n := by rw [← hxe]; simp [hx]
            rw [← hname, hen]
          · have hex : e = x := by rw [← hxe]; simp [hx]
            exact absurd (by rw [← hex]; exact hname) hx
    | none =>
      cases h4 : E.renameAllowed (d.absoluteFilePath old) new with
      | false => simp [QDir.rename, h1, h2, h4] at h
      | true =>
        simp only [QDir.rename, h1, h2, h4] at he
        simp only [if_true, List.mem_filter] at he
        exact absurd hname (by simpa using he.2)

/-- A name that matches the legacy pattern holds a '.'. -/
theorem legacyName_has_dot (E : Environment) (name : QString)
    (h : (migrationHashFileRegex E).exactMatch name = true) : '.' ∈ name.toList := by
  obtain ⟨hex, w, hname, _⟩ := legacyName_parts E name ((exactMatch_iff_legacyName E name).1 h)
  rw [hname]
  simp

/-- A name of hexadecimal digits does not match the legacy pattern. -/
theorem hex_not_legacy (E : Environment) (name : QString)
    (hall : ∀ c ∈ name.toList, isLowerHexChar c = true) :
    (migrationHashFileRegex E).exactMatch name = false := by
  cases hm : (migrationHashFileRegex E).exactMatch name with
  | false => rfl
  | true => exact absurd (legacyName_has_dot E name hm) (not_mem_of_hex _ hall).1

/-- When every call of `rename` of the loop returned true, an entry with a
legacy name that is left at the end was there at the start, and the loop did
not come by its name. -/
theorem foldl_migrate_legacy_left (E : Environment) (fs : List QFileInfo) :
    ∀ (d : QDir) (log : List RenameAttempt),
      (∀ a ∈ (List.foldl (migrateFile E) (d, log) fs).2, a.renamed = true) →
      ∀ e ∈ (List.foldl (migrateFile E) (d, log) fs).1.files,
        (migrationHashFileRegex E).exactMatch e.fileName = true →
        e ∈ d.files ∧ ∀ g ∈ fs, g.fileName ≠ e.fileName := by
  induction fs with
  | nil =>
    intro d log _ e he _
    exact ⟨he, fun g hg => absurd hg (List.not_mem_nil g)⟩
  | cons f fs ih =>
    intro d log hall e he hlegacy
    rw [foldl_migrate_cons] at hall he
    cases hm : (migrationHashFileRegex E).exactMatch f.fileName with
    | false =>
      simp only [hm, Bool.false_eq_true, if_false] at hall he
      obtain ⟨hmem, hrest⟩ := ih d log hall e he hlegacy
      refine ⟨hmem, ?_⟩
      intro g hg
      rcases List.mem_cons.1 hg with rfl | hg
      · intro heq
        rw [heq, hlegacy] at hm
        exact absurd hm (by simp)
      · exact hrest g hg
    | true =>
      simp only [hm, if_true] at hall he
      obtain ⟨hmem, hrest⟩ := ih _ _ hall e he hlegacy
      obtain ⟨new, hlog, _⟩ := foldl_migrate_log E fs
        (d.rename E f.fileName (migrationTarget d f.fileName)).2
        (log ++ [⟨f.fileName, migrationTarget d f.fileName,
          (d.rename E f.fileName (migrationTarget d f.fileName)).1⟩])
      have hrenamed : (d.rename E f.fileName (migrationTarget d f.fileName)).1 = true := by
        have := hall ⟨f.fileName, migrationTarget d f.fileName,
          (d.rename E f.fileName (migrationTarget d f.fileName)).1⟩
          (by rw [hlog]; simp)
        exact this
      obtain ⟨hex, w, hname, hlen, hhex, hw, _⟩ :=
        legacyName_parts E f.fileName ((exactMatch_iff_legacyName E f.fileName).1 hm)
      have hnew : ∀ n : QString,
          d.relativeName (migrationTarget d f.fileName) = some n →
          (migrationHashFileRegex E).exactMatch n = false := by
        intro n hrel
        apply hex_not_legacy
        rw [relativeName_migrationTarget d f.fileName n hex w hname (not_mem_of_hex hex hhex)
          hw hrel]
        exact hhex
      have hne : f.fileName ≠ e.fileName := by
        intro heq
        have hrel := rename_true_gone E d f.fileName (migrationTarget d f.fileName) e hrenamed
          hmem heq.symm
        have := hnew f.fileName hrel
        rw [this] at hm
        exact absurd hm (by simp)
      refine ⟨?_, ?_⟩
      · rcases rename_entries E d f.fileName (migrationTarget d f.fileName) e hmem with
          hold | ⟨n, x, hrel, _, _, _, hexn⟩
        · exact hold
        · have hn : e.fileName = n := by rw [hexn]
          have := hnew n hrel
          rw [← hn, hlegacy] at this
          exact absurd this (by simp)
      · intro g hg
        rcases List.mem_cons.1 hg with rfl | hg
        · exact hne
        · exact hrest g hg

/-- A loop over files of which none has a legacy name calls `rename` for none
and leaves the directory as it is. -/
theorem foldl_migrate_no_legacy (E : Environment) (fs : List QFileInfo)
    (hnone : ∀ f ∈ fs, (migrationHashFileRegex E).exactMatch f.fileName = false) :
    ∀ (d : QDir) (log : List RenameAttempt),
      List.foldl (migrateFile E) (d, log) fs = (d, log) := by
  induction fs with
  | nil => intro d log; rfl
  | cons f fs ih =>
    intro d log
    rw [foldl_migrate_cons, hnone f (List.mem_cons_self f fs)]
    simp only [Bool.false_eq_true, if_false]
    exact ih (fun g hg => hnone g (List.mem_cons_of_mem f hg)) d log


theorem performMappingMigration_of_no_legacy (E : Environment) (s : AssetServer)
    (hnone : ∀ f ∈ s._resourcesDirectory.files,
      (migrationHashFileRegex E).exactMatch f.fileName = false) :
    s.performMappingMigration E = (s, []) := by
  simp only [AssetServer.performMappingMigration]
  rw [foldl_migrate_no_legacy E _ hnone]

theorem withoutFullExtension_of_parts (name : QString) (hex w : List Char)
    (hname : name.toList = hex ++ '.' :: w) (hdot : '.' ∉ hex) :
    name.withoutFullExtension = String.mk hex := by
  have hidx := indexOf_of_parts name hex w hname hdot
  have hnot : ¬ ((hex.length : Int) < 0) := by omega
  simp only [QString.withoutFullExtension, hidx, hnot, if_false, Int.toNat_ofNat, hname,
    List.take_left]

/-- C24: for a file name n that matches the pattern of `performMappingMigration`,
the name in front of the first '.' of n has 64 characters, matches the pattern
with which `completeSetup` counts the asset files and does not match the pattern
of `performMappingMigration`, and a rename whose target lies in the storage root
gives the file that name.  After a pass of the migration in which every call of
`rename` returned true no file of the storage root matches the pattern of the
migration, and a second pass calls `rename` for no file and leaves the server
as it is. -/
theorem migration_idempotent (E : Environment) (n : QString) (s : AssetServer)
    (hn : (migrationHashFileRegex E).exactMatch n = true)
    (hall : ∀ a ∈ (s.performMappingMigration E).2, a.renamed = true) :
    n.withoutFullExtension.length = 64
    ∧ n.withoutFullExtension.toList
        = n.toList.take (n.toList.indexOf '.')
    ∧ setupHashFileRegex.exactMatch n.withoutFullExtension = true
    ∧ (migrationHashFileRegex E).exactMatch n.withoutFullExtension = false
    ∧ (∀ (d : QDir) (m : QString), d.relativeName (migrationTarget d n) = some m →
        m = n.withoutFullExtension)
    ∧ (∀ f ∈ (s.performMappingMigration E).1._resourcesDirectory.files,
        (migrationHashFileRegex E).exactMatch f.fileName = false)
    ∧ ((s.performMappingMigration E).1.performMappingMigration E).2 = []
    ∧ ((s.performMappingMigration E).1.performMappingMigration E).1
        = (s.performMappingMigration E).1 := by
  obtain ⟨hex, w, hname, hlen, hhex, hw, _⟩ :=
    legacyName_parts E n ((exactMatch_iff_legacyName E n).1 hn)
  have hdot := not_mem_of_hex hex hhex
  have hstrip := withoutFullExtension_of_parts n hex w hname hdot.1
  have hnone : ∀ f ∈ (s.performMappingMigration E).1._resourcesDirectory.files,
      (migrationHashFileRegex E).exactMatch f.fileName = false := by
    intro f hf
    cases hm : (migrationHashFileRegex E).exactMatch f.fileName with
    | false => rfl
    | true =>
      obtain ⟨hmem, hrest⟩ := foldl_migrate_legacy_left E s._resourcesDirectory.files
        s._resourcesDirectory [] hall f hf hm
      exact absurd rfl (hrest f hmem)
  have hsecond := performMappingMigration_of_no_legacy E (s.performMappingMigration E).1 hnone
  refine ⟨?_, ?_, ?_, ?_, ?_, hnone, by rw [hsecond], by rw [hsecond]⟩
  · rw [hstrip]
    exact hlen
  · have hidx : n.toList.indexOf '.' = hex.length := by
      have := indexOf_of_parts n hex w hname hdot.1
      have hmem : '.' ∈ n.toList := by rw [hname]; simp
      simp only [QString.indexOf, hmem, if_true] at this
      exact_mod_cast this
    rw [hstrip, hidx, hname, List.take_left]
    rfl
  · rw [hstrip]
    exact (QRegExp.rmatch_times_cls_iff isLowerHexChar SHA256_HASH_HEX_LENGTH hex).2 ⟨hlen, hhex⟩
  · rw [hstrip]
    exact hex_not_legacy E (String.mk hex) hhex
  · intro d m hrel
    have hm := relativeName_migrationTarget d n m hex w hname hdot hw hrel
    rw [hstrip]
    exact String.ext hm

theorem migration_idempotent_witness :
    (migrationHashFileRegex sampleEnvironment).exactMatch (sampleHash ++ ".tar.gz") = true
    ∧ (∀ a ∈ (sampleLegacyServer.performMappingMigration sampleEnvironment).2,
        a.renamed = true)
    ∧ ((sampleHash ++ ".tar.gz").withoutFullExtension.length = 64
      ∧ (sampleHash ++ ".tar.gz").withoutFullExtension.toList
          = (sampleHash ++ ".tar.gz").toList.take ((sampleHash ++ ".tar.gz").toList.indexOf '.')
      ∧ setupHashFileRegex.exactMatch (sampleHash ++ ".tar.gz").withoutFullExtension = true
      ∧ (migrationHashFileRegex sampleEnvironment).exactMatch
          (sampleHash ++ ".tar.gz").withoutFullExtension = false
      ∧ (∀ (d : QDir) (m : QString),
          d.relativeName (migrationTarget d (sampleHash ++ ".tar.gz")) = some m →
          m = (sampleHash ++ ".tar.gz").withoutFullExtension)
      ∧ (∀ f ∈ (sampleLegacyServer.performMappingMigration
            sampleEnvironment).1._resourcesDirectory.files,
          (migrationHashFileRegex sampleEnvironment).exactMatch f.fileName = false)
      ∧ ((sampleLegacyServer.performMappingMigration
            sampleEnvironment).1.performMappingMigration sampleEnvironment).2 = []
      ∧ ((sampleLegacyServer.performMappingMigration
            sampleEnvironment).1.performMappingMigration sampleEnvironment).1
          = (sampleLegacyServer.performMappingMigration sampleEnvironment).1) :=
  ⟨by decide, by decide,
    migration_idempotent sampleEnvironment (sampleHash ++ ".tar.gz") sampleLegacyServer
      (by decide) (by decide)⟩

end Hifi
